import Mathlib

/-!
Verification development for the 3D void-and-cluster dither-array generator
(`void-cluster-3d.cpp`).

The C++ source is shallowly embedded: `float` values are modelled as exact
rationals (`ℚ`), the `std::set<std::pair<float,int>>` tracking sets as
`Finset (Lex (ℚ × ℤ))` (a `std::set` of pairs is an ordered set under the
lexicographic order, `cbegin` is its least and `crbegin` its greatest
element), `std::vector<float>` storage as functions `ℤ → ℚ`, the
`while` loops as fuelled recursions, and the random draws of `std::mt19937`
run through `uniform_real_distribution` / `uniform_int_distribution` as
explicit input streams (the C++ standard does not pin down the distribution
algorithms, so the streams are universally quantified where possible and
instantiated for concrete executions).  Exceptions (`throw`, failed
`assert`) are modelled with `Except` / `Option`.
-/

namespace VoidCluster

/-- `using T3 = std::tuple<int,int,int>;` with the componentwise
`operator+` / `operator-` of the source given by the product instances. -/
abbrev T3 : Type := ℤ × ℤ × ℤ

/-- `static void mod(int& a, const int d) { a %= d; a += d; a %= d; }`
C++ `%` on `int` is truncated remainder (`Int.tmod`). -/
def cmod (a d : ℤ) : ℤ := (Int.tmod a d + d).tmod d

/-- `static int dist2(int i0, int i1, int i2)`. -/
def dist2 (i0 i1 i2 : ℤ) : ℤ := i0 * i0 + i1 * i1 + i2 * i2

/-- The triple-nested loop `for i2 … for i1 … for i0 …` over a
`d0 × d1 × d2` box, in exactly the iteration order of the source
(`i0` innermost), as the list of visited coordinates. -/
def cellsList (d0 d1 d2 : ℤ) : List T3 :=
  (List.range d2.toNat).flatMap fun i2 =>
    (List.range d1.toNat).flatMap fun i1 =>
      (List.range d0.toNat).map fun i0 => (Int.ofNat i0, Int.ofNat i1, Int.ofNat i2)

/-- `class Matrix3D`: dimensions `_d0,_d1,_d2` and the dense storage
`std::vector<float> _mat3D`, modelled as a total function on flat
indices (the vector is only ever addressed at indices produced by
`T3_to_idx`, which lie in `[0, _size)`). -/
@[ext]
structure Matrix3D where
  d0 : ℤ
  d1 : ℤ
  d2 : ℤ
  data : ℤ → ℚ

/-- `int size() const { return _size; }` with `_size = d0*d1*d2`. -/
def Matrix3D.size (m : Matrix3D) : ℤ := m.d0 * m.d1 * m.d2

/-- `int T3_to_idx(const T3&)`: each component is reduced by `mod` and the
result flattened row-major: `i0 + i1*_d0 + i2*_d01`. -/
def Matrix3D.T3_to_idx (m : Matrix3D) (t : T3) : ℤ :=
  cmod t.1 m.d0 + cmod t.2.1 m.d1 * m.d0 + cmod t.2.2 m.d2 * (m.d0 * m.d1)

/-- `T3 idx_to_T3(const int idx)`:
`{ idx % _d0, (idx % _d01) / _d0, idx / _d01 }` (C++ truncated `%`, `/`). -/
def Matrix3D.idx_to_T3 (m : Matrix3D) (idx : ℤ) : T3 :=
  (Int.tmod idx m.d0, Int.tdiv (Int.tmod idx (m.d0 * m.d1)) m.d0,
    Int.tdiv idx (m.d0 * m.d1))

/-- `float get(const T3& t3) const { return _mat3D[T3_to_idx(t3)]; }`. -/
def Matrix3D.get (m : Matrix3D) (t : T3) : ℚ := m.data (m.T3_to_idx t)

/-- Assignment through `float& at(const T3& t3)`. -/
def Matrix3D.setT (m : Matrix3D) (t : T3) (v : ℚ) : Matrix3D :=
  { m with data := fun j => if j = m.T3_to_idx t then v else m.data j }

/-- Assignment through `float& at(const int idx)` (no index reduction). -/
def Matrix3D.setIdx (m : Matrix3D) (idx : ℤ) (v : ℚ) : Matrix3D :=
  { m with data := fun j => if j = idx then v else m.data j }

/-- `static Matrix3D GaussianMatrix(int size, float sigma)` with
`assert(size % 2 == 1);` modelled as an `Except` gate.  `exp` on `float`
is kept abstract as a parameter `expf : ℚ → ℚ`; each cell of the
`size × size × size` cube receives
`expf(-dist2(i0-c0, i1-c1, i2-c2) * inv_sigma2)` where `c = size/2`
and `inv_sigma2 = 1/(2*sigma*sigma)`, written via the same cell loop as
the source. -/
def GaussianMatrix (size : ℤ) (sigma : ℚ) (expf : ℚ → ℚ) :
    Except String Matrix3D :=
  if Int.tmod size 2 = 1 then
    let c : ℤ := Int.tdiv size 2
    let inv_sigma2 : ℚ := 1 / (2 * sigma * sigma)
    .ok ((cellsList size size size).foldl
      (fun g t =>
        g.setT t (expf (-((dist2 (t.1 - c) (t.2.1 - c) (t.2.2 - c) : ℤ) : ℚ)
          * inv_sigma2)))
      ⟨size, size, size, fun _ => 0⟩)
  else .error "assertion failed: size % 2 == 1"

/-- `class Matrix3D_w_void_and_cluster_tracking : public Matrix3D`.
`mat` is the inherited content matrix (`_mat3D` of the base class),
`weights` the member `Matrix3D weights` holding the accumulated energy,
`filter` the member `const Matrix3D filter`.  The two `std::set` members
are ordered sets of `(energy, flat index)` pairs. -/
@[ext]
structure Matrix3D_w_void_and_cluster_tracking where
  mat : Matrix3D
  weights : Matrix3D
  filter : Matrix3D
  track_void : Finset (Lex (ℚ × ℤ))
  track_cluster : Finset (Lex (ℚ × ℤ))
  cluster_tracking_is_on : Bool

abbrev TrackState : Type := Matrix3D_w_void_and_cluster_tracking

/-- `void add_to_void(const T3& t3)`. -/
def add_to_void (s : TrackState) (t : T3) : TrackState :=
  let idx := s.mat.T3_to_idx t
  { s with
    track_cluster := s.track_cluster.erase (toLex (s.weights.data idx, idx))
    track_void := insert (toLex (s.weights.data idx, idx)) s.track_void }

/-- `void add_to_cluster(const T3& t3)`: the entry is moved to the cluster
set only when it was still void-tracked and cluster tracking is on. -/
def add_to_cluster (s : TrackState) (t : T3) : TrackState :=
  let idx := s.mat.T3_to_idx t
  let was_tracked := toLex (s.weights.data idx, idx) ∈ s.track_void
  { s with
    track_void := s.track_void.erase (toLex (s.weights.data idx, idx))
    track_cluster :=
      if was_tracked ∧ s.cluster_tracking_is_on then
        insert (toLex (s.weights.data idx, idx)) s.track_cluster
      else s.track_cluster }

/-- `void update(const T3& t3, float value)`: refresh the tracker entry of
the touched voxel (remove under the old energy, reinsert under the new
one) while adding `value` to its energy; the branch is chosen by the
voxel's content. -/
def update (s : TrackState) (t : T3) (value : ℚ) : TrackState :=
  let idx := s.mat.T3_to_idx t
  if s.mat.data idx ≠ 0 then
    let was_tracked := toLex (s.weights.data idx, idx) ∈ s.track_cluster
    let cl := s.track_cluster.erase (toLex (s.weights.data idx, idx))
    let w' := s.weights.setIdx idx (s.weights.data idx + value)
    { s with
      weights := w'
      track_cluster :=
        if was_tracked ∧ s.cluster_tracking_is_on then
          insert (toLex (w'.data idx, idx)) cl
        else cl }
  else
    let was_tracked := toLex (s.weights.data idx, idx) ∈ s.track_void
    let vd := s.track_void.erase (toLex (s.weights.data idx, idx))
    let w' := s.weights.setIdx idx (s.weights.data idx + value)
    { s with
      weights := w'
      track_void :=
        if was_tracked then insert (toLex (w'.data idx, idx)) vd else vd }

/-- `void conv_at(const T3& r)`: add the kernel footprint centred at `r`
(the filter is a constant member, untouched by `update`, so its cells and
dimensions are read off the initial state). -/
def conv_at (s : TrackState) (r : T3) : TrackState :=
  let center : T3 :=
    (Int.tdiv s.filter.d0 2, Int.tdiv s.filter.d1 2, Int.tdiv s.filter.d2 2)
  (cellsList s.filter.d0 s.filter.d1 s.filter.d2).foldl
    (fun st g => update st (r + g - center) (s.filter.get g)) s

/-- `void deconv_at(const T3& r)`: subtract the kernel footprint. -/
def deconv_at (s : TrackState) (r : T3) : TrackState :=
  let center : T3 :=
    (Int.tdiv s.filter.d0 2, Int.tdiv s.filter.d1 2, Int.tdiv s.filter.d2 2)
  (cellsList s.filter.d0 s.filter.d1 s.filter.d2).foldl
    (fun st g => update st (r + g - center) (-s.filter.get g)) s

/-- `void set_pixel(const T3& t3, float value)`:
`if (at(t3) > 0) throw std::runtime_error("already set");` then write the
content, reclassify, and convolve. -/
def set_pixel (s : TrackState) (t : T3) (value : ℚ) :
    Except String TrackState :=
  if 0 < s.mat.get t then .error "already set"
  else .ok (conv_at (add_to_cluster { s with mat := s.mat.setT t value } t) t)

/-- `void reset_pixel(const T3& t3)`: unconditional. -/
def reset_pixel (s : TrackState) (t : T3) : TrackState :=
  deconv_at (add_to_void { s with mat := s.mat.setT t 0 } t) t

/-- `void remove_tracking(const T3& t3)`: erase the voxel's entry (keyed
by its current energy) from both sets. -/
def remove_tracking (s : TrackState) (t : T3) : TrackState :=
  let idx := s.mat.T3_to_idx t
  { s with
    track_void := s.track_void.erase (toLex (s.weights.data idx, idx))
    track_cluster := s.track_cluster.erase (toLex (s.weights.data idx, idx)) }

/-- `void cluster_tracking_off()`. -/
def cluster_tracking_off (s : TrackState) : TrackState :=
  { s with cluster_tracking_is_on := false, track_cluster := ∅ }

/-- `const T3 max_void() const { return idx_to_T3(_track_void.cbegin()->second); }`
— the least `(energy, index)` pair of the ordered void set; on an empty
set the C++ dereferences a past-the-end iterator, modelled as `none`. -/
def max_void (s : TrackState) : Option T3 :=
  if h : s.track_void.Nonempty then
    some (s.mat.idx_to_T3 (ofLex (s.track_void.min' h)).2)
  else none

/-- `const T3 max_cluster() const { return idx_to_T3(_track_cluster.crbegin()->second); }`
— the greatest `(energy, index)` pair of the ordered cluster set. -/
def max_cluster (s : TrackState) : Option T3 :=
  if h : s.track_cluster.Nonempty then
    some (s.mat.idx_to_T3 (ofLex (s.track_cluster.max' h)).2)
  else none

/-- `void void_initialization()`: every voxel is inserted into the void
set, in the source's loop order over the `weights` dimensions. -/
def void_initialization (s : TrackState) : TrackState :=
  (cellsList s.weights.d0 s.weights.d1 s.weights.d2).foldl add_to_void s

/-- The constructor
`Matrix3D_w_void_and_cluster_tracking(int d0, int d1, int d2)`:
zero content, `small_randomization()` filling `weights` with the jitter
draws of `uniform_real_distribution(0, EPS)` in flat loop order (the draw
stream is the parameter `jitter`), then `void_initialization()`.  The
`filter` member (`GaussianMatrix(FILTER_SIZE, SIGMA)` in the source) is a
parameter. -/
def mkTracked (d0 d1 d2 : ℤ) (filt : Matrix3D) (jitter : ℤ → ℚ) :
    TrackState :=
  void_initialization
    { mat := ⟨d0, d1, d2, fun _ => 0⟩
      weights := ⟨d0, d1, d2, jitter⟩
      filter := filt
      track_void := ∅
      track_cluster := ∅
      cluster_tracking_is_on := true }

/-- `static void initial_bitmap(…, int count)`: rejection-sample `count`
distinct off voxels and set each with the sentinel value `1`.  The
coordinate triples produced by the three `uniform_int_distribution`s are
the input stream `draws` (consumed one triple per loop pass, indexed by
`step`); the unbounded `while (count > 0)` is fuelled. -/
def initial_bitmap (fuel : ℕ) (draws : ℕ → T3) (count : ℕ) (step : ℕ)
    (s : TrackState) : Option TrackState :=
  match fuel with
  | 0 => if count = 0 then some s else none
  | fuel + 1 =>
    if count = 0 then some s
    else
      let r := draws step
      if s.mat.get r = 0 then
        match set_pixel s r 1 with
        | .ok s' => initial_bitmap fuel draws (count - 1) (step + 1) s'
        | .error _ => none
      else initial_bitmap fuel draws count (step + 1) s

/-- One pass of the `while (true)` body of `reorder_bitmap`: take the
largest cluster, reset it, take the largest void, set it, and report
whether the exit condition `t_min == t_max` fired.  A `none` models the
undefined extremum of an empty set or a thrown `set_pixel`. -/
def reorder_body (s : TrackState) : Option (TrackState × Bool) :=
  match max_cluster s with
  | none => none
  | some t_max =>
    let s1 := reset_pixel s t_max
    match max_void s1 with
    | none => none
    | some t_min =>
      match set_pixel s1 t_min 1 with
      | .ok s2 => some (s2, t_min = t_max)
      | .error _ => none

/-- `static void reorder_bitmap(…)`: the fuelled `while (true)` loop. -/
def reorder_bitmap (fuel : ℕ) (s : TrackState) : Option TrackState :=
  match fuel with
  | 0 => none
  | fuel + 1 =>
    match reorder_body s with
    | none => none
    | some (s', done) => if done then some s' else reorder_bitmap fuel s'

/-- `static void rank_initial_bitmap(…, int count)`: pull the largest
cluster, re-set it with rank `(count-1)/size`, and evict it; `count`
iterations in total. -/
def rank_initial_bitmap (count : ℕ) (s : TrackState) : Option TrackState :=
  match count with
  | 0 => some s
  | c + 1 =>
    match max_cluster s with
    | none => none
    | some t_max =>
      let s1 := reset_pixel s t_max
      match set_pixel s1 t_max ((c : ℚ) / (s1.mat.size : ℚ)) with
      | .ok s2 => rank_initial_bitmap c (remove_tracking s2 t_max)
      | .error _ => none

/-- `static void phase_1(…, int count)`. -/
def phase_1 (fuelIB fuelRB : ℕ) (draws : ℕ → T3) (count : ℕ)
    (s : TrackState) : Option TrackState :=
  (initial_bitmap fuelIB draws count 0 s).bind fun s1 =>
    (reorder_bitmap fuelRB s1).bind fun s2 =>
      rank_initial_bitmap count s2

/-- The `for (; count < mat3d.size(); ++count)` loop of `phase_2_and_3`,
by its iteration count. -/
def phase23_loop (iters : ℕ) (count : ℕ) (s : TrackState) :
    Option TrackState :=
  match iters with
  | 0 => some s
  | n + 1 =>
    match max_void s with
    | none => none
    | some t_min =>
      match set_pixel s t_min ((count : ℚ) / (s.mat.size : ℚ)) with
      | .ok s' => phase23_loop n (count + 1) s'
      | .error _ => none

/-- `static void phase_2_and_3(…, int count)`: disable cluster tracking,
then fill every remaining rank from `count` up to `size - 1`. -/
def phase_2_and_3 (count : ℕ) (s : TrackState) : Option TrackState :=
  phase23_loop ((s.mat.size - count).toNat) count (cluster_tracking_off s)

/-- `constexpr int N = 32;` -/
def Nconst : ℤ := 32

/-- `static constexpr float SIGMA = 1.4;` (the `float` literal as a
rational). -/
def SIGMA : ℚ := 7 / 5

/-- `static constexpr int FILTER_SIZE = 17;` -/
def FILTER_SIZE : ℤ := 17

/-- `constexpr bool use_random_device = false;` (the fixed-seed
configuration of the source). -/
def use_random_device : Bool := false

/-- `constexpr int INITIAL_COUNT = (6*6*6 + 7*7*7) / 2;` -/
def INITIAL_COUNT : ℕ := (6 * 6 * 6 + 7 * 7 * 7) / 2

/-- `unsigned int seed() { std::random_device rd; return use_random_device ? rd() : 0; }`
The OS entropy a run would observe is the argument. -/
def seed (entropy : ℕ) : ℕ := if use_random_device then entropy else 0

/-- `int main()` up to the point where the content field is complete (the
export and viewer consume it afterwards): build the tracked matrix (whose
constructor seeds the jitter generator), run `phase_1` and
`phase_2_and_3` with `INITIAL_COUNT`.  `jf`/`df` map a generator seed to
the jitter and coordinate draw streams of the two `std::mt19937`
instances, `expf` models `float` `exp`. -/
def run_program (expf : ℚ → ℚ) (jf : ℕ → ℤ → ℚ) (df : ℕ → ℕ → T3)
    (fuelIB fuelRB : ℕ) (entropy : ℕ) : Option TrackState :=
  match GaussianMatrix FILTER_SIZE SIGMA expf with
  | .error _ => none
  | .ok filt =>
    let s0 := mkTracked Nconst Nconst Nconst filt (jf (seed entropy))
    (phase_1 fuelIB fuelRB (df (seed entropy)) INITIAL_COUNT s0).bind
      fun s1 => phase_2_and_3 INITIAL_COUNT s1

/-! ### Specification-side notions used to state the claims -/

/-- The tracker entries a set of flat indices `A` would have under the
energy field `w`: one `(w i, i)` pair per index. -/
def entriesOf (w : ℤ → ℚ) (A : Finset ℤ) : Finset (Lex (ℚ × ℤ)) :=
  A.image fun i => toLex (w i, i)

/-- The flat indices currently carried by the void set. -/
def voidIndices (s : TrackState) : Finset ℤ :=
  s.track_void.image fun p => (ofLex p).2

/-- The flat indices currently carried by the cluster set. -/
def clusterIndices (s : TrackState) : Finset ℤ :=
  s.track_cluster.image fun p => (ofLex p).2

/-- The flat index range `[0, d0*d1*d2)` of the lattice. -/
def idxRange (m : Matrix3D) : Finset ℤ := Finset.Ico 0 m.size

/-- Total kernel weight that `conv_at r` adds to the voxel with flat
index `j` (several filter cells can wrap onto the same voxel). -/
def footprint (m f : Matrix3D) (j : ℤ) (r : T3) : ℚ :=
  let center : T3 := (Int.tdiv f.d0 2, Int.tdiv f.d1 2, Int.tdiv f.d2 2)
  ((cellsList f.d0 f.d1 f.d2).map
    (fun g => if m.T3_to_idx (r + g - center) = j then f.get g else 0)).sum

/-- The canonical energy field: initial jitter plus the kernel
contribution of every voxel of the on-set `S`. -/
def canonW (m f : Matrix3D) (jit : ℤ → ℚ) (S : Finset ℤ) (j : ℤ) : ℚ :=
  jit j + ∑ i ∈ S, footprint m f j (m.idx_to_T3 i)

/-- The on-voxels (strictly positive content) of a content matrix. -/
def onIndices (m : Matrix3D) : Finset ℤ :=
  (idxRange m).filter fun i => 0 < m.data i

/-- Consistency of the two tracking sets with the content and energy
fields: the void set carries exactly the indices of `V` and the cluster
set exactly those of `C`, each keyed by its current energy; `V` holds
off-voxels, `C` on-voxels; both live in the index range; positive
dimensions. -/
def EngineInv (s : TrackState) (V C : Finset ℤ) : Prop :=
  (0 < s.mat.d0 ∧ 0 < s.mat.d1 ∧ 0 < s.mat.d2) ∧
  s.track_void = entriesOf s.weights.data V ∧
  s.track_cluster = entriesOf s.weights.data C ∧
  (∀ i ∈ V, s.mat.data i = 0) ∧
  (∀ i ∈ C, 0 < s.mat.data i) ∧
  V ⊆ idxRange s.mat ∧ C ⊆ idxRange s.mat ∧ Disjoint V C

/-- The void-side half of `EngineInv` (all that the merged phase 2/3
needs once cluster tracking is disabled). -/
def VoidInv (s : TrackState) (V : Finset ℤ) : Prop :=
  (0 < s.mat.d0 ∧ 0 < s.mat.d1 ∧ 0 < s.mat.d2) ∧
  s.track_void = entriesOf s.weights.data V ∧
  (∀ i ∈ V, s.mat.data i = 0) ∧
  V ⊆ idxRange s.mat

/-- Cluster-set sanity: either cluster tracking is on, or the cluster set
has already been cleared (the only two situations the engine creates). -/
def flagOK (s : TrackState) : Prop :=
  s.cluster_tracking_is_on = true ∨ s.track_cluster = ∅

/-- The content/tracking biconditional asserted by the specification:
every in-range voxel outside the evicted set satisfies
`content == 0 ↔ void member` and `content > 0 ↔ cluster member`. -/
def ContentTrackingIff (s : TrackState) (evicted : Finset ℤ) : Prop :=
  ∀ i ∈ idxRange s.mat, i ∉ evicted →
    ((s.mat.data i = 0 ↔ i ∈ voidIndices s) ∧
     (0 < s.mat.data i ↔ i ∈ clusterIndices s))

instance (s : TrackState) (V C : Finset ℤ) : Decidable (EngineInv s V C) := by
  unfold EngineInv; infer_instance

instance (s : TrackState) (V : Finset ℤ) : Decidable (VoidInv s V) := by
  unfold VoidInv; infer_instance

instance (s : TrackState) : Decidable (flagOK s) := by
  unfold flagOK; infer_instance

instance (s : TrackState) (ev : Finset ℤ) :
    Decidable (ContentTrackingIff s ev) := by
  unfold ContentTrackingIff; infer_instance

/-- The multiset of content values over a set of flat indices. -/
def contentMS (s : TrackState) (A : Finset ℤ) : Multiset ℚ :=
  A.val.map s.mat.data

/-- The multiset of rank values `{lo/n, …, (hi-1)/n}`. -/
def ranksMS (n : ℤ) (lo hi : ℕ) : Multiset ℚ :=
  (Finset.Ico lo hi).val.map fun i => (Nat.cast i : ℚ) / (Int.cast n : ℚ)

/-- Total pairwise clustering energy of the on-set `S`, measured by the
kernel footprint. -/
def clusterEnergy (m f : Matrix3D) (S : Finset ℤ) : ℚ :=
  ∑ x ∈ S, ∑ y ∈ S, footprint m f x (m.idx_to_T3 y)

/-- The jitter-corrected potential that each non-final `reorder_bitmap`
swap strictly decreases (lexicographically paired with the index sum). -/
def potential (m f : Matrix3D) (jit : ℤ → ℚ) (S : Finset ℤ) : ℚ :=
  clusterEnergy m f S + 2 * ∑ i ∈ S, jit i

/-- The lexicographic termination measure of the balancing loop. -/
def reorderMeasure (m f : Matrix3D) (jit : ℤ → ℚ) (S : Finset ℤ) :
    Lex (ℚ × ℤ) :=
  toLex (potential m f jit S, ∑ i ∈ S, i)

/-- A filter whose toroidal footprint is symmetric: the total weight sent
from `r` to the congruence class of `j` equals the weight sent back.
`GaussianMatrix` kernels have this property (proved below). -/
def FootprintSymm (m f : Matrix3D) : Prop :=
  ∀ i j : ℤ, i ∈ idxRange m → j ∈ idxRange m →
    footprint m f j (m.idx_to_T3 i) = footprint m f i (m.idx_to_T3 j)

/-- The energy field after a single increment of `value` at index `i`
(the effect of one `update` on `weights`, which stores
`weights.at(idx) + value` at `idx`). -/
def bumpAt (w : ℤ → ℚ) (i : ℤ) (v : ℚ) : ℤ → ℚ :=
  fun j => if j = i then w i + v else w j

/-- A tracked state in canonical form: energy field `w` and tracking
sets determined by the index sets `V` and `C`. -/
def withWVC (s : TrackState) (w : ℤ → ℚ) (V C : Finset ℤ) : TrackState :=
  { s with
    weights := { s.weights with data := w }
    track_void := entriesOf w V
    track_cluster := entriesOf w C }

/-- Footprint restricted to a list of filter cells (the partial sums
visited by the convolution loop). -/
def footprintL (m : Matrix3D) (center : T3) (vf : T3 → ℚ) (L : List T3)
    (j : ℤ) (r : T3) : ℚ :=
  ((L.map fun g => if m.T3_to_idx (r + g - center) = j then vf g else 0)).sum

/-- The filter center `(dim0/2, dim1/2, dim2/2)` used by the
convolution. -/
def centerOf (f : Matrix3D) : T3 :=
  (Int.tdiv f.d0 2, Int.tdiv f.d1 2, Int.tdiv f.d2 2)

/-- `Except.isOk` as a plain `Bool` observer. -/
def isOkE {ε α : Type} : Except ε α → Bool
  | .ok _ => true
  | .error _ => false

/-- Invariant carried by the `reorder_bitmap` loop: fixed shape and
filter, cluster tracking on, engine consistency with on-set `S`, and an
energy field that is canonical for `S` over the initial jitter. -/
def ReorderInv (d0 d1 d2 : ℤ) (f : Matrix3D) (jit : ℤ → ℚ)
    (s : TrackState) (S : Finset ℤ) : Prop :=
  s.mat.d0 = d0 ∧ s.mat.d1 = d1 ∧ s.mat.d2 = d2 ∧ s.filter = f ∧
  s.cluster_tracking_is_on = true ∧
  EngineInv s (idxRange s.mat \ S) S ∧
  (∀ j : ℤ, s.weights.data j = canonW s.mat f jit S j)

/-- Position of an on-set in the strictly decreasing sweep of the
termination measure: the number of candidate on-sets of the same size
with strictly smaller measure. -/
def reorderRank (m f : Matrix3D) (jit : ℤ → ℚ) (S : Finset ℤ) : ℕ :=
  (((idxRange m).powerset.filter fun T =>
    T.card = S.card ∧ reorderMeasure m f jit T < reorderMeasure m f jit S)).card

/-- The value `exp(-dist2(i0-c, i1-c, i2-c) * inv_sigma2)` that the
Gaussian construction writes at cell `t`. -/
def gaussVal (size : ℤ) (sigma : ℚ) (expf : ℚ → ℚ) (t : T3) : ℚ :=
  expf (-((dist2 (t.1 - Int.tdiv size 2) (t.2.1 - Int.tdiv size 2)
    (t.2.2 - Int.tdiv size 2) : ℤ) : ℚ) * (1 / (2 * sigma * sigma)))

/-- The kernel mass a convolution at `r` sends to the voxels whose offset
from `r` is congruent to `Δ` (componentwise, modulo the lattice
dimensions); `footprint` only depends on this offset class. -/
def footprintD (m f : Matrix3D) (d : T3) : ℚ :=
  ∑ i2 ∈ Finset.range f.d2.toNat, ∑ i1 ∈ Finset.range f.d1.toNat,
    ∑ i0 ∈ Finset.range f.d0.toNat,
      if m.d0 ∣ (Int.ofNat i0 - Int.tdiv f.d0 2 - d.1) ∧
         m.d1 ∣ (Int.ofNat i1 - Int.tdiv f.d1 2 - d.2.1) ∧
         m.d2 ∣ (Int.ofNat i2 - Int.tdiv f.d2 2 - d.2.2)
      then f.get (Int.ofNat i0, Int.ofNat i1, Int.ofNat i2) else 0

/-- A kernel whose cell values are invariant under flipping every axis
about the centre of the cube. -/
def CellSymm (f : Matrix3D) : Prop :=
  ∀ g ∈ cellsList f.d0 f.d1 f.d2,
    f.get (f.d0 - 1 - g.1, f.d1 - 1 - g.2.1, f.d2 - 1 - g.2.2) = f.get g

/-- Odd (hence positive) kernel dimensions. -/
def OddDims (f : Matrix3D) : Prop :=
  f.d0 = 2 * Int.tdiv f.d0 2 + 1 ∧ f.d1 = 2 * Int.tdiv f.d1 2 + 1 ∧
  f.d2 = 2 * Int.tdiv f.d2 2 + 1

/-- Extract the payload of an `Except`, with a default. -/
def exceptGetD {ε α : Type} (x : Except ε α) (d : α) : α :=
  match x with
  | .ok a => a
  | .error _ => d

/-! ### Concrete instantiation used by the witnesses: a `1 × 1 × 2`
lattice with a `1 × 1 × 1` kernel, zero jitter, constant draws. -/

/-- Zero jitter stream (ties are then broken purely by flat index). -/
def jitW : ℤ → ℚ := fun _ => 0

/-- Constant coordinate draw stream. -/
def drawsW : ℕ → T3 := fun _ => (0, 0, 0)

/-- The `1×1×1` kernel produced by `GaussianMatrix 1 1` with the constant
model of `exp`. -/
def filtW : Matrix3D := ⟨1, 1, 1, fun j => if j = 0 then 1 else 0⟩

/-- The freshly constructed `1 × 1 × 2` tracked lattice. -/
def sW : TrackState := mkTracked 1 1 2 filtW jitW

/-- After `initial_bitmap` with `count = 1`. -/
def sInitW : TrackState := (initial_bitmap 1 drawsW 1 0 sW).getD sW

/-- After `reorder_bitmap`. -/
def sReordW : TrackState := (reorder_bitmap 3 sInitW).getD sW

/-- The voxel picked by the single `rank_initial_bitmap` iteration. -/
def tMaxW : T3 := (max_cluster sReordW).getD (0, 0, 0)

/-- The state immediately after the `set_pixel(t_max, 0/size)` toggle of
the final `rank_initial_bitmap` iteration (before `remove_tracking`). -/
def sMidW : TrackState :=
  match set_pixel (reset_pixel sReordW tMaxW) tMaxW
      ((0 : ℚ) / ((reset_pixel sReordW tMaxW).mat.size : ℚ)) with
  | .ok s => s
  | .error _ => sW

/-- After `phase_1` on the witness lattice. -/
def sP1W : TrackState := (phase_1 1 3 drawsW 1 sW).getD sW

/-- The completed witness run (after `phase_2_and_3`). -/
def sFW : TrackState := (phase_2_and_3 1 sP1W).getD sW

/-- The `1×1×1` kernel actually built by `GaussianMatrix 1 1` under the
constant model of `exp`. -/
def gaussW : Matrix3D :=
  exceptGetD (GaussianMatrix 1 1 (fun _ => 1)) ⟨1, 1, 1, fun _ => 0⟩

/-- A fresh `1 × 1 × 2` lattice carrying the Gaussian witness kernel. -/
def sGW : TrackState := mkTracked 1 1 2 gaussW jitW

/-- Its state after `initial_bitmap` with `count = 1`. -/
def sGInitW : TrackState := (initial_bitmap 1 drawsW 1 0 sGW).getD sGW

/-- A `2 × 1 × 1` lattice with the Gaussian witness kernel (a lattice
with `d0 > 1`, for the edge-wrap statement). -/
def sG2W : TrackState := mkTracked 2 1 1 gaussW jitW

/-- That lattice after switching on the voxel at the origin. -/
def sC6W : TrackState := exceptGetD (set_pixel sG2W (0, 0, 0) 1) sG2W

/-! ## Arithmetic of the toroidal index computation -/

theorem neg_lt_tmod (a : ℤ) {d : ℤ} (hd : 0 < d) : -d < Int.tmod a d := by
  rcases a with m | m
  · have h := Int.tmod_nonneg (a := Int.ofNat m) d (Int.ofNat_nonneg m)
    omega
  · obtain ⟨n, rfl⟩ : ∃ n : ℕ, d = (n : ℤ) :=
      ⟨d.toNat, (Int.toNat_of_nonneg hd.le).symm⟩
    have hn : 0 < n := by exact_mod_cast hd
    have hdef : Int.tmod (Int.negSucc m) (n : ℤ) = -((m.succ % n : ℕ) : ℤ) :=
      rfl
    have hlt := Nat.mod_lt m.succ hn
    omega

theorem cmod_eq_emod (a : ℤ) {d : ℤ} (hd : 0 < d) : cmod a d = a % d := by
  unfold cmod
  have h1 : Int.tmod a d < d := Int.tmod_lt_of_pos a hd
  have h2 : -d < Int.tmod a d := neg_lt_tmod a hd
  have h3 : (0 : ℤ) ≤ Int.tmod a d + d := by omega
  rw [Int.tmod_eq_emod h3 hd.le, Int.tmod_def]
  have h4 : a - d * a.tdiv d + d = a + d * (1 - a.tdiv d) := by ring
  rw [h4, Int.add_mul_emod_self_left]

theorem cmod_nonneg (a : ℤ) {d : ℤ} (hd : 0 < d) : 0 ≤ cmod a d := by
  rw [cmod_eq_emod a hd]; exact Int.emod_nonneg a (ne_of_gt hd)

theorem cmod_lt (a : ℤ) {d : ℤ} (hd : 0 < d) : cmod a d < d := by
  rw [cmod_eq_emod a hd]; exact Int.emod_lt_of_pos a hd

theorem cmod_eq_self {a d : ℤ} (h0 : 0 ≤ a) (h : a < d) : cmod a d = a := by
  rw [cmod_eq_emod a (lt_of_le_of_lt h0 h)]; exact Int.emod_eq_of_lt h0 h

theorem cmod_add_right_congr {x y : ℤ} {d : ℤ} (hd : 0 < d)
    (h : cmod x d = cmod y d) (o : ℤ) : cmod (x + o) d = cmod (y + o) d := by
  rw [cmod_eq_emod x hd, cmod_eq_emod y hd] at h
  rw [cmod_eq_emod _ hd, cmod_eq_emod _ hd, Int.add_emod, h, ← Int.add_emod]

theorem cmod_eq_cmod_iff_dvd {x y : ℤ} {d : ℤ} (hd : 0 < d) :
    cmod x d = cmod y d ↔ d ∣ (y - x) := by
  rw [cmod_eq_emod x hd, cmod_eq_emod y hd]
  constructor
  · intro h
    exact Int.ModEq.dvd h
  · intro h
    exact Int.modEq_iff_dvd.mpr h

theorem T3_to_idx_mem (m : Matrix3D) (h0 : 0 < m.d0) (h1 : 0 < m.d1)
    (h2 : 0 < m.d2) (t : T3) : m.T3_to_idx t ∈ idxRange m := by
  unfold Matrix3D.T3_to_idx idxRange Matrix3D.size
  have hc0 := cmod_nonneg t.1 h0
  have hc0' := cmod_lt t.1 h0
  have hc1 := cmod_nonneg t.2.1 h1
  have hc1' := cmod_lt t.2.1 h1
  have hc2 := cmod_nonneg t.2.2 h2
  have hc2' := cmod_lt t.2.2 h2
  set c0 := cmod t.1 m.d0
  set c1 := cmod t.2.1 m.d1
  set c2 := cmod t.2.2 m.d2
  refine Finset.mem_Ico.mpr
    ⟨add_nonneg (add_nonneg hc0 (mul_nonneg hc1 h0.le))
      (mul_nonneg hc2 (mul_nonneg h0.le h1.le)), ?_⟩
  have e1 : c0 + c1 * m.d0 < m.d0 * m.d1 := by nlinarith
  have e2 : c2 * (m.d0 * m.d1) ≤ (m.d2 - 1) * (m.d0 * m.d1) :=
    mul_le_mul_of_nonneg_right (by omega) (by positivity)
  nlinarith

theorem T3_to_idx_idx_to_T3 (m : Matrix3D) (h0 : 0 < m.d0) (h1 : 0 < m.d1)
    (h2 : 0 < m.d2) {j : ℤ} (hj : j ∈ idxRange m) :
    m.T3_to_idx (m.idx_to_T3 j) = j := by
  obtain ⟨hj0, hjlt⟩ := Finset.mem_Ico.mp hj
  have hjlt' : j < m.d0 * m.d1 * m.d2 := hjlt
  have hd01 : 0 < m.d0 * m.d1 := mul_pos h0 h1
  unfold Matrix3D.T3_to_idx Matrix3D.idx_to_T3
  have hx : Int.tmod j m.d0 = j % m.d0 := Int.tmod_eq_emod hj0 h0.le
  have hm01 : Int.tmod j (m.d0 * m.d1) = j % (m.d0 * m.d1) :=
    Int.tmod_eq_emod hj0 hd01.le
  have hemod0 : 0 ≤ j % (m.d0 * m.d1) := Int.emod_nonneg j (ne_of_gt hd01)
  have hy : (Int.tmod j (m.d0 * m.d1)).tdiv m.d0 = (j % (m.d0 * m.d1)) / m.d0 := by
    rw [hm01]; exact Int.tdiv_eq_ediv hemod0 h0.le
  have hz : Int.tdiv j (m.d0 * m.d1) = j / (m.d0 * m.d1) :=
    Int.tdiv_eq_ediv hj0 hd01.le
  simp only [hx, hy, hz]
  have hxr : cmod (j % m.d0) m.d0 = j % m.d0 :=
    cmod_eq_self (Int.emod_nonneg j (ne_of_gt h0)) (Int.emod_lt_of_pos j h0)
  have hylt : (j % (m.d0 * m.d1)) / m.d0 < m.d1 := by
    have h := Int.emod_lt_of_pos j hd01
    rw [Int.ediv_lt_iff_lt_mul h0]
    calc j % (m.d0 * m.d1) < m.d0 * m.d1 := h
    _ = m.d1 * m.d0 := by ring
  have hyr : cmod ((j % (m.d0 * m.d1)) / m.d0) m.d1 = (j % (m.d0 * m.d1)) / m.d0 :=
    cmod_eq_self (Int.ediv_nonneg hemod0 h0.le) hylt
  have hzlt : j / (m.d0 * m.d1) < m.d2 := by
    rw [Int.ediv_lt_iff_lt_mul hd01]
    calc j < m.d0 * m.d1 * m.d2 := hjlt'
    _ = m.d2 * (m.d0 * m.d1) := by ring
  have hzr : cmod (j / (m.d0 * m.d1)) m.d2 = j / (m.d0 * m.d1) :=
    cmod_eq_self (Int.ediv_nonneg hj0 hd01.le) hzlt
  rw [hxr, hyr, hzr]
  have hsplit : j % (m.d0 * m.d1) =
      m.d0 * ((j % (m.d0 * m.d1)) / m.d0) + j % m.d0 := by
    have h := Int.ediv_add_emod (j % (m.d0 * m.d1)) m.d0
    rw [Int.emod_emod_of_dvd j ⟨m.d1, rfl⟩] at h
    linarith
  have htop : j = m.d0 * m.d1 * (j / (m.d0 * m.d1)) + j % (m.d0 * m.d1) :=
    (Int.ediv_add_emod j (m.d0 * m.d1)).symm
  linarith [htop, hsplit]

theorem T3_to_idx_comp0 (m : Matrix3D) (h0 : 0 < m.d0) (h1 : 0 < m.d1)
    (h2 : 0 < m.d2) (t : T3) : (m.T3_to_idx t) % m.d0 = cmod t.1 m.d0 := by
  unfold Matrix3D.T3_to_idx
  have e : cmod t.1 m.d0 + cmod t.2.1 m.d1 * m.d0 + cmod t.2.2 m.d2 * (m.d0 * m.d1)
      = cmod t.1 m.d0 + m.d0 * (cmod t.2.1 m.d1 + cmod t.2.2 m.d2 * m.d1) := by
    ring
  rw [e, Int.add_mul_emod_self_left]
  exact Int.emod_eq_of_lt (cmod_nonneg t.1 h0) (cmod_lt t.1 h0)

theorem T3_to_idx_comp1 (m : Matrix3D) (h0 : 0 < m.d0) (h1 : 0 < m.d1)
    (h2 : 0 < m.d2) (t : T3) :
    ((m.T3_to_idx t) % (m.d0 * m.d1)) / m.d0 = cmod t.2.1 m.d1 := by
  unfold Matrix3D.T3_to_idx
  have hd01 : 0 < m.d0 * m.d1 := mul_pos h0 h1
  have hlow0 : 0 ≤ cmod t.1 m.d0 + cmod t.2.1 m.d1 * m.d0 :=
    add_nonneg (cmod_nonneg t.1 h0) (mul_nonneg (cmod_nonneg t.2.1 h1) h0.le)
  have hlow : cmod t.1 m.d0 + cmod t.2.1 m.d1 * m.d0 < m.d0 * m.d1 := by
    have := cmod_nonneg t.1 h0
    have := cmod_lt t.1 h0
    have := cmod_nonneg t.2.1 h1
    have := cmod_lt t.2.1 h1
    nlinarith
  rw [Int.add_mul_emod_self, Int.emod_eq_of_lt hlow0 hlow,
    Int.add_mul_ediv_right _ _ (ne_of_gt h0),
    Int.ediv_eq_zero_of_lt (cmod_nonneg t.1 h0) (cmod_lt t.1 h0)]
  ring

theorem T3_to_idx_comp2 (m : Matrix3D) (h0 : 0 < m.d0) (h1 : 0 < m.d1)
    (h2 : 0 < m.d2) (t : T3) :
    (m.T3_to_idx t) / (m.d0 * m.d1) = cmod t.2.2 m.d2 := by
  unfold Matrix3D.T3_to_idx
  have hd01 : 0 < m.d0 * m.d1 := mul_pos h0 h1
  have hlow0 : 0 ≤ cmod t.1 m.d0 + cmod t.2.1 m.d1 * m.d0 :=
    add_nonneg (cmod_nonneg t.1 h0) (mul_nonneg (cmod_nonneg t.2.1 h1) h0.le)
  have hlow : cmod t.1 m.d0 + cmod t.2.1 m.d1 * m.d0 < m.d0 * m.d1 := by
    have := cmod_nonneg t.1 h0
    have := cmod_lt t.1 h0
    have := cmod_nonneg t.2.1 h1
    have := cmod_lt t.2.1 h1
    nlinarith
  rw [Int.add_mul_ediv_right _ _ (ne_of_gt hd01),
    Int.ediv_eq_zero_of_lt hlow0 hlow]
  ring

theorem T3_to_idx_eq_iff (m : Matrix3D) (h0 : 0 < m.d0) (h1 : 0 < m.d1)
    (h2 : 0 < m.d2) (u v : T3) :
    m.T3_to_idx u = m.T3_to_idx v ↔
      (cmod u.1 m.d0 = cmod v.1 m.d0 ∧ cmod u.2.1 m.d1 = cmod v.2.1 m.d1 ∧
        cmod u.2.2 m.d2 = cmod v.2.2 m.d2) := by
  constructor
  · intro h
    refine ⟨?_, ?_, ?_⟩
    · rw [← T3_to_idx_comp0 m h0 h1 h2 u, ← T3_to_idx_comp0 m h0 h1 h2 v, h]
    · rw [← T3_to_idx_comp1 m h0 h1 h2 u, ← T3_to_idx_comp1 m h0 h1 h2 v, h]
    · rw [← T3_to_idx_comp2 m h0 h1 h2 u, ← T3_to_idx_comp2 m h0 h1 h2 v, h]
  · rintro ⟨e0, e1, e2⟩
    unfold Matrix3D.T3_to_idx
    rw [e0, e1, e2]

theorem T3_to_idx_add_congr (m : Matrix3D) (h0 : 0 < m.d0) (h1 : 0 < m.d1)
    (h2 : 0 < m.d2) {u v : T3} (h : m.T3_to_idx u = m.T3_to_idx v) (o : T3) :
    m.T3_to_idx (u + o) = m.T3_to_idx (v + o) := by
  rw [T3_to_idx_eq_iff m h0 h1 h2] at h ⊢
  obtain ⟨e0, e1, e2⟩ := h
  refine ⟨?_, ?_, ?_⟩
  · simpa using cmod_add_right_congr h0 e0 o.1
  · simpa using cmod_add_right_congr h1 e1 o.2.1
  · simpa using cmod_add_right_congr h2 e2 o.2.2

/-! ## Tracker-entry bookkeeping -/

theorem mem_entriesOf {w : ℤ → ℚ} {A : Finset ℤ} {p : Lex (ℚ × ℤ)} :
    p ∈ entriesOf w A ↔ (ofLex p).2 ∈ A ∧ (ofLex p).1 = w (ofLex p).2 := by
  unfold entriesOf
  simp only [Finset.mem_image]
  constructor
  · rintro ⟨a, ha, h⟩
    have h' : (w a, a) = ofLex p := congrArg ofLex h
    obtain ⟨h1, h2⟩ := Prod.mk.injEq .. ▸ h'
    subst h2
    exact ⟨ha, h1.symm⟩
  · rintro ⟨hmem, hval⟩
    refine ⟨(ofLex p).2, hmem, ?_⟩
    rw [← hval]
    rfl

theorem entry_mem_entriesOf {w : ℤ → ℚ} {A : Finset ℤ} {i : ℤ} :
    toLex (w i, i) ∈ entriesOf w A ↔ i ∈ A := by
  rw [mem_entriesOf]
  constructor
  · exact fun h => h.1
  · exact fun h => ⟨h, rfl⟩

theorem entriesOf_congr {w w' : ℤ → ℚ} {A : Finset ℤ}
    (h : ∀ i ∈ A, w' i = w i) : entriesOf w' A = entriesOf w A :=
  Finset.image_congr fun i hi => by rw [h i hi]

theorem entriesOf_erase (w : ℤ → ℚ) (A : Finset ℤ) (i : ℤ) :
    (entriesOf w A).erase (toLex (w i, i)) = entriesOf w (A.erase i) := by
  ext p
  rw [Finset.mem_erase, mem_entriesOf, mem_entriesOf, Finset.mem_erase]
  constructor
  · rintro ⟨hne, hmem, hval⟩
    refine ⟨⟨?_, hmem⟩, hval⟩
    intro hji
    apply hne
    have : p = toLex ((ofLex p).1, (ofLex p).2) := rfl
    rw [this, hval, hji]
  · rintro ⟨⟨hne, hmem⟩, hval⟩
    refine ⟨?_, hmem, hval⟩
    intro hp
    apply hne
    have : (ofLex p).2 = (ofLex (toLex (w i, i))).2 := by rw [hp]
    exact this

theorem entriesOf_erase_notMem {w : ℤ → ℚ} {A : Finset ℤ} {i : ℤ}
    (h : i ∉ A) :
    (entriesOf w A).erase (toLex (w i, i)) = entriesOf w A := by
  rw [entriesOf_erase, Finset.erase_eq_of_not_mem h]

theorem entriesOf_insert (w : ℤ → ℚ) (A : Finset ℤ) (i : ℤ) :
    insert (toLex (w i, i)) (entriesOf w A) = entriesOf w (insert i A) := by
  ext p
  rw [Finset.mem_insert, mem_entriesOf, mem_entriesOf, Finset.mem_insert]
  constructor
  · rintro (hp | ⟨hmem, hval⟩)
    · subst hp
      exact ⟨Or.inl rfl, rfl⟩
    · exact ⟨Or.inr hmem, hval⟩
  · rintro ⟨hj | hmem, hval⟩
    · left
      have : p = toLex ((ofLex p).1, (ofLex p).2) := rfl
      rw [this, hval, hj]
    · exact Or.inr ⟨hmem, hval⟩

theorem entriesOf_bump_notMem {w : ℤ → ℚ} {A : Finset ℤ} {i : ℤ} {v : ℚ}
    (h : i ∉ A) : entriesOf (bumpAt w i v) A = entriesOf w A :=
  entriesOf_congr fun j hj => by
    unfold bumpAt
    rw [if_neg]
    intro hji
    exact h (hji ▸ hj)

theorem entriesOf_empty (w : ℤ → ℚ) : entriesOf w ∅ = ∅ := by
  unfold entriesOf
  exact Finset.image_empty _

theorem entriesOf_nonempty {w : ℤ → ℚ} {A : Finset ℤ} :
    (entriesOf w A).Nonempty ↔ A.Nonempty := by
  unfold entriesOf
  exact Finset.image_nonempty

theorem withWVC_self {s : TrackState} {V C : Finset ℤ}
    (hv : s.track_void = entriesOf s.weights.data V)
    (hc : s.track_cluster = entriesOf s.weights.data C) :
    withWVC s s.weights.data V C = s := by
  unfold withWVC
  obtain ⟨mat, ⟨w0, w1, w2, wd⟩, filt, tv, tc, flag⟩ := s
  simp only at hv hc
  rw [hv, hc]

theorem EngineInv_withWVC {s : TrackState} {V C : Finset ℤ}
    (h : EngineInv s V C) (w : ℤ → ℚ) : EngineInv (withWVC s w V C) V C := by
  obtain ⟨hdims, _, _, hvc, hcc, hvr, hcr, hdisj⟩ := h
  exact ⟨hdims, rfl, rfl, hvc, hcc, hvr, hcr, hdisj⟩

theorem bumpAt_self (w : ℤ → ℚ) (i : ℤ) (v : ℚ) : bumpAt w i v i = w i + v :=
  if_pos rfl

/-- Full characterisation of one `update` call on a consistent state:
the energy of the touched voxel is bumped and both tracking sets stay
canonical for the same index sets. -/
theorem update_spec {s : TrackState} {V C : Finset ℤ} (hInv : EngineInv s V C)
    (hflag : s.cluster_tracking_is_on = true ∨ C = ∅) (t : T3) (v : ℚ) :
    update s t v = withWVC s (bumpAt s.weights.data (s.mat.T3_to_idx t) v) V C := by
  obtain ⟨hdims, hveq, hceq, hvc, hcc, hvr, hcr, hdisj⟩ := hInv
  simp only [update, withWVC]
  set idx := s.mat.T3_to_idx t with hidx
  set w := s.weights.data with hw
  by_cases hcontent : s.mat.data idx = 0
  · -- void branch
    rw [if_neg (not_not_intro hcontent)]
    have hiC : idx ∉ C := fun hmem => by
      have := hcc idx hmem
      rw [hcontent] at this
      exact lt_irrefl 0 this
    have hclus_eq : entriesOf (bumpAt w idx v) C = entriesOf w C :=
      entriesOf_bump_notMem hiC
    by_cases hiV : idx ∈ V
    · have hmem : toLex (w idx, idx) ∈ s.track_void := by
        rw [hveq]
        exact entry_mem_entriesOf.mpr hiV
      rw [if_pos hmem]
      refine Matrix3D_w_void_and_cluster_tracking.ext rfl rfl rfl ?_ ?_ rfl
      · show insert (toLex ((s.weights.setIdx idx (w idx + v)).data idx, idx))
            (s.track_void.erase (toLex (w idx, idx)))
            = entriesOf (bumpAt w idx v) V
        have hdata : (s.weights.setIdx idx (w idx + v)).data idx = w idx + v := by
          simp [Matrix3D.setIdx]
        rw [hdata, hveq, entriesOf_erase, ← bumpAt_self w idx v,
          ← entriesOf_bump_notMem (w := w) (v := v) (Finset.not_mem_erase idx V),
          entriesOf_insert, Finset.insert_erase hiV]
      · show s.track_cluster = entriesOf (bumpAt w idx v) C
        rw [hceq, hclus_eq]
    · have hmem : toLex (w idx, idx) ∉ s.track_void := by
        rw [hveq]
        exact fun h => hiV (entry_mem_entriesOf.mp h)
      rw [if_neg hmem]
      refine Matrix3D_w_void_and_cluster_tracking.ext rfl rfl rfl ?_ ?_ rfl
      · show s.track_void.erase (toLex (w idx, idx)) = entriesOf (bumpAt w idx v) V
        rw [hveq, entriesOf_erase, Finset.erase_eq_of_not_mem hiV,
          entriesOf_bump_notMem hiV]
      · show s.track_cluster = entriesOf (bumpAt w idx v) C
        rw [hceq, hclus_eq]
  · -- cluster branch
    rw [if_pos hcontent]
    have hiV : idx ∉ V := fun hmem => hcontent (hvc idx hmem)
    have hvoid_eq : entriesOf (bumpAt w idx v) V = entriesOf w V :=
      entriesOf_bump_notMem hiV
    by_cases hiC : idx ∈ C
    · have hflagT : s.cluster_tracking_is_on = true := by
        rcases hflag with h | h
        · exact h
        · rw [h] at hiC
          exact absurd hiC (Finset.not_mem_empty idx)
      have hmem : toLex (w idx, idx) ∈ s.track_cluster := by
        rw [hceq]
        exact entry_mem_entriesOf.mpr hiC
      rw [if_pos ⟨hmem, hflagT⟩]
      refine Matrix3D_w_void_and_cluster_tracking.ext rfl rfl rfl ?_ ?_ rfl
      · show s.track_void = entriesOf (bumpAt w idx v) V
        rw [hveq, hvoid_eq]
      · show insert (toLex ((s.weights.setIdx idx (w idx + v)).data idx, idx))
            (s.track_cluster.erase (toLex (w idx, idx)))
            = entriesOf (bumpAt w idx v) C
        have hdata : (s.weights.setIdx idx (w idx + v)).data idx = w idx + v := by
          simp [Matrix3D.setIdx]
        rw [hdata, hceq, entriesOf_erase, ← bumpAt_self w idx v,
          ← entriesOf_bump_notMem (w := w) (v := v) (Finset.not_mem_erase idx C),
          entriesOf_insert, Finset.insert_erase hiC]
    · have hmem : toLex (w idx, idx) ∉ s.track_cluster := by
        rw [hceq]
        exact fun h => hiC (entry_mem_entriesOf.mp h)
      have hcond : ¬(toLex (w idx, idx) ∈ s.track_cluster ∧
          s.cluster_tracking_is_on = true) := fun h => hmem h.1
      rw [if_neg hcond]
      refine Matrix3D_w_void_and_cluster_tracking.ext rfl rfl rfl ?_ ?_ rfl
      · show s.track_void = entriesOf (bumpAt w idx v) V
        rw [hveq, hvoid_eq]
      · show s.track_cluster.erase (toLex (w idx, idx)) = entriesOf (bumpAt w idx v) C
        rw [hceq, entriesOf_erase, Finset.erase_eq_of_not_mem hiC,
          entriesOf_bump_notMem hiC]

theorem footprintL_nil (m : Matrix3D) (center : T3) (vf : T3 → ℚ) (j : ℤ)
    (r : T3) : footprintL m center vf [] j r = 0 := rfl

theorem footprintL_cons (m : Matrix3D) (center : T3) (vf : T3 → ℚ)
    (g : T3) (L : List T3) (j : ℤ) (r : T3) :
    footprintL m center vf (g :: L) j r =
      (if m.T3_to_idx (r + g - center) = j then vf g else 0) +
        footprintL m center vf L j r := by
  unfold footprintL
  rw [List.map_cons, List.sum_cons]

theorem footprintL_neg (m : Matrix3D) (center : T3) (vf : T3 → ℚ)
    (L : List T3) (j : ℤ) (r : T3) :
    footprintL m center (fun g => -vf g) L j r = -footprintL m center vf L j r := by
  induction L with
  | nil => simp [footprintL_nil]
  | cons g L ih =>
    rw [footprintL_cons, footprintL_cons, ih]
    by_cases h : m.T3_to_idx (r + g - center) = j
    · rw [if_pos h, if_pos h]
      ring
    · rw [if_neg h, if_neg h]
      ring

theorem footprint_eq_footprintL (m f : Matrix3D) (j : ℤ) (r : T3) :
    footprint m f j r =
      footprintL m (centerOf f) f.get (cellsList f.d0 f.d1 f.d2) j r := rfl

/-- Folding `update` over a list of filter cells keeps the state canonical
and accumulates the partial footprint on the energy field. -/
theorem foldl_update_spec {s : TrackState} {V C : Finset ℤ}
    (hInv : EngineInv s V C)
    (hflag : s.cluster_tracking_is_on = true ∨ C = ∅)
    (r center : T3) (vf : T3 → ℚ) :
    ∀ (L : List T3) (w : ℤ → ℚ),
      L.foldl (fun st g => update st (r + g - center) (vf g)) (withWVC s w V C)
        = withWVC s (fun j => w j + footprintL s.mat center vf L j r) V C := by
  intro L
  induction L with
  | nil =>
    intro w
    rw [List.foldl_nil]
    have : (fun j => w j + footprintL s.mat center vf [] j r) = w := by
      funext j
      rw [footprintL_nil]
      ring
    rw [this]
  | cons g L ih =>
    intro w
    rw [List.foldl_cons]
    have hstep : update (withWVC s w V C) (r + g - center) (vf g)
        = withWVC s (bumpAt w (s.mat.T3_to_idx (r + g - center)) (vf g)) V C := by
      have h1 := update_spec (EngineInv_withWVC hInv w)
        (by exact hflag) (r + g - center) (vf g)
      exact h1
    rw [hstep, ih]
    have : (fun j => bumpAt w (s.mat.T3_to_idx (r + g - center)) (vf g) j +
        footprintL s.mat center vf L j r)
        = fun j => w j + footprintL s.mat center vf (g :: L) j r := by
      funext j
      rw [footprintL_cons]
      unfold bumpAt
      by_cases h : s.mat.T3_to_idx (r + g - center) = j
      · rw [if_pos h.symm, if_pos h, ← h]
        ring
      · rw [if_neg (fun hji => h hji.symm), if_neg h]
        ring
    rw [this]

/-- Variant of `foldl_update_spec` starting from the state itself. -/
theorem foldl_update_start {s : TrackState} {V C : Finset ℤ}
    (hInv : EngineInv s V C)
    (hflag : s.cluster_tracking_is_on = true ∨ C = ∅)
    (r center : T3) (vf : T3 → ℚ) (L : List T3) :
    L.foldl (fun st g => update st (r + g - center) (vf g)) s
      = withWVC s (fun j => s.weights.data j + footprintL s.mat center vf L j r)
        V C := by
  have hself : withWVC s s.weights.data V C = s :=
    withWVC_self hInv.2.1 hInv.2.2.1
  conv_lhs => rw [← hself]
  exact foldl_update_spec hInv hflag r center vf L s.weights.data

/-- `conv_at` on a consistent state: every energy cell gains the kernel
footprint, both tracking sets stay canonical for the same index sets. -/
theorem conv_at_spec {s : TrackState} {V C : Finset ℤ}
    (hInv : EngineInv s V C)
    (hflag : s.cluster_tracking_is_on = true ∨ C = ∅) (r : T3) :
    conv_at s r = withWVC s
      (fun j => s.weights.data j + footprint s.mat s.filter j r) V C := by
  calc conv_at s r
      = (cellsList s.filter.d0 s.filter.d1 s.filter.d2).foldl
        (fun st g => update st (r + g - centerOf s.filter) (s.filter.get g)) s :=
      rfl
  _ = withWVC s (fun j => s.weights.data j + footprintL s.mat (centerOf s.filter)
        (fun g => s.filter.get g)
        (cellsList s.filter.d0 s.filter.d1 s.filter.d2) j r) V C :=
      foldl_update_start hInv hflag r (centerOf s.filter) _ _
  _ = withWVC s (fun j => s.weights.data j + footprint s.mat s.filter j r) V C :=
      rfl

/-- `deconv_at` on a consistent state: the exact inverse footprint. -/
theorem deconv_at_spec {s : TrackState} {V C : Finset ℤ}
    (hInv : EngineInv s V C)
    (hflag : s.cluster_tracking_is_on = true ∨ C = ∅) (r : T3) :
    deconv_at s r = withWVC s
      (fun j => s.weights.data j - footprint s.mat s.filter j r) V C := by
  calc deconv_at s r
      = (cellsList s.filter.d0 s.filter.d1 s.filter.d2).foldl
        (fun st g => update st (r + g - centerOf s.filter) (-s.filter.get g)) s :=
      rfl
  _ = withWVC s (fun j => s.weights.data j + footprintL s.mat (centerOf s.filter)
        (fun g => -s.filter.get g)
        (cellsList s.filter.d0 s.filter.d1 s.filter.d2) j r) V C :=
      foldl_update_start hInv hflag r (centerOf s.filter) _ _
  _ = withWVC s (fun j => s.weights.data j - footprint s.mat s.filter j r) V C := by
    have : (fun j => s.weights.data j + footprintL s.mat (centerOf s.filter)
        (fun g => -s.filter.get g)
        (cellsList s.filter.d0 s.filter.d1 s.filter.d2) j r)
        = fun j => s.weights.data j - footprint s.mat s.filter j r := by
      funext j
      rw [footprintL_neg, footprint_eq_footprintL]
      ring
    rw [this]

theorem bump_footprintL_cons (m : Matrix3D) (center : T3) (vf : T3 → ℚ)
    (g : T3) (L : List T3) (r : T3) (w : ℤ → ℚ) :
    (fun j => bumpAt w (m.T3_to_idx (r + g - center)) (vf g) j +
        footprintL m center vf L j r)
      = fun j => w j + footprintL m center vf (g :: L) j r := by
  funext j
  rw [footprintL_cons]
  unfold bumpAt
  by_cases h : m.T3_to_idx (r + g - center) = j
  · rw [if_pos h.symm, if_pos h, ← h]
    ring
  · rw [if_neg (fun hji => h hji.symm), if_neg h]
    ring

/-- The void-set half of `update_spec`, valid whatever the cluster set
holds (used across the one toggle that leaves a stale cluster entry). -/
theorem update_void_spec {s : TrackState} {V : Finset ℤ}
    (hveq : s.track_void = entriesOf s.weights.data V)
    (hvc : ∀ i ∈ V, s.mat.data i = 0) (t : T3) (v : ℚ) :
    (update s t v).mat = s.mat ∧
    (update s t v).filter = s.filter ∧
    (update s t v).cluster_tracking_is_on = s.cluster_tracking_is_on ∧
    (update s t v).weights.data = bumpAt s.weights.data (s.mat.T3_to_idx t) v ∧
    (update s t v).track_void
      = entriesOf (bumpAt s.weights.data (s.mat.T3_to_idx t) v) V := by
  simp only [update]
  set idx := s.mat.T3_to_idx t with hidx
  set w := s.weights.data with hw
  by_cases hcontent : s.mat.data idx = 0
  · rw [if_neg (not_not_intro hcontent)]
    by_cases hiV : idx ∈ V
    · have hmem : toLex (w idx, idx) ∈ s.track_void := by
        rw [hveq]
        exact entry_mem_entriesOf.mpr hiV
      rw [if_pos hmem]
      refine ⟨rfl, rfl, rfl, rfl, ?_⟩
      show insert (toLex ((s.weights.setIdx idx (w idx + v)).data idx, idx))
          (s.track_void.erase (toLex (w idx, idx)))
          = entriesOf (bumpAt w idx v) V
      have hdata : (s.weights.setIdx idx (w idx + v)).data idx = w idx + v := by
        simp [Matrix3D.setIdx]
      rw [hdata, hveq, entriesOf_erase, ← bumpAt_self w idx v,
        ← entriesOf_bump_notMem (w := w) (v := v) (Finset.not_mem_erase idx V),
        entriesOf_insert, Finset.insert_erase hiV]
    · have hmem : toLex (w idx, idx) ∉ s.track_void := by
        rw [hveq]
        exact fun h => hiV (entry_mem_entriesOf.mp h)
      rw [if_neg hmem]
      refine ⟨rfl, rfl, rfl, rfl, ?_⟩
      show s.track_void.erase (toLex (w idx, idx)) = entriesOf (bumpAt w idx v) V
      rw [hveq, entriesOf_erase, Finset.erase_eq_of_not_mem hiV,
        entriesOf_bump_notMem hiV]
  · rw [if_pos hcontent]
    refine ⟨rfl, rfl, rfl, rfl, ?_⟩
    show s.track_void = entriesOf (bumpAt w idx v) V
    have hiV : idx ∉ V := fun hm => hcontent (hvc idx hm)
    rw [hveq, entriesOf_bump_notMem hiV]

theorem foldl_update_void (r center : T3) (vf : T3 → ℚ) :
    ∀ (L : List T3) (s : TrackState) (V : Finset ℤ),
      s.track_void = entriesOf s.weights.data V →
      (∀ i ∈ V, s.mat.data i = 0) →
      ((L.foldl (fun st g => update st (r + g - center) (vf g)) s).mat = s.mat ∧
       (L.foldl (fun st g => update st (r + g - center) (vf g)) s).filter
          = s.filter ∧
       (L.foldl (fun st g => update st (r + g - center) (vf g)) s).cluster_tracking_is_on
          = s.cluster_tracking_is_on ∧
       (L.foldl (fun st g => update st (r + g - center) (vf g)) s).weights.data
          = (fun j => s.weights.data j + footprintL s.mat center vf L j r) ∧
       (L.foldl (fun st g => update st (r + g - center) (vf g)) s).track_void
          = entriesOf (fun j => s.weights.data j + footprintL s.mat center vf L j r) V) := by
  intro L
  induction L with
  | nil =>
    intro s V hveq hvc
    rw [List.foldl_nil]
    have hwe : s.weights.data
        = fun j => s.weights.data j + footprintL s.mat center vf [] j r := by
      funext j
      rw [footprintL_nil]
      ring
    refine ⟨rfl, rfl, rfl, hwe, ?_⟩
    rw [hveq]
    exact (entriesOf_congr fun i _ => by rw [footprintL_nil]; ring).symm
  | cons g L ih =>
    intro s V hveq hvc
    rw [List.foldl_cons]
    obtain ⟨hm, hf, hfl, hw, hv⟩ := update_void_spec hveq hvc (r + g - center) (vf g)
    have hveq1 : (update s (r + g - center) (vf g)).track_void
        = entriesOf (update s (r + g - center) (vf g)).weights.data V := by
      rw [hv, hw]
    have hvc1 : ∀ i ∈ V, (update s (r + g - center) (vf g)).mat.data i = 0 := by
      rw [hm]
      exact hvc
    obtain ⟨hm2, hf2, hfl2, hw2, hv2⟩ :=
      ih (update s (r + g - center) (vf g)) V hveq1 hvc1
    have hfun : (fun j => (update s (r + g - center) (vf g)).weights.data j +
        footprintL (update s (r + g - center) (vf g)).mat center vf L j r)
        = fun j => s.weights.data j + footprintL s.mat center vf (g :: L) j r := by
      rw [hw, hm]
      exact bump_footprintL_cons s.mat center vf g L r s.weights.data
    refine ⟨hm2.trans hm, hf2.trans hf, hfl2.trans hfl, ?_, ?_⟩
    · rw [hw2, hfun]
    · rw [hv2, hfun]

/-- `conv_at` with only the void half of the invariant. -/
theorem conv_at_void {s : TrackState} {V : Finset ℤ}
    (hveq : s.track_void = entriesOf s.weights.data V)
    (hvc : ∀ i ∈ V, s.mat.data i = 0) (r : T3) :
    (conv_at s r).mat = s.mat ∧
    (conv_at s r).filter = s.filter ∧
    (conv_at s r).cluster_tracking_is_on = s.cluster_tracking_is_on ∧
    (conv_at s r).weights.data
      = (fun j => s.weights.data j + footprint s.mat s.filter j r) ∧
    (conv_at s r).track_void
      = entriesOf (fun j => s.weights.data j + footprint s.mat s.filter j r) V :=
  foldl_update_void r (centerOf s.filter) (fun g => s.filter.get g)
    (cellsList s.filter.d0 s.filter.d1 s.filter.d2) s V hveq hvc

theorem footprint_setT (m f : Matrix3D) (t0 : T3) (v : ℚ) :
    footprint (m.setT t0 v) f = footprint m f := rfl

theorem T3_to_idx_setT (m : Matrix3D) (t0 : T3) (v : ℚ) :
    (m.setT t0 v).T3_to_idx = m.T3_to_idx := rfl

theorem idxRange_setT (m : Matrix3D) (t0 : T3) (v : ℚ) :
    idxRange (m.setT t0 v) = idxRange m := rfl

/-- Full characterisation of a successful `set_pixel` on a tracked
off-voxel: content written, void entry removed, cluster entry added when
tracking is on, kernel footprint added to the energies. -/
theorem set_pixel_spec {s : TrackState} {V C : Finset ℤ}
    (hInv : EngineInv s V C)
    (hflag : s.cluster_tracking_is_on = true ∨ C = ∅)
    {t : T3} (hmem : s.mat.T3_to_idx t ∈ V) {v : ℚ} (hv : 0 < v) :
    set_pixel s t v = .ok (withWVC { s with mat := s.mat.setT t v }
      (fun j => s.weights.data j + footprint s.mat s.filter j t)
      (V.erase (s.mat.T3_to_idx t))
      (if s.cluster_tracking_is_on = true then insert (s.mat.T3_to_idx t) C
        else C)) ∧
    EngineInv (withWVC { s with mat := s.mat.setT t v }
      (fun j => s.weights.data j + footprint s.mat s.filter j t)
      (V.erase (s.mat.T3_to_idx t))
      (if s.cluster_tracking_is_on = true then insert (s.mat.T3_to_idx t) C
        else C))
      (V.erase (s.mat.T3_to_idx t))
      (if s.cluster_tracking_is_on = true then insert (s.mat.T3_to_idx t) C
        else C) := by
  obtain ⟨hdims, hveq, hceq, hvc, hcc, hvr, hcr, hdisj⟩ := hInv
  set idx := s.mat.T3_to_idx t with hidx
  set w := s.weights.data with hw
  have hcontent : s.mat.data idx = 0 := hvc idx hmem
  have hguard : ¬(0 < s.mat.get t) := by
    show ¬(0 < s.mat.data idx)
    rw [hcontent]
    exact lt_irrefl 0
  have hidxC : idx ∉ C := Finset.disjoint_left.mp hdisj hmem
  -- characterise add_to_cluster on the content-written state
  set s1 : TrackState := { s with mat := s.mat.setT t v } with hs1
  have hwas : toLex (w idx, idx) ∈ s.track_void := by
    rw [hveq]
    exact entry_mem_entriesOf.mpr hmem
  have hstep : add_to_cluster s1 t = withWVC s1 w (V.erase idx)
      (if s.cluster_tracking_is_on = true then insert idx C else C) := by
    simp only [add_to_cluster]
    by_cases hfl : s.cluster_tracking_is_on = true
    · rw [if_pos]
      · refine Matrix3D_w_void_and_cluster_tracking.ext rfl rfl rfl ?_ ?_ rfl
        · show s.track_void.erase (toLex (w idx, idx))
              = entriesOf w (V.erase idx)
          rw [hveq, entriesOf_erase]
        · show insert (toLex (w idx, idx)) s.track_cluster
              = entriesOf w (if s.cluster_tracking_is_on = true
                  then insert idx C else C)
          rw [if_pos hfl, hceq, entriesOf_insert]
      · exact ⟨hwas, hfl⟩
    · rw [if_neg (fun h => hfl h.2)]
      refine Matrix3D_w_void_and_cluster_tracking.ext rfl rfl rfl ?_ ?_ rfl
      · show s.track_void.erase (toLex (w idx, idx)) = entriesOf w (V.erase idx)
        rw [hveq, entriesOf_erase]
      · show s.track_cluster
            = entriesOf w (if s.cluster_tracking_is_on = true
                then insert idx C else C)
        rw [if_neg hfl, hceq]
  -- the convolution on the reclassified state
  have hInv2 : EngineInv (withWVC s1 w (V.erase idx)
      (if s.cluster_tracking_is_on = true then insert idx C else C))
      (V.erase idx)
      (if s.cluster_tracking_is_on = true then insert idx C else C) := by
    refine ⟨hdims, rfl, rfl, ?_, ?_, ?_, ?_, ?_⟩
    · intro i hi
      obtain ⟨hne, hiV⟩ := Finset.mem_erase.mp hi
      show s1.mat.data i = 0
      simp only [hs1, Matrix3D.setT]
      rw [if_neg hne]
      exact hvc i hiV
    · intro i hi
      show 0 < s1.mat.data i
      simp only [hs1, Matrix3D.setT]
      by_cases hieq : i = idx
      · rw [if_pos hieq]
        exact hv
      · rw [if_neg hieq]
        have hiC : i ∈ C := by
          by_cases hfl : s.cluster_tracking_is_on = true
          · rw [if_pos hfl] at hi
            rcases Finset.mem_insert.mp hi with h | h
            · exact absurd h hieq
            · exact h
          · rw [if_neg hfl] at hi
            exact hi
        exact hcc i hiC
    · exact fun i hi => hvr (Finset.mem_of_mem_erase hi)
    · intro i hi
      by_cases hfl : s.cluster_tracking_is_on = true
      · rw [if_pos hfl] at hi
        rcases Finset.mem_insert.mp hi with h | h
        · rw [h, hidx]
          exact T3_to_idx_mem s.mat hdims.1 hdims.2.1 hdims.2.2 t
        · exact hcr h
      · rw [if_neg hfl] at hi
        exact hcr hi
    · rw [Finset.disjoint_left]
      intro i hi
      obtain ⟨hne, hiV⟩ := Finset.mem_erase.mp hi
      by_cases hfl : s.cluster_tracking_is_on = true
      · rw [if_pos hfl]
        intro hmem'
        rcases Finset.mem_insert.mp hmem' with h | h
        · exact hne h
        · exact Finset.disjoint_left.mp hdisj hiV h
      · rw [if_neg hfl]
        exact Finset.disjoint_left.mp hdisj hiV
  have hflag2 : (withWVC s1 w (V.erase idx)
      (if s.cluster_tracking_is_on = true then insert idx C else C)).cluster_tracking_is_on
        = true ∨
      (if s.cluster_tracking_is_on = true then insert idx C else C) = ∅ := by
    rcases hflag with h | h
    · exact Or.inl h
    · by_cases hfl : s.cluster_tracking_is_on = true
      · exact Or.inl hfl
      · right
        rw [if_neg hfl]
        exact h
  refine ⟨?_, ?_⟩
  · simp only [set_pixel]
    rw [if_neg hguard, hstep, conv_at_spec hInv2 hflag2 t]
    rfl
  · exact EngineInv_withWVC hInv2 _

/-- Full characterisation of `reset_pixel`: content zeroed, entry moved
to the void set (also re-inserting untracked voxels), kernel footprint
subtracted. -/
theorem reset_pixel_spec {s : TrackState} {V C : Finset ℤ}
    (hInv : EngineInv s V C)
    (hflag : s.cluster_tracking_is_on = true ∨ C = ∅) (t : T3) :
    reset_pixel s t = withWVC { s with mat := s.mat.setT t 0 }
      (fun j => s.weights.data j - footprint s.mat s.filter j t)
      (insert (s.mat.T3_to_idx t) V) (C.erase (s.mat.T3_to_idx t)) ∧
    EngineInv (withWVC { s with mat := s.mat.setT t 0 }
      (fun j => s.weights.data j - footprint s.mat s.filter j t)
      (insert (s.mat.T3_to_idx t) V) (C.erase (s.mat.T3_to_idx t)))
      (insert (s.mat.T3_to_idx t) V) (C.erase (s.mat.T3_to_idx t)) := by
  obtain ⟨hdims, hveq, hceq, hvc, hcc, hvr, hcr, hdisj⟩ := hInv
  set idx := s.mat.T3_to_idx t with hidx
  set w := s.weights.data with hw
  set s1 : TrackState := { s with mat := s.mat.setT t 0 } with hs1
  have hstep : add_to_void s1 t
      = withWVC s1 w (insert idx V) (C.erase idx) := by
    simp only [add_to_void]
    refine Matrix3D_w_void_and_cluster_tracking.ext rfl rfl rfl ?_ ?_ rfl
    · show insert (toLex (w idx, idx)) s.track_void = entriesOf w (insert idx V)
      rw [hveq, entriesOf_insert]
    · show s.track_cluster.erase (toLex (w idx, idx)) = entriesOf w (C.erase idx)
      rw [hceq, entriesOf_erase]
  have hInv2 : EngineInv (withWVC s1 w (insert idx V) (C.erase idx))
      (insert idx V) (C.erase idx) := by
    refine ⟨hdims, rfl, rfl, ?_, ?_, ?_, ?_, ?_⟩
    · intro i hi
      show s1.mat.data i = 0
      simp only [hs1, Matrix3D.setT]
      by_cases hieq : i = idx
      · rw [if_pos hieq]
      · rw [if_neg hieq]
        rcases Finset.mem_insert.mp hi with h | h
        · exact absurd h hieq
        · exact hvc i h
    · intro i hi
      obtain ⟨hne, hiC⟩ := Finset.mem_erase.mp hi
      show 0 < s1.mat.data i
      simp only [hs1, Matrix3D.setT]
      rw [if_neg hne]
      exact hcc i hiC
    · intro i hi
      rcases Finset.mem_insert.mp hi with h | h
      · rw [h, hidx]
        exact T3_to_idx_mem s.mat hdims.1 hdims.2.1 hdims.2.2 t
      · exact hvr h
    · exact fun i hi => hcr (Finset.mem_of_mem_erase hi)
    · rw [Finset.disjoint_left]
      intro i hi
      rcases Finset.mem_insert.mp hi with h | h
      · rw [h]
        exact Finset.not_mem_erase idx C
      · intro hmem'
        exact Finset.disjoint_left.mp hdisj h (Finset.mem_of_mem_erase hmem')
  have hflag2 : (withWVC s1 w (insert idx V) (C.erase idx)).cluster_tracking_is_on
        = true ∨ C.erase idx = ∅ := by
    rcases hflag with h | h
    · exact Or.inl h
    · right
      rw [h]
      exact Finset.erase_empty idx
  refine ⟨?_, ?_⟩
  · simp only [reset_pixel]
    rw [hstep, deconv_at_spec hInv2 hflag2 t]
    rfl
  · exact EngineInv_withWVC hInv2 _

/-- `remove_tracking` erases the voxel's entry from both sets. -/
theorem remove_tracking_spec {s : TrackState} {V C : Finset ℤ}
    (hInv : EngineInv s V C) (t : T3) :
    remove_tracking s t = withWVC s s.weights.data
      (V.erase (s.mat.T3_to_idx t)) (C.erase (s.mat.T3_to_idx t)) := by
  obtain ⟨hdims, hveq, hceq, hrest⟩ := hInv
  simp only [remove_tracking]
  refine Matrix3D_w_void_and_cluster_tracking.ext rfl rfl rfl ?_ ?_ rfl
  · show s.track_void.erase (toLex (s.weights.data (s.mat.T3_to_idx t), s.mat.T3_to_idx t))
        = entriesOf s.weights.data (V.erase (s.mat.T3_to_idx t))
    rw [hveq, entriesOf_erase]
  · show s.track_cluster.erase (toLex (s.weights.data (s.mat.T3_to_idx t), s.mat.T3_to_idx t))
        = entriesOf s.weights.data (C.erase (s.mat.T3_to_idx t))
    rw [hceq, entriesOf_erase]

/-- The `max_void` query returns the coordinate of the least
`(energy, index)` entry of the void set. -/
theorem max_void_spec {s : TrackState} {V : Finset ℤ}
    (hveq : s.track_void = entriesOf s.weights.data V) (hne : V.Nonempty) :
    ∃ i ∈ V, max_void s = some (s.mat.idx_to_T3 i) ∧
      ∀ j ∈ V, toLex (s.weights.data i, i) ≤ toLex (s.weights.data j, j) := by
  have hne' : s.track_void.Nonempty := by
    rw [hveq]
    exact entriesOf_nonempty.mpr hne
  unfold max_void
  rw [dif_pos hne']
  have hpm : s.track_void.min' hne' ∈ entriesOf s.weights.data V := by
    rw [← hveq]
    exact Finset.min'_mem _ _
  obtain ⟨hmem, hval⟩ := mem_entriesOf.mp hpm
  refine ⟨(ofLex (s.track_void.min' hne')).2, hmem, rfl, ?_⟩
  intro j hj
  have hj' : toLex (s.weights.data j, j) ∈ s.track_void := by
    rw [hveq]
    exact entry_mem_entriesOf.mpr hj
  have hle := Finset.min'_le _ _ hj'
  have hpe : s.track_void.min' hne'
      = toLex (s.weights.data (ofLex (s.track_void.min' hne')).2,
        (ofLex (s.track_void.min' hne')).2) := by
    conv_lhs => rw [show s.track_void.min' hne'
      = toLex (ofLex (s.track_void.min' hne')) from rfl]
    rw [show ofLex (s.track_void.min' hne')
      = ((ofLex (s.track_void.min' hne')).1, (ofLex (s.track_void.min' hne')).2)
      from rfl, hval]
  rw [← hpe]
  exact hle

/-- The `max_cluster` query returns the coordinate of the greatest
`(energy, index)` entry of the cluster set. -/
theorem max_cluster_spec {s : TrackState} {C : Finset ℤ}
    (hceq : s.track_cluster = entriesOf s.weights.data C) (hne : C.Nonempty) :
    ∃ i ∈ C, max_cluster s = some (s.mat.idx_to_T3 i) ∧
      ∀ j ∈ C, toLex (s.weights.data j, j) ≤ toLex (s.weights.data i, i) := by
  have hne' : s.track_cluster.Nonempty := by
    rw [hceq]
    exact entriesOf_nonempty.mpr hne
  unfold max_cluster
  rw [dif_pos hne']
  have hpm : s.track_cluster.max' hne' ∈ entriesOf s.weights.data C := by
    rw [← hceq]
    exact Finset.max'_mem _ _
  obtain ⟨hmem, hval⟩ := mem_entriesOf.mp hpm
  refine ⟨(ofLex (s.track_cluster.max' hne')).2, hmem, rfl, ?_⟩
  intro j hj
  have hj' : toLex (s.weights.data j, j) ∈ s.track_cluster := by
    rw [hceq]
    exact entry_mem_entriesOf.mpr hj
  have hle := Finset.le_max' _ _ hj'
  have hpe : s.track_cluster.max' hne'
      = toLex (s.weights.data (ofLex (s.track_cluster.max' hne')).2,
        (ofLex (s.track_cluster.max' hne')).2) := by
    conv_lhs => rw [show s.track_cluster.max' hne'
      = toLex (ofLex (s.track_cluster.max' hne')) from rfl]
    rw [show ofLex (s.track_cluster.max' hne')
      = ((ofLex (s.track_cluster.max' hne')).1, (ofLex (s.track_cluster.max' hne')).2)
      from rfl, hval]
  rw [← hpe]
  exact hle

/-- `set_pixel` with only the void half of the invariant: used for the
final `rank_initial_bitmap` iteration, whose rank value is `0` and whose
cluster bookkeeping goes stale. -/
theorem set_pixel_void_spec {s : TrackState} {V : Finset ℤ}
    (hveq : s.track_void = entriesOf s.weights.data V)
    (hvc : ∀ i ∈ V, s.mat.data i = 0)
    {t : T3} (hmem : s.mat.T3_to_idx t ∈ V) (v : ℚ) :
    ∃ s', set_pixel s t v = .ok s' ∧
      s'.mat = s.mat.setT t v ∧
      s'.filter = s.filter ∧
      s'.cluster_tracking_is_on = s.cluster_tracking_is_on ∧
      s'.weights.data = (fun j => s.weights.data j + footprint s.mat s.filter j t) ∧
      s'.track_void = entriesOf
        (fun j => s.weights.data j + footprint s.mat s.filter j t)
        (V.erase (s.mat.T3_to_idx t)) := by
  set idx := s.mat.T3_to_idx t with hidx
  have hcontent : s.mat.data idx = 0 := hvc idx hmem
  have hguard : ¬(0 < s.mat.get t) := by
    show ¬(0 < s.mat.data idx)
    rw [hcontent]
    exact lt_irrefl 0
  set s1 : TrackState := { s with mat := s.mat.setT t v } with hs1
  have hveq2 : (add_to_cluster s1 t).track_void
      = entriesOf (add_to_cluster s1 t).weights.data (V.erase idx) := by
    show s.track_void.erase (toLex (s.weights.data idx, idx))
        = entriesOf s.weights.data (V.erase idx)
    rw [hveq, entriesOf_erase]
  have hvc2 : ∀ i ∈ V.erase idx, (add_to_cluster s1 t).mat.data i = 0 := by
    intro i hi
    obtain ⟨hne, hiV⟩ := Finset.mem_erase.mp hi
    show (s.mat.setT t v).data i = 0
    simp only [Matrix3D.setT]
    rw [if_neg hne]
    exact hvc i hiV
  obtain ⟨hm, hf, hfl, hwd, hvd⟩ := conv_at_void hveq2 hvc2 t
  refine ⟨conv_at (add_to_cluster s1 t) t, ?_, hm, hf, hfl, hwd, hvd⟩
  simp only [set_pixel]
  rw [if_neg hguard]

theorem mem_cellsList {d0 d1 d2 : ℤ} {t : T3} :
    t ∈ cellsList d0 d1 d2 ↔
      (0 ≤ t.1 ∧ t.1 < d0 ∧ 0 ≤ t.2.1 ∧ t.2.1 < d1 ∧ 0 ≤ t.2.2 ∧ t.2.2 < d2) := by
  obtain ⟨x, y, z⟩ := t
  dsimp only
  constructor
  · intro h
    obtain ⟨i2, hi2, h⟩ := List.mem_flatMap.mp h
    obtain ⟨i1, hi1, h⟩ := List.mem_flatMap.mp h
    obtain ⟨i0, hi0, heq⟩ := List.mem_map.mp h
    rw [List.mem_range] at hi0 hi1 hi2
    injection heq with h1 h23
    injection h23 with h2 h3
    subst h1
    subst h2
    subst h3
    refine ⟨?_, ?_, ?_, ?_, ?_, ?_⟩ <;> simp only [Int.ofNat_eq_coe] <;> omega
  · rintro ⟨hx0, hx1, hy0, hy1, hz0, hz1⟩
    refine List.mem_flatMap.mpr ⟨z.toNat, List.mem_range.mpr (by omega),
      List.mem_flatMap.mpr ⟨y.toNat, List.mem_range.mpr (by omega),
        List.mem_map.mpr ⟨x.toNat, List.mem_range.mpr (by omega), ?_⟩⟩⟩
    show ((Int.ofNat x.toNat, Int.ofNat y.toNat, Int.ofNat z.toNat) : T3) = (x, y, z)
    rw [show Int.ofNat x.toNat = (x.toNat : ℤ) from rfl,
      show Int.ofNat y.toNat = (y.toNat : ℤ) from rfl,
      show Int.ofNat z.toNat = (z.toNat : ℤ) from rfl,
      Int.toNat_of_nonneg hx0, Int.toNat_of_nonneg hy0, Int.toNat_of_nonneg hz0]

theorem idx_to_T3_mem_cellsList (m : Matrix3D) (h0 : 0 < m.d0) (h1 : 0 < m.d1)
    (h2 : 0 < m.d2) {j : ℤ} (hj : j ∈ idxRange m) :
    m.idx_to_T3 j ∈ cellsList m.d0 m.d1 m.d2 := by
  obtain ⟨hj0, hjlt⟩ := Finset.mem_Ico.mp hj
  have hd01 : 0 < m.d0 * m.d1 := mul_pos h0 h1
  have hx : Int.tmod j m.d0 = j % m.d0 := Int.tmod_eq_emod hj0 h0.le
  have hm01 : Int.tmod j (m.d0 * m.d1) = j % (m.d0 * m.d1) :=
    Int.tmod_eq_emod hj0 hd01.le
  have hemod0 : 0 ≤ j % (m.d0 * m.d1) := Int.emod_nonneg j (ne_of_gt hd01)
  have hy : (Int.tmod j (m.d0 * m.d1)).tdiv m.d0 = (j % (m.d0 * m.d1)) / m.d0 := by
    rw [hm01]; exact Int.tdiv_eq_ediv hemod0 h0.le
  have hz : Int.tdiv j (m.d0 * m.d1) = j / (m.d0 * m.d1) :=
    Int.tdiv_eq_ediv hj0 hd01.le
  rw [mem_cellsList]
  unfold Matrix3D.idx_to_T3
  simp only
  rw [hx, hy, hz]
  have hylt : (j % (m.d0 * m.d1)) / m.d0 < m.d1 := by
    have h := Int.emod_lt_of_pos j hd01
    rw [Int.ediv_lt_iff_lt_mul h0]
    calc j % (m.d0 * m.d1) < m.d0 * m.d1 := h
    _ = m.d1 * m.d0 := by ring
  have hzlt : j / (m.d0 * m.d1) < m.d2 := by
    rw [Int.ediv_lt_iff_lt_mul hd01]
    calc j < m.d0 * m.d1 * m.d2 := hjlt
    _ = m.d2 * (m.d0 * m.d1) := by ring
  exact ⟨Int.emod_nonneg j (ne_of_gt h0), Int.emod_lt_of_pos j h0,
    Int.ediv_nonneg hemod0 h0.le, hylt, Int.ediv_nonneg hj0 hd01.le, hzlt⟩

theorem footprintL_congr_r {m : Matrix3D} (h0 : 0 < m.d0) (h1 : 0 < m.d1)
    (h2 : 0 < m.d2) (center : T3) (vf : T3 → ℚ) (L : List T3) {r r' : T3}
    (h : m.T3_to_idx r = m.T3_to_idx r') (j : ℤ) :
    footprintL m center vf L j r = footprintL m center vf L j r' := by
  unfold footprintL
  congr 1
  apply List.map_congr_left
  intro g _
  have hadd : m.T3_to_idx (r + g - center) = m.T3_to_idx (r' + g - center) := by
    have e1 : r + g - center = r + (g - center) := by
      rw [add_sub_assoc]
    have e2 : r' + g - center = r' + (g - center) := by
      rw [add_sub_assoc]
    rw [e1, e2]
    exact T3_to_idx_add_congr m h0 h1 h2 h (g - center)
  rw [hadd]

theorem footprint_congr {m f : Matrix3D} (h0 : 0 < m.d0) (h1 : 0 < m.d1)
    (h2 : 0 < m.d2) {r r' : T3} (h : m.T3_to_idx r = m.T3_to_idx r') (j : ℤ) :
    footprint m f j r = footprint m f j r' := by
  rw [footprint_eq_footprintL, footprint_eq_footprintL]
  exact footprintL_congr_r h0 h1 h2 (centerOf f) f.get _ h j

theorem foldl_add_to_void (L : List T3) :
    ∀ (s : TrackState), s.track_cluster = ∅ →
      L.foldl add_to_void s = { s with
        track_void := s.track_void ∪
          (L.map (fun t => toLex (s.weights.data (s.mat.T3_to_idx t),
            s.mat.T3_to_idx t))).toFinset } := by
  induction L with
  | nil =>
    intro s hcl
    rw [List.foldl_nil]
    refine Matrix3D_w_void_and_cluster_tracking.ext rfl rfl rfl ?_ rfl rfl
    rw [List.map_nil, List.toFinset_nil, Finset.union_empty]
  | cons g L ih =>
    intro s hcl
    obtain ⟨mat, wts, filt, tv, tc, flag⟩ := s
    simp only at hcl
    subst hcl
    rw [List.foldl_cons]
    have hone : add_to_void ⟨mat, wts, filt, tv, ∅, flag⟩ g
        = ⟨mat, wts, filt,
            insert (toLex (wts.data (mat.T3_to_idx g), mat.T3_to_idx g)) tv,
            ∅, flag⟩ := by
      simp only [add_to_void]
      refine Matrix3D_w_void_and_cluster_tracking.ext rfl rfl rfl rfl ?_ rfl
      exact Finset.erase_empty _
    rw [hone, ih _ rfl]
    refine Matrix3D_w_void_and_cluster_tracking.ext rfl rfl rfl ?_ rfl rfl
    show insert (toLex (wts.data (mat.T3_to_idx g), mat.T3_to_idx g)) tv ∪
          (L.map (fun t => toLex (wts.data (mat.T3_to_idx t),
            mat.T3_to_idx t))).toFinset
      = tv ∪
          ((g :: L).map (fun t => toLex (wts.data (mat.T3_to_idx t),
            mat.T3_to_idx t))).toFinset
    rw [List.map_cons, List.toFinset_cons, Finset.insert_union,
      Finset.union_insert]

/-- The constructor produces the all-off field with jitter energies and
every voxel void-tracked. -/
theorem mkTracked_spec (d0 d1 d2 : ℤ) (h0 : 0 < d0) (h1 : 0 < d1)
    (h2 : 0 < d2) (filt : Matrix3D) (jitter : ℤ → ℚ) :
    mkTracked d0 d1 d2 filt jitter
      = ⟨⟨d0, d1, d2, fun _ => 0⟩, ⟨d0, d1, d2, jitter⟩, filt,
        entriesOf jitter (Finset.Ico 0 (d0 * d1 * d2)), ∅, true⟩ := by
  unfold mkTracked void_initialization
  rw [foldl_add_to_void _ _ rfl]
  refine Matrix3D_w_void_and_cluster_tracking.ext rfl rfl rfl ?_ rfl rfl
  show (∅ : Finset (Lex (ℚ × ℤ))) ∪
      ((cellsList d0 d1 d2).map (fun t =>
        toLex (jitter ((⟨d0, d1, d2, fun _ => 0⟩ : Matrix3D).T3_to_idx t),
          (⟨d0, d1, d2, fun _ => 0⟩ : Matrix3D).T3_to_idx t))).toFinset
    = entriesOf jitter (Finset.Ico 0 (d0 * d1 * d2))
  rw [Finset.empty_union]
  ext p
  rw [List.mem_toFinset, List.mem_map, mem_entriesOf]
  constructor
  · rintro ⟨t, htmem, rfl⟩
    refine ⟨?_, rfl⟩
    exact T3_to_idx_mem (⟨d0, d1, d2, fun _ => 0⟩ : Matrix3D) h0 h1 h2 t
  · rintro ⟨hmem, hval⟩
    refine ⟨(⟨d0, d1, d2, fun _ => 0⟩ : Matrix3D).idx_to_T3 (ofLex p).2, ?_, ?_⟩
    · exact idx_to_T3_mem_cellsList (⟨d0, d1, d2, fun _ => 0⟩ : Matrix3D)
        h0 h1 h2 hmem
    · rw [T3_to_idx_idx_to_T3 (⟨d0, d1, d2, fun _ => 0⟩ : Matrix3D)
        h0 h1 h2 hmem]
      rw [show p = toLex ((ofLex p).1, (ofLex p).2) from rfl, hval]
      rfl

theorem remove_tracking_inv {s : TrackState} {V C : Finset ℤ}
    (hInv : EngineInv s V C) (t : T3) :
    EngineInv (remove_tracking s t) (V.erase (s.mat.T3_to_idx t))
      (C.erase (s.mat.T3_to_idx t)) := by
  obtain ⟨hdims, hveq, hceq, hvc, hcc, hvr, hcr, hdisj⟩ := hInv
  rw [remove_tracking_spec ⟨hdims, hveq, hceq, hvc, hcc, hvr, hcr, hdisj⟩ t]
  exact ⟨hdims, rfl, rfl,
    fun i hi => hvc i (Finset.mem_of_mem_erase hi),
    fun i hi => hcc i (Finset.mem_of_mem_erase hi),
    (Finset.erase_subset _ _).trans hvr,
    (Finset.erase_subset _ _).trans hcr,
    hdisj.mono (Finset.erase_subset _ _) (Finset.erase_subset _ _)⟩

/-- Disabling cluster tracking from a state whose void set is consistent
yields a fully consistent state with an empty cluster set. -/
theorem cluster_tracking_off_void {s : TrackState} {V : Finset ℤ}
    (hV : VoidInv s V) :
    EngineInv (cluster_tracking_off s) V ∅ ∧
    (cluster_tracking_off s).cluster_tracking_is_on = false ∧
    (cluster_tracking_off s).mat = s.mat ∧
    (cluster_tracking_off s).weights = s.weights ∧
    (cluster_tracking_off s).filter = s.filter := by
  obtain ⟨hdims, hveq, hvc, hvr⟩ := hV
  refine ⟨⟨hdims, hveq, (entriesOf_empty _).symm, hvc, ?_, hvr, ?_, ?_⟩,
    rfl, rfl, rfl, rfl⟩
  · intro i hi
    exact absurd hi (Finset.not_mem_empty i)
  · exact Finset.empty_subset _
  · exact Finset.disjoint_empty_right V

theorem contentMS_congr {s s' : TrackState} {A : Finset ℤ}
    (h : ∀ i ∈ A, s'.mat.data i = s.mat.data i) :
    contentMS s' A = contentMS s A :=
  Multiset.map_congr rfl h

theorem Ico_zero_insert_right (c : ℕ) :
    insert c (Finset.Ico 0 c) = Finset.Ico 0 (c + 1) := by
  ext x
  rw [Finset.mem_insert, Finset.mem_Ico, Finset.mem_Ico]
  omega

theorem Ico_insert_left {a b : ℕ} (h : a < b) :
    insert a (Finset.Ico (a + 1) b) = Finset.Ico a b := by
  ext x
  rw [Finset.mem_insert, Finset.mem_Ico, Finset.mem_Ico]
  omega

theorem ranksMS_succ (n : ℤ) (c : ℕ) :
    ranksMS n 0 (c + 1) = ((c : ℚ) / (n : ℚ)) ::ₘ ranksMS n 0 c := by
  unfold ranksMS
  rw [← Ico_zero_insert_right c,
    Finset.insert_val_of_not_mem (by rw [Finset.mem_Ico]; omega),
    Multiset.map_cons]

theorem ranksMS_cons {n : ℤ} {a b : ℕ} (h : a < b) :
    ranksMS n a b = ((a : ℚ) / (n : ℚ)) ::ₘ ranksMS n (a + 1) b := by
  unfold ranksMS
  rw [← Ico_insert_left h,
    Finset.insert_val_of_not_mem (by rw [Finset.mem_Ico]; omega),
    Multiset.map_cons]

theorem ranksMS_self (n : ℤ) (a : ℕ) : ranksMS n a a = 0 := by
  unfold ranksMS
  rw [Finset.Ico_self]
  rfl

/-- The merged phase-2/3 loop: each pass ranks the current largest void
with the next rank value, in the end exhausting the void set and
completing the rank multiset. -/
theorem phase23_loop_spec :
    ∀ (iters count : ℕ) (s : TrackState) (V : Finset ℤ) (s' : TrackState),
      EngineInv s V ∅ →
      s.cluster_tracking_is_on = false →
      1 ≤ count →
      V.card = iters →
      contentMS s (idxRange s.mat \ V) = ranksMS s.mat.size 0 count →
      phase23_loop iters count s = some s' →
      s'.mat.d0 = s.mat.d0 ∧ s'.mat.d1 = s.mat.d1 ∧ s'.mat.d2 = s.mat.d2 ∧
      contentMS s' (idxRange s'.mat) = ranksMS s.mat.size 0 (count + iters) := by
  intro iters
  induction iters with
  | zero =>
    intro count s V s' hInv hfl hc hcard hMS hrun
    simp only [phase23_loop] at hrun
    obtain rfl : s = s' := Option.some.inj hrun
    have hVempty : V = ∅ := Finset.card_eq_zero.mp hcard
    subst hVempty
    rw [Finset.sdiff_empty] at hMS
    exact ⟨rfl, rfl, rfl, hMS⟩
  | succ n ih =>
    intro count s V s' hInv hfl hc hcard hMS hrun
    obtain ⟨hdims, hveq, hceq, hvc, hcc, hvr, hcr, hdisj⟩ := hInv
    have hInv' : EngineInv s V ∅ := ⟨hdims, hveq, hceq, hvc, hcc, hvr, hcr, hdisj⟩
    have hVne : V.Nonempty := Finset.card_pos.mp (by omega)
    obtain ⟨i, hiV, hmax, hmin⟩ := max_void_spec hveq hVne
    have hiR : i ∈ idxRange s.mat := hvr hiV
    have hidx : s.mat.T3_to_idx (s.mat.idx_to_T3 i) = i :=
      T3_to_idx_idx_to_T3 s.mat hdims.1 hdims.2.1 hdims.2.2 hiR
    have hsize : (0 : ℤ) < s.mat.size :=
      mul_pos (mul_pos hdims.1 hdims.2.1) hdims.2.2
    have hv : 0 < (count : ℚ) / (s.mat.size : ℚ) := by
      apply div_pos
      · exact_mod_cast hc
      · exact_mod_cast hsize
    set S1 : TrackState := withWVC
      { s with mat := (s.mat.setT (s.mat.idx_to_T3 i)
          ((count : ℚ) / (s.mat.size : ℚ))) }
      (fun j => s.weights.data j + footprint s.mat s.filter j (s.mat.idx_to_T3 i))
      (V.erase i) ∅ with hS1
    obtain ⟨hset, hSinv⟩ : set_pixel s (s.mat.idx_to_T3 i)
        ((count : ℚ) / (s.mat.size : ℚ)) = .ok S1 ∧
        EngineInv S1 (V.erase i) ∅ := by
      have h := set_pixel_spec hInv' (Or.inr rfl)
        (t := s.mat.idx_to_T3 i) (by rw [hidx]; exact hiV) hv
      rw [hidx] at h
      have hite : (if s.cluster_tracking_is_on = true then insert i (∅ : Finset ℤ)
          else ∅) = (∅ : Finset ℤ) := by
        rw [hfl]
        exact if_neg Bool.false_ne_true
      rw [hite] at h
      exact h
    simp only [phase23_loop, hmax, hset] at hrun
    have hmats : S1.mat
        = s.mat.setT (s.mat.idx_to_T3 i) ((count : ℚ) / (s.mat.size : ℚ)) := rfl
    have hMS' : contentMS S1 (idxRange S1.mat \ V.erase i)
        = ranksMS s.mat.size 0 (count + 1) := by
      have hrange : idxRange (s.mat.setT (s.mat.idx_to_T3 i)
          ((count : ℚ) / (s.mat.size : ℚ))) = idxRange s.mat := rfl
      unfold contentMS
      rw [hmats, hrange, Finset.sdiff_erase hiR]
      have hnotin : i ∉ idxRange s.mat \ V := fun hx =>
        (Finset.mem_sdiff.mp hx).2 hiV
      rw [Finset.insert_val_of_not_mem hnotin, Multiset.map_cons]
      have hval : (s.mat.setT (s.mat.idx_to_T3 i)
          ((count : ℚ) / (s.mat.size : ℚ))).data i
          = (count : ℚ) / (s.mat.size : ℚ) := by
        simp only [Matrix3D.setT]
        rw [if_pos hidx.symm]
      have hrest : Multiset.map (s.mat.setT (s.mat.idx_to_T3 i)
          ((count : ℚ) / (s.mat.size : ℚ))).data (idxRange s.mat \ V).val
          = Multiset.map s.mat.data (idxRange s.mat \ V).val := by
        apply Multiset.map_congr rfl
        intro j hj
        have hji : j ≠ i := by
          intro hji
          exact hnotin (hji ▸ hj)
        simp only [Matrix3D.setT]
        rw [if_neg (fun hc' => hji (hc'.trans hidx))]
      show (s.mat.setT (s.mat.idx_to_T3 i) ((count : ℚ) / (s.mat.size : ℚ))).data i
          ::ₘ Multiset.map (s.mat.setT (s.mat.idx_to_T3 i)
            ((count : ℚ) / (s.mat.size : ℚ))).data (idxRange s.mat \ V).val
        = ranksMS s.mat.size 0 (count + 1)
      rw [hval, hrest, ranksMS_succ]
      exact congrArg _ hMS
    obtain ⟨hd0, hd1, hd2, hfinal⟩ := ih (count + 1) _ (V.erase i) s' hSinv
      (by rw [hS1]; exact hfl) (by omega)
      (by rw [Finset.card_erase_of_mem hiV, hcard]; omega)
      hMS' hrun
    refine ⟨hd0, hd1, hd2, ?_⟩
    rw [hfinal]
    have : count + 1 + n = count + (n + 1) := by omega
    rw [this, hmats]
    rfl

/-- `rank_initial_bitmap` hands ranks `count-1, …, 1, 0` to the cluster
voxels in decreasing clustering order, evicting each; the void set is
untouched and ends up consistent whatever the (possibly stale) cluster
set holds after the rank-0 toggle. -/
theorem rank_initial_spec :
    ∀ (count : ℕ) (s : TrackState) (V C : Finset ℤ) (hi : ℕ) (s' : TrackState),
      EngineInv s V C →
      s.cluster_tracking_is_on = true →
      C.card = count →
      count ≤ hi →
      contentMS s ((idxRange s.mat \ V) \ C) = ranksMS s.mat.size count hi →
      rank_initial_bitmap count s = some s' →
      VoidInv s' V ∧
      s'.mat.d0 = s.mat.d0 ∧ s'.mat.d1 = s.mat.d1 ∧ s'.mat.d2 = s.mat.d2 ∧
      contentMS s' (idxRange s'.mat \ V) = ranksMS s.mat.size 0 hi := by
  intro count
  induction count with
  | zero =>
    intro s V C hi s' hInv hfl hcard hhi hMS hrun
    simp only [rank_initial_bitmap] at hrun
    obtain rfl : s = s' := Option.some.inj hrun
    have hCempty : C = ∅ := Finset.card_eq_zero.mp hcard
    subst hCempty
    rw [Finset.sdiff_empty] at hMS
    obtain ⟨hdims, hveq, hceq, hvc, hcc, hvr, hcr, hdisj⟩ := hInv
    exact ⟨⟨hdims, hveq, hvc, hvr⟩, rfl, rfl, rfl, hMS⟩
  | succ c ih =>
    intro s V C hi s' hInv hfl hcard hhi hMS hrun
    obtain ⟨hdims, hveq, hceq, hvc, hcc, hvr, hcr, hdisj⟩ := hInv
    have hInv' : EngineInv s V C := ⟨hdims, hveq, hceq, hvc, hcc, hvr, hcr, hdisj⟩
    have hCne : C.Nonempty := Finset.card_pos.mp (by omega)
    obtain ⟨i, hiC, hmax, _⟩ := max_cluster_spec hceq hCne
    have hiR : i ∈ idxRange s.mat := hcr hiC
    have hidx : s.mat.T3_to_idx (s.mat.idx_to_T3 i) = i :=
      T3_to_idx_idx_to_T3 s.mat hdims.1 hdims.2.1 hdims.2.2 hiR
    have hiVnot : i ∉ V := Finset.disjoint_right.mp hdisj hiC
    -- the reset
    obtain ⟨hreset, hresetInv⟩ : reset_pixel s (s.mat.idx_to_T3 i)
        = withWVC { s with mat := (s.mat.setT (s.mat.idx_to_T3 i) 0) }
          (fun j => s.weights.data j -
            footprint s.mat s.filter j (s.mat.idx_to_T3 i))
          (insert i V) (C.erase i) ∧
        EngineInv (withWVC { s with mat := (s.mat.setT (s.mat.idx_to_T3 i) 0) }
          (fun j => s.weights.data j -
            footprint s.mat s.filter j (s.mat.idx_to_T3 i))
          (insert i V) (C.erase i)) (insert i V) (C.erase i) := by
      have h := reset_pixel_spec hInv' (Or.inl hfl) (s.mat.idx_to_T3 i)
      rw [hidx] at h
      exact h
    set S1 : TrackState := withWVC
      { s with mat := (s.mat.setT (s.mat.idx_to_T3 i) 0) }
      (fun j => s.weights.data j - footprint s.mat s.filter j (s.mat.idx_to_T3 i))
      (insert i V) (C.erase i) with hS1
    have hS1mat : S1.mat = s.mat.setT (s.mat.idx_to_T3 i) 0 := rfl
    have hS1fl : S1.cluster_tracking_is_on = true := hfl
    have hidx1 : S1.mat.T3_to_idx (s.mat.idx_to_T3 i) = i := hidx
    simp only [rank_initial_bitmap, hmax, hreset] at hrun
    by_cases hc0 : c = 0
    · -- final iteration, rank value 0
      subst hc0
      have hveq1 : S1.track_void = entriesOf S1.weights.data (insert i V) := rfl
      have hvc1 : ∀ j ∈ insert i V, S1.mat.data j = 0 := hresetInv.2.2.2.1
      obtain ⟨s2, hset, hm2, hf2, hfl2, hw2, hv2⟩ :=
        set_pixel_void_spec hveq1 hvc1
          (t := s.mat.idx_to_T3 i) (by rw [hidx1]; exact Finset.mem_insert_self i V)
          ((0 : ℕ) / (S1.mat.size : ℚ))
      rw [hset] at hrun
      simp only [rank_initial_bitmap] at hrun
      obtain rfl : remove_tracking s2 (s.mat.idx_to_T3 i) = s' :=
        Option.some.inj hrun
      have hidx2 : s2.mat.T3_to_idx (s.mat.idx_to_T3 i) = i := by
        rw [hm2]
        exact hidx
      have hrm_mat : (remove_tracking s2 (s.mat.idx_to_T3 i)).mat = s2.mat := rfl
      have hrm_w : (remove_tracking s2 (s.mat.idx_to_T3 i)).weights = s2.weights :=
        rfl
      -- void set: the eviction misses the (index-absent) entry
      have hv2' : s2.track_void = entriesOf s2.weights.data V := by
        rw [hv2, hidx1, Finset.erase_insert hiVnot, hw2]
      have hvoid' : (remove_tracking s2 (s.mat.idx_to_T3 i)).track_void
          = entriesOf s2.weights.data V := by
        show s2.track_void.erase
            (toLex (s2.weights.data (s2.mat.T3_to_idx (s.mat.idx_to_T3 i)),
              s2.mat.T3_to_idx (s.mat.idx_to_T3 i)))
          = entriesOf s2.weights.data V
        rw [hidx2, hv2']
        exact entriesOf_erase_notMem hiVnot
      have hdata2 : ∀ j, j ≠ i → s2.mat.data j = s.mat.data j := by
        intro j hj
        rw [hm2, hS1mat]
        simp only [Matrix3D.setT]
        rw [if_neg (fun hc' => hj (hc'.trans hidx)), if_neg (fun hc' => hj (hc'.trans hidx))]
      have hdims2 : (0 < s2.mat.d0 ∧ 0 < s2.mat.d1 ∧ 0 < s2.mat.d2) := by
        rw [hm2, hS1mat]
        exact hdims
      refine ⟨⟨hdims2, hvoid', ?_, ?_⟩, ?_, ?_, ?_, ?_⟩
      · intro j hj
        show s2.mat.data j = 0
        rw [hdata2 j (fun hji => hiVnot (hji ▸ hj))]
        exact hvc j hj
      · intro j hj
        have hrg : idxRange (remove_tracking s2 (s.mat.idx_to_T3 i)).mat
            = idxRange s.mat := by
          rw [hrm_mat, hm2, hS1mat]
          rfl
        rw [hrg]
        exact hvr hj
      · rw [hrm_mat, hm2, hS1mat]
        rfl
      · rw [hrm_mat, hm2, hS1mat]
        rfl
      · rw [hrm_mat, hm2, hS1mat]
        rfl
      · -- the multiset: C = {i}, the rank-0 voxel rejoins the pool
        have hCsing : C = {i} := by
          obtain ⟨a, ha⟩ := Finset.card_eq_one.mp hcard
          rw [ha] at hiC
          rw [ha, Finset.mem_singleton.mp hiC]
        have hiSD : i ∈ idxRange s.mat \ V := Finset.mem_sdiff.mpr ⟨hiR, hiVnot⟩
        have hrange' : idxRange (remove_tracking s2 (s.mat.idx_to_T3 i)).mat
            = idxRange s.mat := by
          rw [hrm_mat, hm2, hS1mat]
          rfl
        rw [hrange']
        have hsplit : idxRange s.mat \ V
            = insert i ((idxRange s.mat \ V).erase i) :=
          (Finset.insert_erase hiSD).symm
        rw [hsplit]
        unfold contentMS
        rw [Finset.insert_val_of_not_mem (Finset.not_mem_erase i _),
          Multiset.map_cons]
        have hvali : (remove_tracking s2 (s.mat.idx_to_T3 i)).mat.data i
            = ((0 : ℕ) : ℚ) / (s.mat.size : ℚ) := by
          rw [hrm_mat, hm2]
          simp only [Matrix3D.setT]
          rw [if_pos hidx1.symm]
          rfl
        have hrest : Multiset.map
            (remove_tracking s2 (s.mat.idx_to_T3 i)).mat.data
            ((idxRange s.mat \ V).erase i).val
            = Multiset.map s.mat.data ((idxRange s.mat \ V).erase i).val := by
          apply Multiset.map_congr rfl
          intro j hj
          have hji : j ≠ i := by
            have := Finset.mem_erase.mp (by exact hj)
            exact this.1
          rw [hrm_mat]
          exact hdata2 j hji
        rw [hvali, hrest]
        have herase_eq : (idxRange s.mat \ V).erase i
            = (idxRange s.mat \ V) \ C := by
          rw [hCsing, Finset.sdiff_singleton_eq_erase]
        rw [herase_eq]
        have hMS1 : Multiset.map s.mat.data ((idxRange s.mat \ V) \ C).val
            = ranksMS s.mat.size 1 hi := hMS
        rw [hMS1, ← ranksMS_cons (by omega : 0 < hi)]
    · -- regular iteration, rank value c/size with c ≥ 1
      have hsize : (0 : ℤ) < s.mat.size :=
        mul_pos (mul_pos hdims.1 hdims.2.1) hdims.2.2
      have hv : 0 < (c : ℚ) / (S1.mat.size : ℚ) := by
        apply div_pos
        · exact_mod_cast Nat.pos_of_ne_zero hc0
        · show (0 : ℚ) < ((s.mat.size : ℤ) : ℚ)
          exact_mod_cast hsize
      obtain ⟨hset, hSinv2⟩ : set_pixel S1 (s.mat.idx_to_T3 i)
          ((c : ℚ) / (S1.mat.size : ℚ)) = .ok (withWVC
            { S1 with mat := (S1.mat.setT (s.mat.idx_to_T3 i)
              ((c : ℚ) / (S1.mat.size : ℚ))) }
            (fun j => S1.weights.data j +
              footprint S1.mat S1.filter j (s.mat.idx_to_T3 i)) V C) ∧
          EngineInv (withWVC
            { S1 with mat := (S1.mat.setT (s.mat.idx_to_T3 i)
              ((c : ℚ) / (S1.mat.size : ℚ))) }
            (fun j => S1.weights.data j +
              footprint S1.mat S1.filter j (s.mat.idx_to_T3 i)) V C) V C := by
        have h := set_pixel_spec hresetInv (Or.inl hS1fl)
          (t := s.mat.idx_to_T3 i)
          (by rw [hidx1]; exact Finset.mem_insert_self i V) hv
        rw [hidx1] at h
        rw [if_pos hS1fl, Finset.erase_insert hiVnot, Finset.insert_erase hiC] at h
        exact h
      set S2 : TrackState := withWVC
        { S1 with mat := (S1.mat.setT (s.mat.idx_to_T3 i)
          ((c : ℚ) / (S1.mat.size : ℚ))) }
        (fun j => S1.weights.data j +
          footprint S1.mat S1.filter j (s.mat.idx_to_T3 i)) V C with hS2
      have hS2mat : S2.mat = S1.mat.setT (s.mat.idx_to_T3 i)
          ((c : ℚ) / (S1.mat.size : ℚ)) := rfl
      have hidx2 : S2.mat.T3_to_idx (s.mat.idx_to_T3 i) = i := hidx
      rw [hset] at hrun
      have hrm := remove_tracking_spec hSinv2 (s.mat.idx_to_T3 i)
      rw [hidx2] at hrm
      have hrmInv := remove_tracking_inv hSinv2 (s.mat.idx_to_T3 i)
      rw [hidx2] at hrmInv
      rw [Finset.erase_eq_of_not_mem hiVnot] at hrm hrmInv
      set S3 : TrackState := remove_tracking S2 (s.mat.idx_to_T3 i) with hS3
      have hS3mat : S3.mat = S2.mat := rfl
      have hS3fl : S3.cluster_tracking_is_on = true := hfl
      have hdata3 : ∀ j, j ≠ i → S3.mat.data j = s.mat.data j := by
        intro j hj
        rw [hS3mat, hS2mat, hS1mat]
        simp only [Matrix3D.setT]
        rw [if_neg (fun hc' => hj (hc'.trans hidx)),
          if_neg (fun hc' => hj (hc'.trans hidx))]
      have hval3 : S3.mat.data i = (c : ℚ) / (s.mat.size : ℚ) := by
        rw [hS3mat, hS2mat]
        simp only [Matrix3D.setT]
        rw [if_pos hidx1.symm]
        rfl
      have hiSD : i ∈ idxRange s.mat \ V := Finset.mem_sdiff.mpr ⟨hiR, hiVnot⟩
      have hMS3 : contentMS S3 ((idxRange S3.mat \ V) \ C.erase i)
          = ranksMS s.mat.size c hi := by
        have hrange3 : idxRange S3.mat = idxRange s.mat := by
          rw [hS3mat, hS2mat, hS1mat]
          rfl
        rw [hrange3]
        have hsplit : (idxRange s.mat \ V) \ C.erase i
            = insert i ((idxRange s.mat \ V) \ C) :=
          Finset.sdiff_erase hiSD
        rw [hsplit]
        unfold contentMS
        have hinotin : i ∉ (idxRange s.mat \ V) \ C := fun hx =>
          (Finset.mem_sdiff.mp hx).2 hiC
        rw [Finset.insert_val_of_not_mem hinotin, Multiset.map_cons, hval3]
        have hrest : Multiset.map S3.mat.data ((idxRange s.mat \ V) \ C).val
            = Multiset.map s.mat.data ((idxRange s.mat \ V) \ C).val := by
          apply Multiset.map_congr rfl
          intro j hj
          exact hdata3 j (fun hji => hinotin (hji ▸ hj))
        rw [hrest]
        have hMS1 : Multiset.map s.mat.data ((idxRange s.mat \ V) \ C).val
            = ranksMS s.mat.size (c + 1) hi := hMS
        rw [hMS1, ← ranksMS_cons (by omega : c < hi)]
      obtain ⟨hinv', hd0, hd1, hd2, hfinal⟩ := ih S3 V (C.erase i) hi s' hrmInv
        hS3fl (by rw [Finset.card_erase_of_mem hiC, hcard]; omega)
        (by omega) hMS3 hrun
      have hd0' : S3.mat.d0 = s.mat.d0 := by
        rw [hS3mat, hS2mat, hS1mat]
        rfl
      have hd1' : S3.mat.d1 = s.mat.d1 := by
        rw [hS3mat, hS2mat, hS1mat]
        rfl
      have hd2' : S3.mat.d2 = s.mat.d2 := by
        rw [hS3mat, hS2mat, hS1mat]
        rfl
      have hsize3 : S3.mat.size = s.mat.size := by
        rw [hS3mat, hS2mat, hS1mat]
        rfl
      refine ⟨hinv', hd0.trans hd0', hd1.trans hd1', hd2.trans hd2', ?_⟩
      rw [hfinal, hsize3]

/-- `initial_bitmap` keeps the tracking invariant; every accepted draw
moves one voxel from the void side to the cluster side, so the cluster
set grows by exactly `count`. -/
theorem initial_bitmap_inv :
    ∀ (fuel count step : ℕ) (draws : ℕ → T3) (s : TrackState)
      (V C : Finset ℤ) (s' : TrackState),
      EngineInv s V C →
      s.cluster_tracking_is_on = true →
      V ∪ C = idxRange s.mat →
      initial_bitmap fuel draws count step s = some s' →
      ∃ V' C', EngineInv s' V' C' ∧
        s'.cluster_tracking_is_on = true ∧
        s'.mat.d0 = s.mat.d0 ∧ s'.mat.d1 = s.mat.d1 ∧ s'.mat.d2 = s.mat.d2 ∧
        V' ∪ C' = idxRange s.mat ∧ C'.card = C.card + count := by
  intro fuel
  induction fuel with
  | zero =>
    intro count step draws s V C s' hInv hfl hUC hrun
    simp only [initial_bitmap] at hrun
    by_cases hc : count = 0
    · rw [if_pos hc] at hrun
      obtain rfl : s = s' := Option.some.inj hrun
      exact ⟨V, C, hInv, hfl, rfl, rfl, rfl, hUC, by omega⟩
    · rw [if_neg hc] at hrun
      exact absurd hrun (by simp)
  | succ fuel ih =>
    intro count step draws s V C s' hInv hfl hUC hrun
    simp only [initial_bitmap] at hrun
    by_cases hc : count = 0
    · rw [if_pos hc] at hrun
      obtain rfl : s = s' := Option.some.inj hrun
      exact ⟨V, C, hInv, hfl, rfl, rfl, rfl, hUC, by omega⟩
    · rw [if_neg hc] at hrun
      by_cases hget : s.mat.get (draws step) = 0
      · rw [if_pos hget] at hrun
        obtain ⟨hdims, hveq, hceq, hvc, hcc, hvr, hcr, hdisj⟩ := hInv
        have hInv' : EngineInv s V C :=
          ⟨hdims, hveq, hceq, hvc, hcc, hvr, hcr, hdisj⟩
        have hiR : s.mat.T3_to_idx (draws step) ∈ idxRange s.mat :=
          T3_to_idx_mem s.mat hdims.1 hdims.2.1 hdims.2.2 (draws step)
        have hiVC : s.mat.T3_to_idx (draws step) ∈ V ∪ C := by
          rw [hUC]
          exact hiR
        have hiV : s.mat.T3_to_idx (draws step) ∈ V := by
          rcases Finset.mem_union.mp hiVC with h | h
          · exact h
          · exact absurd (show s.mat.data (s.mat.T3_to_idx (draws step)) = 0
              from hget) (hcc _ h).ne'
        obtain ⟨hset, hsetInv⟩ := set_pixel_spec hInv' (Or.inl hfl) hiV one_pos
        rw [if_pos hfl] at hset hsetInv
        rw [hset] at hrun
        obtain ⟨V', C', hI, hf, h0, h1, h2, hU, hcard⟩ :=
          ih (count - 1) (step + 1) draws _ _ _ s' hsetInv hfl
            (by
              show V.erase (s.mat.T3_to_idx (draws step)) ∪
                insert (s.mat.T3_to_idx (draws step)) C = idxRange s.mat
              rw [Finset.union_insert, ← Finset.insert_union,
                Finset.insert_erase hiV, hUC]) hrun
        have hiC : s.mat.T3_to_idx (draws step) ∉ C :=
          Finset.disjoint_left.mp hdisj hiV
        refine ⟨V', C', hI, hf, h0, h1, h2, hU, ?_⟩
        rw [hcard, Finset.card_insert_of_not_mem hiC]
        omega
      · rw [if_neg hget] at hrun
        exact ih count (step + 1) draws s V C s' hInv hfl hUC hrun

/-- One pass of the balancing loop keeps the invariant, the dimensions,
the union of the two tracking pools and the on-count. -/
theorem reorder_body_inv {s : TrackState} {V C : Finset ℤ}
    {p : TrackState × Bool}
    (hInv : EngineInv s V C) (hfl : s.cluster_tracking_is_on = true)
    (hbody : reorder_body s = some p) :
    ∃ V' C', EngineInv p.1 V' C' ∧
      p.1.cluster_tracking_is_on = true ∧
      p.1.mat.d0 = s.mat.d0 ∧ p.1.mat.d1 = s.mat.d1 ∧
      p.1.mat.d2 = s.mat.d2 ∧
      V' ∪ C' = V ∪ C ∧ C'.card = C.card := by
  obtain ⟨hdims, hveq, hceq, hvc, hcc, hvr, hcr, hdisj⟩ := hInv
  have hInv' : EngineInv s V C := ⟨hdims, hveq, hceq, hvc, hcc, hvr, hcr, hdisj⟩
  rcases C.eq_empty_or_nonempty with hC | hCne
  · have hemp : ¬s.track_cluster.Nonempty := by
      rw [hceq, hC, entriesOf_empty]
      exact Finset.not_nonempty_empty
    have hnone : max_cluster s = none := by
      unfold max_cluster
      rw [dif_neg hemp]
    simp only [reorder_body, hnone] at hbody
    exact absurd hbody (by simp)
  · obtain ⟨i, hiC, hmax, _⟩ := max_cluster_spec hceq hCne
    have hiR : i ∈ idxRange s.mat := hcr hiC
    have hidx : s.mat.T3_to_idx (s.mat.idx_to_T3 i) = i :=
      T3_to_idx_idx_to_T3 s.mat hdims.1 hdims.2.1 hdims.2.2 hiR
    obtain ⟨hreset, hresetInv⟩ : reset_pixel s (s.mat.idx_to_T3 i)
        = withWVC { s with mat := (s.mat.setT (s.mat.idx_to_T3 i) 0) }
          (fun j => s.weights.data j -
            footprint s.mat s.filter j (s.mat.idx_to_T3 i))
          (insert i V) (C.erase i) ∧
        EngineInv (withWVC { s with mat := (s.mat.setT (s.mat.idx_to_T3 i) 0) }
          (fun j => s.weights.data j -
            footprint s.mat s.filter j (s.mat.idx_to_T3 i))
          (insert i V) (C.erase i)) (insert i V) (C.erase i) := by
      have h := reset_pixel_spec hInv' (Or.inl hfl) (s.mat.idx_to_T3 i)
      rw [hidx] at h
      exact h
    set S1 : TrackState := withWVC
      { s with mat := (s.mat.setT (s.mat.idx_to_T3 i) 0) }
      (fun j => s.weights.data j - footprint s.mat s.filter j (s.mat.idx_to_T3 i))
      (insert i V) (C.erase i) with hS1
    have hS1fl : S1.cluster_tracking_is_on = true := hfl
    simp only [reorder_body, hmax, hreset] at hbody
    have hS1veq : S1.track_void = entriesOf S1.weights.data (insert i V) := rfl
    obtain ⟨j, hjV, hmin, _⟩ :=
      max_void_spec hS1veq (Finset.insert_nonempty i V)
    have hjR : j ∈ idxRange S1.mat := hresetInv.2.2.2.2.2.1 hjV
    have hidx1 : S1.mat.T3_to_idx (S1.mat.idx_to_T3 j) = j :=
      T3_to_idx_idx_to_T3 S1.mat hresetInv.1.1 hresetInv.1.2.1
        hresetInv.1.2.2 hjR
    obtain ⟨hset, hsetInv⟩ := set_pixel_spec hresetInv (Or.inl hS1fl)
      (by rw [hidx1]; exact hjV) one_pos
    rw [hidx1, if_pos hS1fl] at hset hsetInv
    simp only [hmin, hset] at hbody
    obtain rfl : (withWVC
        { S1 with mat := (S1.mat.setT (S1.mat.idx_to_T3 j) 1) }
        (fun l => S1.weights.data l +
          footprint S1.mat S1.filter l (S1.mat.idx_to_T3 j))
        ((insert i V).erase j) (insert j (C.erase i)),
        decide (S1.mat.idx_to_T3 j = s.mat.idx_to_T3 i)) = p :=
      Option.some.inj hbody
    have hjCe : j ∉ C.erase i := by
      rcases Finset.mem_insert.mp hjV with h | h
      · rw [h]
        exact Finset.not_mem_erase i C
      · intro hmem'
        exact Finset.disjoint_left.mp hdisj h (Finset.mem_of_mem_erase hmem')
    refine ⟨(insert i V).erase j, insert j (C.erase i), hsetInv, hfl,
      rfl, rfl, rfl, ?_, ?_⟩
    · rw [Finset.union_insert, ← Finset.insert_union, Finset.insert_erase hjV,
        Finset.insert_union, ← Finset.union_insert, Finset.insert_erase hiC]
    · rw [Finset.card_insert_of_not_mem hjCe, Finset.card_erase_of_mem hiC]
      have := Finset.card_pos.mpr hCne
      omega

/-- The whole balancing loop keeps the invariant, the dimensions, the
union of the two tracking pools and the on-count. -/
theorem reorder_inv :
    ∀ (fuel : ℕ) (s : TrackState) (V C : Finset ℤ) (s' : TrackState),
      EngineInv s V C →
      s.cluster_tracking_is_on = true →
      reorder_bitmap fuel s = some s' →
      ∃ V' C', EngineInv s' V' C' ∧
        s'.cluster_tracking_is_on = true ∧
        s'.mat.d0 = s.mat.d0 ∧ s'.mat.d1 = s.mat.d1 ∧
        s'.mat.d2 = s.mat.d2 ∧
        V' ∪ C' = V ∪ C ∧ C'.card = C.card := by
  intro fuel
  induction fuel with
  | zero =>
    intro s V C s' hInv hfl hrun
    exact absurd hrun (by simp [reorder_bitmap])
  | succ fuel ih =>
    intro s V C s' hInv hfl hrun
    cases hb : reorder_body s with
    | none =>
      simp only [reorder_bitmap, hb] at hrun
      exact absurd hrun (by simp)
    | some p =>
      obtain ⟨s1, done⟩ := p
      obtain ⟨V1, C1, hI1, hf1, h01, h11, h21, hU1, hc1⟩ :=
        reorder_body_inv hInv hfl hb
      simp only [reorder_bitmap, hb] at hrun
      cases done with
      | true =>
        rw [if_pos rfl] at hrun
        obtain rfl : s1 = s' := Option.some.inj hrun
        exact ⟨V1, C1, hI1, hf1, h01, h11, h21, hU1, hc1⟩
      | false =>
        rw [if_neg (by simp)] at hrun
        obtain ⟨V2, C2, hI2, hf2, h02, h12, h22, hU2, hc2⟩ :=
          ih s1 V1 C1 s' hI1 hf1 hrun
        exact ⟨V2, C2, hI2, hf2, h02.trans h01, h12.trans h11,
          h22.trans h21, hU2.trans hU1, hc2.trans hc1⟩

/-- The whole pipeline: a fresh lattice taken through `phase_1` and
`phase_2_and_3` holds the complete rank multiset. -/
theorem pipeline_ranks {fuelIB fuelRB : ℕ} {draws : ℕ → T3}
    {d0 d1 d2 : ℤ} {filt : Matrix3D} {jitter : ℤ → ℚ} {k : ℕ}
    {s' sF : TrackState}
    (h0 : 0 < d0) (h1 : 0 < d1) (h2 : 0 < d2) (hk : 1 ≤ k)
    (hphase1 : phase_1 fuelIB fuelRB draws k (mkTracked d0 d1 d2 filt jitter)
      = some s')
    (hphase23 : phase_2_and_3 k s' = some sF) :
    sF.mat.d0 = d0 ∧ sF.mat.d1 = d1 ∧ sF.mat.d2 = d2 ∧
    contentMS sF (idxRange sF.mat)
      = ranksMS (d0 * d1 * d2) 0 ((d0 * d1 * d2).toNat) := by
  set n : ℤ := d0 * d1 * d2 with hn
  rw [mkTracked_spec d0 d1 d2 h0 h1 h2 filt jitter] at hphase1
  set s0 : TrackState := ⟨⟨d0, d1, d2, fun _ => 0⟩, ⟨d0, d1, d2, jitter⟩, filt,
    entriesOf jitter (Finset.Ico 0 n), ∅, true⟩ with hs0
  have hInv0 : EngineInv s0 (idxRange s0.mat) ∅ := by
    refine ⟨⟨h0, h1, h2⟩, rfl, (entriesOf_empty _).symm, ?_, ?_, ?_, ?_, ?_⟩
    · intro i _
      rfl
    · intro i hi
      exact absurd hi (Finset.not_mem_empty i)
    · exact Finset.Subset.refl _
    · exact Finset.empty_subset _
    · exact Finset.disjoint_empty_right _
  simp only [phase_1] at hphase1
  rcases Option.bind_eq_some.mp hphase1 with ⟨s1, hib, hrest⟩
  rcases Option.bind_eq_some.mp hrest with ⟨s2, hrb, hri⟩
  obtain ⟨V1, C1, hI1, hf1, e01, e11, e21, hU1, hc1⟩ :=
    initial_bitmap_inv fuelIB k 0 draws s0 (idxRange s0.mat) ∅ s1 hInv0 rfl
      (Finset.union_empty _) hib
  obtain ⟨V2, C2, hI2, hf2, e02, e12, e22, hU2, hc2⟩ :=
    reorder_inv fuelRB s1 V1 C1 s2 hI1 hf1 hrb
  have hrange2 : idxRange s2.mat = idxRange s0.mat := by
    unfold idxRange Matrix3D.size
    rw [e02, e12, e22, e01, e11, e21]
  have hUC2 : V2 ∪ C2 = idxRange s0.mat := hU2.trans hU1
  have hc2k : C2.card = k := by
    have hce : (∅ : Finset ℤ).card = 0 := rfl
    omega
  have hMS2 : contentMS s2 ((idxRange s2.mat \ V2) \ C2)
      = ranksMS s2.mat.size k k := by
    have hempty : (idxRange s2.mat \ V2) \ C2 = ∅ := by
      rw [Finset.eq_empty_iff_forall_not_mem]
      intro x hx
      obtain ⟨hx1, hxC⟩ := Finset.mem_sdiff.mp hx
      obtain ⟨hxR, hxV⟩ := Finset.mem_sdiff.mp hx1
      rw [hrange2, ← hUC2] at hxR
      rcases Finset.mem_union.mp hxR with h | h
      · exact hxV h
      · exact hxC h
    rw [hempty, ranksMS_self]
    rfl
  obtain ⟨hVoid', e0', e1', e2', hMS'⟩ :=
    rank_initial_spec k s2 V2 C2 k s' hI2 hf2 hc2k (le_refl k) hMS2 hri
  obtain ⟨hEIoff, hfloff, hmatoff, hwoff, hfiltoff⟩ :=
    cluster_tracking_off_void hVoid'
  simp only [phase_2_and_3] at hphase23
  have hs'0 : s'.mat.d0 = d0 := by rw [e0', e02, e01]
  have hs'1 : s'.mat.d1 = d1 := by rw [e1', e12, e11]
  have hs'2 : s'.mat.d2 = d2 := by rw [e2', e22, e21]
  have hsize' : s'.mat.size = n := by
    show s'.mat.d0 * s'.mat.d1 * s'.mat.d2 = n
    rw [hs'0, hs'1, hs'2]
  have hdisj2 : Disjoint V2 C2 := hI2.2.2.2.2.2.2.2
  have hcardU : V2.card + C2.card = (idxRange s0.mat).card := by
    rw [← Finset.card_union_of_disjoint hdisj2, hUC2]
  have hrangecard : (idxRange s0.mat).card = n.toNat := by
    show (Finset.Ico (0 : ℤ) s0.mat.size).card = n.toNat
    rw [Int.card_Ico]
    show (n - 0).toNat = n.toNat
    omega
  have hVcard : V2.card = (s'.mat.size - (k : ℤ)).toNat := by
    rw [hsize']
    omega
  have hsize2' : s2.mat.size = s'.mat.size := by
    show s2.mat.d0 * s2.mat.d1 * s2.mat.d2
      = s'.mat.d0 * s'.mat.d1 * s'.mat.d2
    rw [e0', e1', e2']
  have hMSoff : contentMS (cluster_tracking_off s')
      (idxRange (cluster_tracking_off s').mat \ V2)
      = ranksMS (cluster_tracking_off s').mat.size 0 k := by
    have hr : idxRange (cluster_tracking_off s').mat = idxRange s'.mat := by
      rw [hmatoff]
    have hsz : (cluster_tracking_off s').mat.size = s'.mat.size := by
      rw [hmatoff]
    have hcc' : contentMS (cluster_tracking_off s') (idxRange s'.mat \ V2)
        = contentMS s' (idxRange s'.mat \ V2) :=
      contentMS_congr (fun i _ => by rw [hmatoff])
    rw [hr, hsz, hcc', hMS', hsize2']
  obtain ⟨f0, f1, f2, hMSF⟩ :=
    phase23_loop_spec ((s'.mat.size - (k : ℤ)).toNat) k
      (cluster_tracking_off s') V2 sF hEIoff hfloff hk hVcard hMSoff hphase23
  have hszoff : (cluster_tracking_off s').mat.size = n := by
    rw [show (cluster_tracking_off s').mat.size = s'.mat.size from
      by rw [hmatoff], hsize']
  have hkn : k ≤ n.toNat := by omega
  have hiters : k + (s'.mat.size - (k : ℤ)).toNat = n.toNat := by
    rw [hsize']
    omega
  refine ⟨?_, ?_, ?_, ?_⟩
  · rw [f0, show (cluster_tracking_off s').mat.d0 = s'.mat.d0 from
      by rw [hmatoff], hs'0]
  · rw [f1, show (cluster_tracking_off s').mat.d1 = s'.mat.d1 from
      by rw [hmatoff], hs'1]
  · rw [f2, show (cluster_tracking_off s').mat.d2 = s'.mat.d2 from
      by rw [hmatoff], hs'2]
  · rw [hMSF, hszoff, hiters]

/-! ## The kernel cube as a triple sum, and its reflection symmetry -/

theorem sum_flatMap_q (l : List ℕ) (f : ℕ → List ℚ) :
    (l.flatMap f).sum = (l.map fun a => (f a).sum).sum := by
  induction l with
  | nil => rfl
  | cons a l ih =>
    rw [List.flatMap_cons, List.sum_append, List.map_cons, List.sum_cons, ih]

theorem sum_map_range (n : ℕ) (f : ℕ → ℚ) :
    ((List.range n).map f).sum = ∑ i ∈ Finset.range n, f i := by
  rw [Finset.sum_eq_multiset_sum]
  rfl

/-- The loop over the kernel cube, summed, as three nested range sums. -/
theorem sum_map_cellsList (d0 d1 d2 : ℤ) (fn : T3 → ℚ) :
    ((cellsList d0 d1 d2).map fn).sum
      = ∑ i2 ∈ Finset.range d2.toNat, ∑ i1 ∈ Finset.range d1.toNat,
          ∑ i0 ∈ Finset.range d0.toNat,
            fn (Int.ofNat i0, Int.ofNat i1, Int.ofNat i2) := by
  unfold cellsList
  rw [List.map_flatMap, sum_flatMap_q, sum_map_range]
  refine Finset.sum_congr rfl fun i2 _ => ?_
  rw [List.map_flatMap, sum_flatMap_q, sum_map_range]
  refine Finset.sum_congr rfl fun i1 _ => ?_
  rw [List.map_map, sum_map_range]
  rfl

theorem T3_to_idx_dims_congr {m mp : Matrix3D} (h0 : m.d0 = mp.d0)
    (h1 : m.d1 = mp.d1) (h2 : m.d2 = mp.d2) (t : T3) :
    m.T3_to_idx t = mp.T3_to_idx t := by
  unfold Matrix3D.T3_to_idx
  rw [h0, h1, h2]

theorem idx_to_T3_dims_congr {m mp : Matrix3D} (h0 : m.d0 = mp.d0)
    (h1 : m.d1 = mp.d1) (j : ℤ) :
    m.idx_to_T3 j = mp.idx_to_T3 j := by
  unfold Matrix3D.idx_to_T3
  rw [h0, h1]

theorem footprint_dims_congr {m mp : Matrix3D} (f : Matrix3D)
    (h0 : m.d0 = mp.d0) (h1 : m.d1 = mp.d1) (h2 : m.d2 = mp.d2)
    (j : ℤ) (r : T3) : footprint m f j r = footprint mp f j r := by
  simp only [footprint]
  congr 1
  apply List.map_congr_left
  intro g _
  rw [T3_to_idx_dims_congr h0 h1 h2]

/-- The footprint only depends on the offset class of the target voxel
relative to the convolution centre. -/
theorem footprint_eq_footprintD {m : Matrix3D} (f : Matrix3D)
    (h0 : 0 < m.d0) (h1 : 0 < m.d1) (h2 : 0 < m.d2) {j : ℤ}
    (hj : j ∈ idxRange m) (r : T3) :
    footprint m f j r = footprintD m f (m.idx_to_T3 j - r) := by
  have hround : m.T3_to_idx (m.idx_to_T3 j) = j :=
    T3_to_idx_idx_to_T3 m h0 h1 h2 hj
  simp only [footprint, footprintD]
  rw [sum_map_cellsList]
  refine Finset.sum_congr rfl fun i2 _ => Finset.sum_congr rfl fun i1 _ =>
    Finset.sum_congr rfl fun i0 _ => ?_
  set g : T3 := (Int.ofNat i0, Int.ofNat i1, Int.ofNat i2) with hg
  refine if_congr ?_ rfl rfl
  have hstep : (m.T3_to_idx
        (r + g - (Int.tdiv f.d0 2, Int.tdiv f.d1 2, Int.tdiv f.d2 2)) = j)
      ↔ (m.T3_to_idx (r + g - (Int.tdiv f.d0 2, Int.tdiv f.d1 2,
          Int.tdiv f.d2 2)) = m.T3_to_idx (m.idx_to_T3 j)) := by
    rw [hround]
  rw [hstep, T3_to_idx_eq_iff m h0 h1 h2,
    cmod_eq_cmod_iff_dvd h0, cmod_eq_cmod_iff_dvd h1, cmod_eq_cmod_iff_dvd h2]
  have e0 : (m.idx_to_T3 j).1 - (r + g - ((Int.tdiv f.d0 2 : ℤ),
        (Int.tdiv f.d1 2 : ℤ), (Int.tdiv f.d2 2 : ℤ))).1
      = -(g.1 - Int.tdiv f.d0 2 - (m.idx_to_T3 j - r).1) := by
    show (m.idx_to_T3 j).1 - (r.1 + g.1 - Int.tdiv f.d0 2)
      = -(g.1 - Int.tdiv f.d0 2 - ((m.idx_to_T3 j).1 - r.1))
    ring
  have e1 : (m.idx_to_T3 j).2.1 - (r + g - ((Int.tdiv f.d0 2 : ℤ),
        (Int.tdiv f.d1 2 : ℤ), (Int.tdiv f.d2 2 : ℤ))).2.1
      = -(g.2.1 - Int.tdiv f.d1 2 - (m.idx_to_T3 j - r).2.1) := by
    show (m.idx_to_T3 j).2.1 - (r.2.1 + g.2.1 - Int.tdiv f.d1 2)
      = -(g.2.1 - Int.tdiv f.d1 2 - ((m.idx_to_T3 j).2.1 - r.2.1))
    ring
  have e2 : (m.idx_to_T3 j).2.2 - (r + g - ((Int.tdiv f.d0 2 : ℤ),
        (Int.tdiv f.d1 2 : ℤ), (Int.tdiv f.d2 2 : ℤ))).2.2
      = -(g.2.2 - Int.tdiv f.d2 2 - (m.idx_to_T3 j - r).2.2) := by
    show (m.idx_to_T3 j).2.2 - (r.2.2 + g.2.2 - Int.tdiv f.d2 2)
      = -(g.2.2 - Int.tdiv f.d2 2 - ((m.idx_to_T3 j).2.2 - r.2.2))
    ring
  rw [e0, e1, e2, dvd_neg, dvd_neg, dvd_neg]

theorem pos_of_tmod_two_eq_one {a : ℤ} (h : Int.tmod a 2 = 1) : 0 < a := by
  rcases a with m | m
  · rcases Nat.eq_zero_or_pos m with rfl | hm
    · exact absurd h (by decide)
    · show (0 : ℤ) < (m : ℤ)
      omega
  · have heq : (Int.negSucc m).tmod 2 = -((m + 1 : ℤ).tmod 2) := rfl
    have hnn := Int.tmod_nonneg (a := (m + 1 : ℤ)) 2 (by positivity)
    omega

theorem odd_decomp {a : ℤ} (h : Int.tmod a 2 = 1) :
    a = 2 * Int.tdiv a 2 + 1 := by
  have := Int.tdiv_add_tmod a 2
  omega

/-- The Gaussian reflection: under reflection-symmetric cell values and
odd kernel dimensions, the kernel mass of the offset class `-d` equals
that of `d`. -/
theorem footprintD_neg {m f : Matrix3D} (hodd : OddDims f) (hsym : CellSymm f)
    (d : T3) : footprintD m f (-d) = footprintD m f d := by
  obtain ⟨ho0, ho1, ho2⟩ := hodd
  unfold footprintD
  rw [← Finset.sum_range_reflect]
  refine Finset.sum_congr rfl fun i2 hi2 => ?_
  rw [← Finset.sum_range_reflect]
  refine Finset.sum_congr rfl fun i1 hi1 => ?_
  rw [← Finset.sum_range_reflect]
  refine Finset.sum_congr rfl fun i0 hi0 => ?_
  have hm0 := Finset.mem_range.mp hi0
  have hm1 := Finset.mem_range.mp hi1
  have hm2 := Finset.mem_range.mp hi2
  have hp0 : 0 < f.d0 := by omega
  have hp1 : 0 < f.d1 := by omega
  have hp2 : 0 < f.d2 := by omega
  have hc0 : (Int.ofNat (f.d0.toNat - 1 - i0)) = f.d0 - 1 - Int.ofNat i0 := by
    simp only [Int.ofNat_eq_coe]
    omega
  have hc1 : (Int.ofNat (f.d1.toNat - 1 - i1)) = f.d1 - 1 - Int.ofNat i1 := by
    simp only [Int.ofNat_eq_coe]
    omega
  have hc2 : (Int.ofNat (f.d2.toNat - 1 - i2)) = f.d2 - 1 - Int.ofNat i2 := by
    simp only [Int.ofNat_eq_coe]
    omega
  have hval : f.get (Int.ofNat (f.d0.toNat - 1 - i0),
      Int.ofNat (f.d1.toNat - 1 - i1), Int.ofNat (f.d2.toNat - 1 - i2))
      = f.get (Int.ofNat i0, Int.ofNat i1, Int.ofNat i2) := by
    rw [show ((Int.ofNat (f.d0.toNat - 1 - i0), Int.ofNat (f.d1.toNat - 1 - i1),
        Int.ofNat (f.d2.toNat - 1 - i2)) : T3)
      = (f.d0 - 1 - (Int.ofNat i0, Int.ofNat i1, Int.ofNat i2).1,
         f.d1 - 1 - (Int.ofNat i0, Int.ofNat i1, Int.ofNat i2).2.1,
         f.d2 - 1 - (Int.ofNat i0, Int.ofNat i1, Int.ofNat i2).2.2) from by
      rw [Prod.mk.injEq, Prod.mk.injEq]
      exact ⟨hc0, hc1, hc2⟩]
    exact hsym _ (mem_cellsList.mpr
      (by refine ⟨?_, ?_, ?_, ?_, ?_, ?_⟩ <;> simp only [Int.ofNat_eq_coe] <;>
        omega))
  rw [hval]
  refine if_congr ?_ rfl rfl
  rw [hc0, hc1, hc2]
  have e0 : f.d0 - 1 - Int.ofNat i0 - Int.tdiv f.d0 2 - (-d).1
      = -(Int.ofNat i0 - Int.tdiv f.d0 2 - d.1) := by
    show f.d0 - 1 - Int.ofNat i0 - Int.tdiv f.d0 2 - -d.1 = _
    simp only [Int.ofNat_eq_coe]
    omega
  have e1 : f.d1 - 1 - Int.ofNat i1 - Int.tdiv f.d1 2 - (-d).2.1
      = -(Int.ofNat i1 - Int.tdiv f.d1 2 - d.2.1) := by
    show f.d1 - 1 - Int.ofNat i1 - Int.tdiv f.d1 2 - -d.2.1 = _
    simp only [Int.ofNat_eq_coe]
    omega
  have e2 : f.d2 - 1 - Int.ofNat i2 - Int.tdiv f.d2 2 - (-d).2.2
      = -(Int.ofNat i2 - Int.tdiv f.d2 2 - d.2.2) := by
    show f.d2 - 1 - Int.ofNat i2 - Int.tdiv f.d2 2 - -d.2.2 = _
    simp only [Int.ofNat_eq_coe]
    omega
  rw [e0, e1, e2, dvd_neg, dvd_neg, dvd_neg]

/-- The kernel mass only depends on the offset class modulo the lattice
dimensions. -/
theorem footprintD_congr {m f : Matrix3D} {d dp : T3}
    (h0 : m.d0 ∣ d.1 - dp.1) (h1 : m.d1 ∣ d.2.1 - dp.2.1)
    (h2 : m.d2 ∣ d.2.2 - dp.2.2) :
    footprintD m f d = footprintD m f dp := by
  unfold footprintD
  refine Finset.sum_congr rfl fun i2 _ => Finset.sum_congr rfl fun i1 _ =>
    Finset.sum_congr rfl fun i0 _ => ?_
  refine if_congr ⟨fun h => ⟨?_, ?_, ?_⟩, fun h => ⟨?_, ?_, ?_⟩⟩ rfl rfl
  · have e : Int.ofNat i0 - Int.tdiv f.d0 2 - dp.1
        = (Int.ofNat i0 - Int.tdiv f.d0 2 - d.1) + (d.1 - dp.1) := by ring
    rw [e]
    exact dvd_add h.1 h0
  · have e : Int.ofNat i1 - Int.tdiv f.d1 2 - dp.2.1
        = (Int.ofNat i1 - Int.tdiv f.d1 2 - d.2.1) + (d.2.1 - dp.2.1) := by
      ring
    rw [e]
    exact dvd_add h.2.1 h1
  · have e : Int.ofNat i2 - Int.tdiv f.d2 2 - dp.2.2
        = (Int.ofNat i2 - Int.tdiv f.d2 2 - d.2.2) + (d.2.2 - dp.2.2) := by
      ring
    rw [e]
    exact dvd_add h.2.2 h2
  · have e : Int.ofNat i0 - Int.tdiv f.d0 2 - d.1
        = (Int.ofNat i0 - Int.tdiv f.d0 2 - dp.1) + -(d.1 - dp.1) := by ring
    rw [e]
    exact dvd_add h.1 (dvd_neg.mpr h0)
  · have e : Int.ofNat i1 - Int.tdiv f.d1 2 - d.2.1
        = (Int.ofNat i1 - Int.tdiv f.d1 2 - dp.2.1) + -(d.2.1 - dp.2.1) := by
      ring
    rw [e]
    exact dvd_add h.2.1 (dvd_neg.mpr h1)
  · have e : Int.ofNat i2 - Int.tdiv f.d2 2 - d.2.2
        = (Int.ofNat i2 - Int.tdiv f.d2 2 - dp.2.2) + -(d.2.2 - dp.2.2) := by
      ring
    rw [e]
    exact dvd_add h.2.2 (dvd_neg.mpr h2)

/-- The footprint is symmetric between source and target voxel for a
reflection-symmetric odd kernel. -/
theorem footprintSymm_of_cellSymm {m f : Matrix3D} (h0 : 0 < m.d0)
    (h1 : 0 < m.d1) (h2 : 0 < m.d2) (hodd : OddDims f) (hsym : CellSymm f) :
    FootprintSymm m f := by
  intro i j hi hj
  rw [footprint_eq_footprintD f h0 h1 h2 hj (m.idx_to_T3 i),
    footprint_eq_footprintD f h0 h1 h2 hi (m.idx_to_T3 j)]
  have e : m.idx_to_T3 j - m.idx_to_T3 i = -(m.idx_to_T3 i - m.idx_to_T3 j) :=
    (neg_sub _ _).symm
  rw [e, footprintD_neg hodd hsym]

/-- Every voxel sees the same kernel mass from itself (the diagonal of the
footprint is constant). -/
theorem footprint_diag {m : Matrix3D} (f : Matrix3D) (h0 : 0 < m.d0)
    (h1 : 0 < m.d1) (h2 : 0 < m.d2) {i : ℤ} (hi : i ∈ idxRange m) :
    footprint m f i (m.idx_to_T3 i) = footprintD m f 0 := by
  rw [footprint_eq_footprintD f h0 h1 h2 hi, sub_self]

/-! ## The Gaussian kernel construction -/

theorem foldl_setT_dims (vf : T3 → ℚ) :
    ∀ (L : List T3) (acc : Matrix3D),
      (L.foldl (fun a t => a.setT t (vf t)) acc).d0 = acc.d0 ∧
      (L.foldl (fun a t => a.setT t (vf t)) acc).d1 = acc.d1 ∧
      (L.foldl (fun a t => a.setT t (vf t)) acc).d2 = acc.d2 := by
  intro L
  induction L with
  | nil => exact fun acc => ⟨rfl, rfl, rfl⟩
  | cons g L ih =>
    intro acc
    simp only [List.foldl_cons]
    exact ih (acc.setT g (vf g))

theorem foldl_setT_data_notin (vf : T3 → ℚ) (m0 : Matrix3D) :
    ∀ (L : List T3) (acc : Matrix3D), acc.d0 = m0.d0 → acc.d1 = m0.d1 →
      acc.d2 = m0.d2 → ∀ j : ℤ, (∀ g ∈ L, m0.T3_to_idx g ≠ j) →
      (L.foldl (fun a t => a.setT t (vf t)) acc).data j = acc.data j := by
  intro L
  induction L with
  | nil => intro acc _ _ _ j _; rfl
  | cons g L ih =>
    intro acc h0 h1 h2 j hnot
    simp only [List.foldl_cons]
    rw [ih (acc.setT g (vf g)) h0 h1 h2 j
      (fun gp hgp => hnot gp (List.mem_cons_of_mem _ hgp))]
    simp only [Matrix3D.setT]
    rw [if_neg]
    intro hj
    have hcg := T3_to_idx_dims_congr h0 h1 h2 g
    exact hnot g (List.mem_cons_self g L) (by rw [← hcg, ← hj])

theorem foldl_setT_data_mem (vf : T3 → ℚ) (m0 : Matrix3D) :
    ∀ (L : List T3) (acc : Matrix3D), acc.d0 = m0.d0 → acc.d1 = m0.d1 →
      acc.d2 = m0.d2 → ∀ g0 ∈ L,
      (∀ g ∈ L, m0.T3_to_idx g = m0.T3_to_idx g0 → vf g = vf g0) →
      (L.foldl (fun a t => a.setT t (vf t)) acc).data (m0.T3_to_idx g0)
        = vf g0 := by
  intro L
  induction L with
  | nil =>
    intro acc _ _ _ g0 hg0
    exact absurd hg0 (List.not_mem_nil g0)
  | cons g L ih =>
    intro acc h0 h1 h2 g0 hg0 hcong
    simp only [List.foldl_cons]
    by_cases hex : ∃ gp ∈ L, m0.T3_to_idx gp = m0.T3_to_idx g0
    · obtain ⟨gp, hgpL, hgpidx⟩ := hex
      rw [← hgpidx]
      have hstep := ih (acc.setT g (vf g)) h0 h1 h2 gp hgpL
        (fun gq hgq hidxq => by
          rw [hcong gq (List.mem_cons_of_mem _ hgq) (hidxq.trans hgpidx),
            hcong gp (List.mem_cons_of_mem _ hgpL) hgpidx])
      rw [hstep, hcong gp (List.mem_cons_of_mem _ hgpL) hgpidx]
    · push_neg at hex
      rw [foldl_setT_data_notin vf m0 L (acc.setT g (vf g)) h0 h1 h2 _ hex]
      rcases List.mem_cons.mp hg0 with rfl | hg0L
      · simp only [Matrix3D.setT]
        rw [if_pos (T3_to_idx_dims_congr h0 h1 h2 g0).symm]
      · exact absurd rfl (hex g0 hg0L)

theorem T3_to_idx_inj_on_cells {m : Matrix3D} (h0 : 0 < m.d0)
    (h1 : 0 < m.d1) (h2 : 0 < m.d2) {g gp : T3}
    (hg : g ∈ cellsList m.d0 m.d1 m.d2) (hgp : gp ∈ cellsList m.d0 m.d1 m.d2)
    (h : m.T3_to_idx g = m.T3_to_idx gp) : g = gp := by
  rw [T3_to_idx_eq_iff m h0 h1 h2] at h
  obtain ⟨b0, b1, b2, b3, b4, b5⟩ := mem_cellsList.mp hg
  obtain ⟨c0, c1, c2, c3, c4, c5⟩ := mem_cellsList.mp hgp
  obtain ⟨e0, e1, e2⟩ := h
  rw [cmod_eq_self b0 b1, cmod_eq_self c0 c1] at e0
  rw [cmod_eq_self b2 b3, cmod_eq_self c2 c3] at e1
  rw [cmod_eq_self b4 b5, cmod_eq_self c4 c5] at e2
  obtain ⟨x, y, z⟩ := g
  obtain ⟨xp, yp, zp⟩ := gp
  simp only at e0 e1 e2
  rw [e0, e1, e2]

/-- The successful branch of `GaussianMatrix` written through `gaussVal`. -/
theorem GaussianMatrix_ok (size : ℤ) (sigma : ℚ) (expf : ℚ → ℚ)
    (hodd : Int.tmod size 2 = 1) :
    GaussianMatrix size sigma expf = .ok ((cellsList size size size).foldl
      (fun g t => g.setT t (gaussVal size sigma expf t))
      ⟨size, size, size, fun _ => 0⟩) := by
  simp only [GaussianMatrix, gaussVal]
  rw [if_pos hodd]

/-- Failure branch: an even `size` trips the assertion. -/
theorem GaussianMatrix_even (size : ℤ) (sigma : ℚ) (expf : ℚ → ℚ)
    (hodd : ¬Int.tmod size 2 = 1) :
    GaussianMatrix size sigma expf
      = .error "assertion failed: size % 2 == 1" := by
  simp only [GaussianMatrix]
  rw [if_neg hodd]

/-- Any kernel the construction returns: odd size, cubic dimensions, and
the Gaussian cell formula. -/
theorem GaussianMatrix_spec {size : ℤ} {sigma : ℚ} {expf : ℚ → ℚ}
    {f : Matrix3D} (hok : GaussianMatrix size sigma expf = .ok f) :
    Int.tmod size 2 = 1 ∧ f.d0 = size ∧ f.d1 = size ∧ f.d2 = size ∧
    ∀ g ∈ cellsList size size size, f.get g = gaussVal size sigma expf g := by
  by_cases hodd : Int.tmod size 2 = 1
  · rw [GaussianMatrix_ok size sigma expf hodd] at hok
    have hf : f = (cellsList size size size).foldl
        (fun g t => g.setT t (gaussVal size sigma expf t))
        ⟨size, size, size, fun _ => 0⟩ := (Except.ok.inj hok).symm
    subst hf
    obtain ⟨hd0, hd1, hd2⟩ := foldl_setT_dims (gaussVal size sigma expf)
      (cellsList size size size) ⟨size, size, size, fun _ => 0⟩
    have hpos : 0 < size := pos_of_tmod_two_eq_one hodd
    refine ⟨hodd, hd0, hd1, hd2, ?_⟩
    intro g hg
    unfold Matrix3D.get
    have hidx : ((cellsList size size size).foldl
        (fun (a : Matrix3D) (t : T3) => a.setT t (gaussVal size sigma expf t))
        ⟨size, size, size, fun _ => 0⟩).T3_to_idx g
        = (⟨size, size, size, fun _ => 0⟩ : Matrix3D).T3_to_idx g :=
      T3_to_idx_dims_congr hd0 hd1 hd2 g
    rw [hidx]
    refine foldl_setT_data_mem (gaussVal size sigma expf)
      ⟨size, size, size, fun _ => 0⟩ (cellsList size size size)
      ⟨size, size, size, fun _ => 0⟩ rfl rfl rfl g hg ?_
    intro gp hgp hidxp
    rw [T3_to_idx_inj_on_cells hpos hpos hpos hgp hg hidxp]
  · rw [GaussianMatrix_even size sigma expf hodd] at hok
    exact absurd hok (by simp)

/-- The Gaussian kernel is reflection symmetric about its centre. -/
theorem GaussianMatrix_cellSymm {size : ℤ} {sigma : ℚ} {expf : ℚ → ℚ}
    {f : Matrix3D} (hok : GaussianMatrix size sigma expf = .ok f) :
    CellSymm f := by
  obtain ⟨hodd, hd0, hd1, hd2, hget⟩ := GaussianMatrix_spec hok
  have hc := odd_decomp hodd
  intro g hg
  rw [hd0, hd1, hd2] at hg ⊢
  obtain ⟨b0, b1, b2, b3, b4, b5⟩ := mem_cellsList.mp hg
  have hrs : ((size - 1 - g.1, size - 1 - g.2.1, size - 1 - g.2.2) : T3)
      ∈ cellsList size size size := by
    rw [mem_cellsList]
    refine ⟨?_, ?_, ?_, ?_, ?_, ?_⟩ <;> simp only <;> omega
  rw [hget _ hrs, hget _ hg]
  unfold gaussVal
  congr 1
  have hZ : dist2 (((size - 1 - g.1, size - 1 - g.2.1,
        size - 1 - g.2.2) : T3).1 - Int.tdiv size 2)
      (((size - 1 - g.1, size - 1 - g.2.1, size - 1 - g.2.2) : T3).2.1
        - Int.tdiv size 2)
      (((size - 1 - g.1, size - 1 - g.2.1, size - 1 - g.2.2) : T3).2.2
        - Int.tdiv size 2)
      = dist2 (g.1 - Int.tdiv size 2) (g.2.1 - Int.tdiv size 2)
        (g.2.2 - Int.tdiv size 2) := by
    show dist2 (size - 1 - g.1 - Int.tdiv size 2)
        (size - 1 - g.2.1 - Int.tdiv size 2)
        (size - 1 - g.2.2 - Int.tdiv size 2) = _
    unfold dist2
    set c : ℤ := Int.tdiv size 2 with hcdef
    rw [hc]
    ring
  rw [hZ]

/-- `OddDims` for a Gaussian kernel. -/
theorem GaussianMatrix_oddDims {size : ℤ} {sigma : ℚ} {expf : ℚ → ℚ}
    {f : Matrix3D} (hok : GaussianMatrix size sigma expf = .ok f) :
    OddDims f := by
  obtain ⟨hodd, hd0, hd1, hd2, _⟩ := GaussianMatrix_spec hok
  have hc := odd_decomp hodd
  refine ⟨?_, ?_, ?_⟩
  · rw [hd0]
    exact hc
  · rw [hd1]
    exact hc
  · rw [hd2]
    exact hc

/-! ## The balancing potential and its strict decrease -/

theorem canonW_insert {m f : Matrix3D} {jit : ℤ → ℚ} {D : Finset ℤ} {b : ℤ}
    (hbD : b ∉ D) (j : ℤ) :
    canonW m f jit (insert b D) j
      = canonW m f jit D j + footprint m f j (m.idx_to_T3 b) := by
  unfold canonW
  rw [Finset.sum_insert hbD]
  ring

theorem canonW_dims_congr {m mp : Matrix3D} (f : Matrix3D) (jit : ℤ → ℚ)
    (h0 : m.d0 = mp.d0) (h1 : m.d1 = mp.d1) (h2 : m.d2 = mp.d2)
    (S : Finset ℤ) (j : ℤ) :
    canonW m f jit S j = canonW mp f jit S j := by
  unfold canonW
  congr 1
  refine Finset.sum_congr rfl fun i _ => ?_
  rw [idx_to_T3_dims_congr h0 h1 i, footprint_dims_congr f h0 h1 h2]

theorem clusterEnergy_dims_congr {m mp : Matrix3D} (f : Matrix3D)
    (h0 : m.d0 = mp.d0) (h1 : m.d1 = mp.d1) (h2 : m.d2 = mp.d2)
    (S : Finset ℤ) :
    clusterEnergy m f S = clusterEnergy mp f S := by
  unfold clusterEnergy
  refine Finset.sum_congr rfl fun x _ => Finset.sum_congr rfl fun y _ => ?_
  rw [idx_to_T3_dims_congr h0 h1 y, footprint_dims_congr f h0 h1 h2]

theorem reorderMeasure_dims_congr {m mp : Matrix3D} (f : Matrix3D)
    (jit : ℤ → ℚ) (h0 : m.d0 = mp.d0) (h1 : m.d1 = mp.d1) (h2 : m.d2 = mp.d2)
    (S : Finset ℤ) :
    reorderMeasure m f jit S = reorderMeasure mp f jit S := by
  unfold reorderMeasure potential
  rw [clusterEnergy_dims_congr f h0 h1 h2]

/-- Adding an on-voxel `b` to the pattern `D` raises the pairwise energy
by its self-mass plus twice its canonical energy over `D`. -/
theorem clusterEnergy_insert {m f : Matrix3D} (h0 : 0 < m.d0)
    (h1 : 0 < m.d1) (h2 : 0 < m.d2) (hsymm : FootprintSymm m f)
    {D : Finset ℤ} {b : ℤ} (hD : D ⊆ idxRange m) (hb : b ∈ idxRange m)
    (hbD : b ∉ D) :
    clusterEnergy m f (insert b D) = clusterEnergy m f D
      + 2 * ∑ y ∈ D, footprint m f b (m.idx_to_T3 y)
      + footprint m f b (m.idx_to_T3 b) := by
  unfold clusterEnergy
  rw [Finset.sum_insert hbD, Finset.sum_insert hbD]
  have hinner : ∀ x ∈ D, ∑ y ∈ insert b D, footprint m f x (m.idx_to_T3 y)
      = footprint m f x (m.idx_to_T3 b)
        + ∑ y ∈ D, footprint m f x (m.idx_to_T3 y) :=
    fun x _ => Finset.sum_insert hbD
  rw [Finset.sum_congr rfl hinner, Finset.sum_add_distrib]
  have hsw : ∑ x ∈ D, footprint m f x (m.idx_to_T3 b)
      = ∑ x ∈ D, footprint m f b (m.idx_to_T3 x) :=
    Finset.sum_congr rfl fun x hx => hsymm b x hb (hD hx)
  rw [hsw]
  ring

theorem potential_insert {m f : Matrix3D} (h0 : 0 < m.d0) (h1 : 0 < m.d1)
    (h2 : 0 < m.d2) (hsymm : FootprintSymm m f) (jit : ℤ → ℚ)
    {D : Finset ℤ} {b : ℤ} (hD : D ⊆ idxRange m) (hb : b ∈ idxRange m)
    (hbD : b ∉ D) :
    potential m f jit (insert b D) = potential m f jit D
      + footprint m f b (m.idx_to_T3 b) + 2 * canonW m f jit D b := by
  unfold potential
  rw [clusterEnergy_insert h0 h1 h2 hsymm hD hb hbD, Finset.sum_insert hbD]
  unfold canonW
  ring

/-- The exchange step: replacing `a` by `b` in the on-pattern strictly
decreases the lexicographic measure whenever `(w1 b, b)` precedes
`(w1 a, a)` under the post-removal canonical energies `w1`. -/
theorem reorderMeasure_lt {m f : Matrix3D} (h0 : 0 < m.d0) (h1 : 0 < m.d1)
    (h2 : 0 < m.d2) (hsymm : FootprintSymm m f) (jit : ℤ → ℚ)
    {D : Finset ℤ} {a b : ℤ} (hD : D ⊆ idxRange m) (ha : a ∈ idxRange m)
    (hb : b ∈ idxRange m) (haD : a ∉ D) (hbD : b ∉ D) (hne : b ≠ a)
    (hlex : toLex (canonW m f jit D b, b) ≤ toLex (canonW m f jit D a, a)) :
    reorderMeasure m f jit (insert b D) < reorderMeasure m f jit (insert a D)
    := by
  unfold reorderMeasure
  rw [Prod.Lex.lt_iff]
  have hpb := potential_insert h0 h1 h2 hsymm jit hD hb hbD
  have hpa := potential_insert h0 h1 h2 hsymm jit hD ha haD
  have hdb := footprint_diag f h0 h1 h2 hb
  have hda := footprint_diag f h0 h1 h2 ha
  rcases (Prod.Lex.le_iff _ _).mp hlex with hlt | ⟨heq, hle⟩
  · left
    have hlt2 : canonW m f jit D b < canonW m f jit D a := hlt
    show potential m f jit (insert b D) < potential m f jit (insert a D)
    rw [hpa, hpb, hdb, hda]
    linarith
  · right
    have heq2 : canonW m f jit D b = canonW m f jit D a := heq
    have hle2 : b ≤ a := hle
    constructor
    · show potential m f jit (insert b D) = potential m f jit (insert a D)
      rw [hpa, hpb, hdb, hda, heq2]
    · show ∑ i ∈ insert b D, i < ∑ i ∈ insert a D, i
      rw [Finset.sum_insert hbD, Finset.sum_insert haD]
      have : b < a := lt_of_le_of_ne hle2 hne
      omega

/-- A strict measure decrease strictly lowers the rank of the on-set
among the candidates of its size. -/
theorem reorderRank_lt {m0 f : Matrix3D} {jit : ℤ → ℚ} {S1 S : Finset ℤ}
    (hsub : S1 ⊆ idxRange m0) (hcard : S1.card = S.card)
    (hlt : reorderMeasure m0 f jit S1 < reorderMeasure m0 f jit S) :
    reorderRank m0 f jit S1 < reorderRank m0 f jit S := by
  apply Finset.card_lt_card
  rw [Finset.ssubset_iff_of_subset]
  · refine ⟨S1, ?_, ?_⟩
    · rw [Finset.mem_filter, Finset.mem_powerset]
      exact ⟨hsub, hcard, hlt⟩
    · rw [Finset.mem_filter]
      rintro ⟨-, -, habs⟩
      exact absurd habs (lt_irrefl _)
  · intro T hT
    rw [Finset.mem_filter] at hT ⊢
    obtain ⟨hTp, hTc, hTm⟩ := hT
    exact ⟨hTp, hTc.trans hcard, hTm.trans hlt⟩

/-- One pass of the balancing loop, on a canonical state: it always
produces a next state, keeps the loop invariant and the on-count, and
every pass that does not fire the exit condition strictly decreases the
lexicographic measure of the on-pattern. -/
theorem reorder_body_step {d0 d1 d2 : ℤ} {f : Matrix3D} {jit : ℤ → ℚ}
    {s : TrackState} {S : Finset ℤ}
    (hodd : OddDims f) (hsym : CellSymm f)
    (hInv : ReorderInv d0 d1 d2 f jit s S) (hSne : S.Nonempty) :
    ∃ s1 done S1, reorder_body s = some (s1, done) ∧
      ReorderInv d0 d1 d2 f jit s1 S1 ∧ S1.card = S.card ∧ S1.Nonempty ∧
      (done = false →
        reorderMeasure (⟨d0, d1, d2, fun _ => 0⟩ : Matrix3D) f jit S1
          < reorderMeasure (⟨d0, d1, d2, fun _ => 0⟩ : Matrix3D) f jit S)
    := by
  obtain ⟨hd0, hd1, hd2, hfil, hflag, hEI, hcanon⟩ := hInv
  obtain ⟨hdims, hveq, hceq, hvc, hcc, hvr, hcr, hdisj⟩ := hEI
  have hEI' : EngineInv s (idxRange s.mat \ S) S :=
    ⟨hdims, hveq, hceq, hvc, hcc, hvr, hcr, hdisj⟩
  have hsymm : FootprintSymm s.mat f :=
    footprintSymm_of_cellSymm hdims.1 hdims.2.1 hdims.2.2 hodd hsym
  obtain ⟨a, haS, hmax, hamax⟩ := max_cluster_spec hceq hSne
  have haR : a ∈ idxRange s.mat := hcr haS
  have hidxa : s.mat.T3_to_idx (s.mat.idx_to_T3 a) = a :=
    T3_to_idx_idx_to_T3 s.mat hdims.1 hdims.2.1 hdims.2.2 haR
  obtain ⟨hreset, hresetInv⟩ : reset_pixel s (s.mat.idx_to_T3 a)
      = withWVC { s with mat := (s.mat.setT (s.mat.idx_to_T3 a) 0) }
        (fun j => s.weights.data j -
          footprint s.mat s.filter j (s.mat.idx_to_T3 a))
        (insert a (idxRange s.mat \ S)) (S.erase a) ∧
      EngineInv (withWVC { s with mat := (s.mat.setT (s.mat.idx_to_T3 a) 0) }
        (fun j => s.weights.data j -
          footprint s.mat s.filter j (s.mat.idx_to_T3 a))
        (insert a (idxRange s.mat \ S)) (S.erase a))
        (insert a (idxRange s.mat \ S)) (S.erase a) := by
    have h := reset_pixel_spec hEI' (Or.inl hflag) (s.mat.idx_to_T3 a)
    rw [hidxa] at h
    exact h
  set S1s : TrackState := withWVC
    { s with mat := (s.mat.setT (s.mat.idx_to_T3 a) 0) }
    (fun j => s.weights.data j - footprint s.mat s.filter j (s.mat.idx_to_T3 a))
    (insert a (idxRange s.mat \ S)) (S.erase a) with hS1s
  have hcanon1 : ∀ j, S1s.weights.data j
      = canonW s.mat f jit (S.erase a) j := by
    intro j
    show s.weights.data j - footprint s.mat s.filter j (s.mat.idx_to_T3 a) = _
    rw [hcanon j, hfil]
    have hci := @canonW_insert s.mat f jit (S.erase a) a
      (Finset.not_mem_erase a S) j
    rw [Finset.insert_erase haS] at hci
    rw [hci]
    ring
  have hS1veq : S1s.track_void
      = entriesOf S1s.weights.data (insert a (idxRange s.mat \ S)) := rfl
  obtain ⟨b, hbV1, hmin, hbmin⟩ :=
    max_void_spec hS1veq (Finset.insert_nonempty _ _)
  have hbR : b ∈ idxRange S1s.mat := hresetInv.2.2.2.2.2.1 hbV1
  have hidxb : S1s.mat.T3_to_idx (S1s.mat.idx_to_T3 b) = b :=
    T3_to_idx_idx_to_T3 S1s.mat hresetInv.1.1 hresetInv.1.2.1
      hresetInv.1.2.2 hbR
  have hS1fl : S1s.cluster_tracking_is_on = true := hflag
  obtain ⟨hset, hsetInv⟩ := set_pixel_spec hresetInv (Or.inl hS1fl)
    (t := S1s.mat.idx_to_T3 b) (by rw [hidxb]; exact hbV1) one_pos
  rw [hidxb, if_pos hS1fl] at hset hsetInv
  have hbody : reorder_body s = some (withWVC
      { S1s with mat := (S1s.mat.setT (S1s.mat.idx_to_T3 b) 1) }
      (fun j => S1s.weights.data j
        + footprint S1s.mat S1s.filter j (S1s.mat.idx_to_T3 b))
      ((insert a (idxRange s.mat \ S)).erase b) (insert b (S.erase a)),
      decide (S1s.mat.idx_to_T3 b = s.mat.idx_to_T3 a)) := by
    simp only [reorder_body, hmax, hreset, hmin, hset]
  have hbnotDe : b ∉ S.erase a := by
    rcases Finset.mem_insert.mp hbV1 with h | h
    · rw [h]
      exact Finset.not_mem_erase a S
    · intro hmem
      exact (Finset.mem_sdiff.mp h).2 (Finset.mem_of_mem_erase hmem)
  have hbRs : b ∈ idxRange s.mat := hbR
  have hVeq : (insert a (idxRange s.mat \ S)).erase b
      = idxRange s.mat \ insert b (S.erase a) := by
    rw [← Finset.sdiff_erase haR, ← Finset.sdiff_insert]
  refine ⟨_, _, insert b (S.erase a), hbody, ⟨hd0, hd1, hd2, hfil, hflag,
    ?_, ?_⟩, ?_, Finset.insert_nonempty b _, ?_⟩
  · -- the engine invariant with the exchanged on-set
    rw [show idxRange (withWVC
        { S1s with mat := (S1s.mat.setT (S1s.mat.idx_to_T3 b) 1) }
        (fun j => S1s.weights.data j
          + footprint S1s.mat S1s.filter j (S1s.mat.idx_to_T3 b))
        ((insert a (idxRange s.mat \ S)).erase b)
        (insert b (S.erase a))).mat = idxRange s.mat from rfl, ← hVeq]
    exact hsetInv
  · -- canonical weights for the exchanged on-set
    intro j
    show S1s.weights.data j
      + footprint S1s.mat S1s.filter j (S1s.mat.idx_to_T3 b) = _
    rw [hcanon1 j]
    have hfil1 : S1s.filter = f := hfil
    rw [hfil1]
    rw [@footprint_dims_congr S1s.mat s.mat f rfl rfl rfl,
      @idx_to_T3_dims_congr S1s.mat s.mat rfl rfl]
    rw [← @canonW_insert s.mat f jit (S.erase a) b hbnotDe j]
    exact (canonW_dims_congr f jit rfl rfl rfl _ j).symm
  · rw [Finset.card_insert_of_not_mem hbnotDe, Finset.card_erase_of_mem haS]
    have := Finset.card_pos.mpr hSne
    omega
  · -- strict measure decrease on a non-exit pass
    intro hdone
    have hne : b ≠ a := by
      intro hba
      exact (of_decide_eq_false hdone)
        (by rw [@idx_to_T3_dims_congr S1s.mat s.mat rfl rfl, hba])
    have hlex0 := hbmin a (Finset.mem_insert_self a _)
    rw [hcanon1 b, hcanon1 a] at hlex0
    have hstep := reorderMeasure_lt hdims.1 hdims.2.1 hdims.2.2 hsymm jit
      ((Finset.erase_subset a S).trans hcr) haR hbRs
      (Finset.not_mem_erase a S) hbnotDe hne hlex0
    rw [Finset.insert_erase haS] at hstep
    rw [← @reorderMeasure_dims_congr s.mat (⟨d0, d1, d2, fun _ => 0⟩ :
        Matrix3D) f jit hd0 hd1 hd2 (insert b (S.erase a)),
      ← @reorderMeasure_dims_congr s.mat (⟨d0, d1, d2, fun _ => 0⟩ :
        Matrix3D) f jit hd0 hd1 hd2 S]
    exact hstep

theorem reorderInv_subset {d0 d1 d2 : ℤ} {f : Matrix3D} {jit : ℤ → ℚ}
    {s : TrackState} {S : Finset ℤ} (hInv : ReorderInv d0 d1 d2 f jit s S) :
    S ⊆ idxRange (⟨d0, d1, d2, fun _ => 0⟩ : Matrix3D) := by
  obtain ⟨h10, h11, h12, _, _, hEI1, _⟩ := hInv
  have hsub := hEI1.2.2.2.2.2.2.1
  intro x hx
  have hx2 := hsub hx
  unfold idxRange Matrix3D.size at hx2 ⊢
  rw [h10, h11, h12] at hx2
  exact hx2

/-- The balancing loop terminates from every canonical state with a
non-empty on-pattern under a reflection-symmetric odd kernel: some fuel
makes the fuelled loop return. -/
theorem reorder_terminates {d0 d1 d2 : ℤ} {f : Matrix3D} {jit : ℤ → ℚ}
    (hodd : OddDims f) (hsym : CellSymm f) :
    ∀ (n : ℕ) (s : TrackState) (S : Finset ℤ),
      reorderRank (⟨d0, d1, d2, fun _ => 0⟩ : Matrix3D) f jit S ≤ n →
      ReorderInv d0 d1 d2 f jit s S → S.Nonempty →
      ∃ fuel sp, reorder_bitmap fuel s = some sp := by
  intro n
  induction n with
  | zero =>
    intro s S hrank hInv hne
    obtain ⟨s1, done, S1, hbody, hInv1, hcard, hne1, hdec⟩ :=
      reorder_body_step hodd hsym hInv hne
    cases done with
    | true =>
      refine ⟨1, s1, ?_⟩
      simp only [reorder_bitmap, hbody]
      rw [if_pos trivial]
    | false =>
      exfalso
      have hrank1 := reorderRank_lt (reorderInv_subset hInv1) hcard (hdec rfl)
      omega
  | succ n ih =>
    intro s S hrank hInv hne
    obtain ⟨s1, done, S1, hbody, hInv1, hcard, hne1, hdec⟩ :=
      reorder_body_step hodd hsym hInv hne
    cases done with
    | true =>
      refine ⟨1, s1, ?_⟩
      simp only [reorder_bitmap, hbody]
      rw [if_pos trivial]
    | false =>
      have hrank1 := reorderRank_lt (reorderInv_subset hInv1) hcard (hdec rfl)
      obtain ⟨fuel, sp, hrun⟩ := ih s1 S1 (by omega) hInv1 hne1
      refine ⟨fuel + 1, sp, ?_⟩
      simp only [reorder_bitmap, hbody]
      rw [if_neg (by simp)]
      exact hrun

/-- The fresh lattice is a canonical state with the empty on-pattern. -/
theorem mkTracked_reorderInv (d0 d1 d2 : ℤ) (h0 : 0 < d0) (h1 : 0 < d1)
    (h2 : 0 < d2) (f : Matrix3D) (jit : ℤ → ℚ) :
    ReorderInv d0 d1 d2 f jit (mkTracked d0 d1 d2 f jit) ∅ := by
  rw [mkTracked_spec d0 d1 d2 h0 h1 h2 f jit]
  refine ⟨rfl, rfl, rfl, rfl, rfl, ?_, ?_⟩
  · rw [Finset.sdiff_empty]
    refine ⟨⟨h0, h1, h2⟩, rfl, (entriesOf_empty _).symm, ?_, ?_, ?_, ?_, ?_⟩
    · intro i _
      rfl
    · intro i hi
      exact absurd hi (Finset.not_mem_empty i)
    · exact Finset.Subset.refl _
    · exact Finset.empty_subset _
    · exact Finset.disjoint_empty_right _
  · intro j
    show jit j = canonW _ f jit ∅ j
    unfold canonW
    rw [Finset.sum_empty, add_zero]

/-- `initial_bitmap` keeps the canonical-state invariant, adding one
accepted draw to the on-pattern per removed `count`. -/
theorem initial_bitmap_reorderInv {d0 d1 d2 : ℤ} {f : Matrix3D}
    {jit : ℤ → ℚ} :
    ∀ (fuel count step : ℕ) (draws : ℕ → T3) (s : TrackState)
      (S : Finset ℤ) (sp : TrackState),
      ReorderInv d0 d1 d2 f jit s S →
      initial_bitmap fuel draws count step s = some sp →
      ∃ Sp, ReorderInv d0 d1 d2 f jit sp Sp ∧ Sp.card = S.card + count := by
  intro fuel
  induction fuel with
  | zero =>
    intro count step draws s S sp hInv hrun
    simp only [initial_bitmap] at hrun
    by_cases hc : count = 0
    · rw [if_pos hc] at hrun
      obtain rfl : s = sp := Option.some.inj hrun
      exact ⟨S, hInv, by omega⟩
    · rw [if_neg hc] at hrun
      exact absurd hrun (by simp)
  | succ fuel ih =>
    intro count step draws s S sp hInv hrun
    simp only [initial_bitmap] at hrun
    by_cases hc : count = 0
    · rw [if_pos hc] at hrun
      obtain rfl : s = sp := Option.some.inj hrun
      exact ⟨S, hInv, by omega⟩
    · rw [if_neg hc] at hrun
      by_cases hget : s.mat.get (draws step) = 0
      · rw [if_pos hget] at hrun
        obtain ⟨hd0, hd1, hd2, hfil, hflag, hEI, hcanon⟩ := hInv
        obtain ⟨hdims, hveq, hceq, hvc, hcc, hvr, hcr, hdisj⟩ := hEI
        have hEI' : EngineInv s (idxRange s.mat \ S) S :=
          ⟨hdims, hveq, hceq, hvc, hcc, hvr, hcr, hdisj⟩
        have hiR : s.mat.T3_to_idx (draws step) ∈ idxRange s.mat :=
          T3_to_idx_mem s.mat hdims.1 hdims.2.1 hdims.2.2 (draws step)
        have hiS : s.mat.T3_to_idx (draws step) ∉ S := by
          intro hmem
          exact absurd (show s.mat.data (s.mat.T3_to_idx (draws step)) = 0
            from hget) (hcc _ hmem).ne'
        have hiV : s.mat.T3_to_idx (draws step) ∈ idxRange s.mat \ S :=
          Finset.mem_sdiff.mpr ⟨hiR, hiS⟩
        obtain ⟨hset, hsetInv⟩ := set_pixel_spec hEI' (Or.inl hflag) hiV
          one_pos
        rw [if_pos hflag] at hset hsetInv
        rw [hset] at hrun
        have hVeq : (idxRange s.mat \ S).erase (s.mat.T3_to_idx (draws step))
            = idxRange s.mat \ insert (s.mat.T3_to_idx (draws step)) S :=
          (Finset.sdiff_insert _ _ _).symm
        have hInvNext : ReorderInv d0 d1 d2 f jit
            (withWVC { s with mat := (s.mat.setT (draws step) 1) }
              (fun j => s.weights.data j + footprint s.mat s.filter j
                (draws step))
              ((idxRange s.mat \ S).erase (s.mat.T3_to_idx (draws step)))
              (insert (s.mat.T3_to_idx (draws step)) S))
            (insert (s.mat.T3_to_idx (draws step)) S) := by
          refine ⟨hd0, hd1, hd2, hfil, hflag, ?_, ?_⟩
          · rw [show idxRange (withWVC
                { s with mat := (s.mat.setT (draws step) 1) }
                (fun j => s.weights.data j + footprint s.mat s.filter j
                  (draws step))
                ((idxRange s.mat \ S).erase (s.mat.T3_to_idx (draws step)))
                (insert (s.mat.T3_to_idx (draws step)) S)).mat
              = idxRange s.mat from rfl, ← hVeq]
            exact hsetInv
          · intro j
            show s.weights.data j
              + footprint s.mat s.filter j (draws step) = _
            have hrt : s.mat.T3_to_idx
                (s.mat.idx_to_T3 (s.mat.T3_to_idx (draws step)))
                = s.mat.T3_to_idx (draws step) :=
              T3_to_idx_idx_to_T3 s.mat hdims.1 hdims.2.1 hdims.2.2 hiR
            rw [hcanon j, hfil,
              footprint_congr hdims.1 hdims.2.1 hdims.2.2 hrt.symm j,
              ← @canonW_insert s.mat f jit S (s.mat.T3_to_idx (draws step))
                hiS j]
            exact (canonW_dims_congr f jit rfl rfl rfl _ j).symm
        obtain ⟨Sp, hI, hcard⟩ := ih (count - 1) (step + 1) draws _ _ sp
          hInvNext hrun
        refine ⟨Sp, hI, ?_⟩
        rw [hcard, Finset.card_insert_of_not_mem hiS]
        omega
      · rw [if_neg hget] at hrun
        exact ih count (step + 1) draws s S sp hInv hrun

/-! ## Bridges used by the claim statements -/

theorem entriesOf_snd_image (w : ℤ → ℚ) (A : Finset ℤ) :
    (entriesOf w A).image (fun p => (ofLex p).2) = A := by
  unfold entriesOf
  rw [Finset.image_image]
  have : ((fun p => (ofLex p).2) ∘ fun i => toLex (w i, i)) = fun i => i :=
    funext fun i => rfl
  rw [this]
  exact Finset.image_id

/-- A consistently tracked state whose pools cover the lattice satisfies
the content/tracking biconditional with no exceptions. -/
theorem contentTrackingIff_of_inv {s : TrackState} {V C : Finset ℤ}
    (hInv : EngineInv s V C) (hcov : V ∪ C = idxRange s.mat) :
    ContentTrackingIff s ∅ := by
  obtain ⟨hdims, hveq, hceq, hvc, hcc, hvr, hcr, hdisj⟩ := hInv
  have hvi : voidIndices s = V := by
    unfold voidIndices
    rw [hveq, entriesOf_snd_image]
  have hci : clusterIndices s = C := by
    unfold clusterIndices
    rw [hceq, entriesOf_snd_image]
  intro i hiR _
  have hiVC : i ∈ V ∪ C := by
    rw [hcov]
    exact hiR
  rw [hvi, hci]
  rcases Finset.mem_union.mp hiVC with h | h
  · refine ⟨⟨fun _ => h, fun _ => hvc i h⟩, ?_, ?_⟩
    · intro hlt
      exact absurd (hvc i h) hlt.ne'
    · intro hC
      exact absurd h (Finset.disjoint_left.mp hdisj · hC)
  · refine ⟨⟨?_, fun hV => absurd h (Finset.disjoint_left.mp hdisj hV ·)⟩,
      fun _ => h, fun _ => hcc i h⟩
    intro hz
    exact absurd hz (hcc i h).ne'

theorem ranksMS_bounds {n : ℤ} (hn : 0 < n) {x : ℚ}
    (hx : x ∈ ranksMS n 0 n.toNat) : 0 ≤ x ∧ x < 1 := by
  unfold ranksMS at hx
  obtain ⟨i, hi, rfl⟩ := Multiset.mem_map.mp hx
  rw [Finset.mem_val, Finset.mem_Ico] at hi
  have hnq : (0 : ℚ) < (n : ℚ) := by exact_mod_cast hn
  constructor
  · apply div_nonneg _ hnq.le
    exact_mod_cast Nat.zero_le i
  · rw [div_lt_one hnq]
    have hz : (i : ℤ) < n := by omega
    exact_mod_cast hz

theorem idx_to_T3_small {m : Matrix3D} (h0 : 0 < m.d0) (h1 : 0 < m.d1)
    {x : ℤ} (hx0 : 0 ≤ x) (hx : x < m.d0) : m.idx_to_T3 x = (x, 0, 0) := by
  unfold Matrix3D.idx_to_T3
  have hd01 : 0 < m.d0 * m.d1 := mul_pos h0 h1
  have hlt01 : x < m.d0 * m.d1 :=
    lt_of_lt_of_le hx (le_mul_of_one_le_right h0.le h1)
  have ht0 : Int.tmod x m.d0 = x := by
    rw [Int.tmod_eq_emod hx0 h0.le]
    exact Int.emod_eq_of_lt hx0 hx
  have ht01 : Int.tmod x (m.d0 * m.d1) = x := by
    rw [Int.tmod_eq_emod hx0 hd01.le]
    exact Int.emod_eq_of_lt hx0 hlt01
  have hq0 : Int.tdiv x m.d0 = 0 := by
    rw [Int.tdiv_eq_ediv hx0 h0.le]
    exact Int.ediv_eq_zero_of_lt hx0 hx
  have hq01 : Int.tdiv x (m.d0 * m.d1) = 0 := by
    rw [Int.tdiv_eq_ediv hx0 hd01.le]
    exact Int.ediv_eq_zero_of_lt hx0 hlt01
  rw [ht0, ht01, hq0, hq01]

theorem T3_to_idx_axis0 {m : Matrix3D} (h1 : 0 < m.d1) (h2 : 0 < m.d2)
    {x : ℤ} (hx0 : 0 ≤ x) (hx : x < m.d0) : m.T3_to_idx (x, 0, 0) = x := by
  unfold Matrix3D.T3_to_idx
  show cmod x m.d0 + cmod 0 m.d1 * m.d0 + cmod 0 m.d2 * (m.d0 * m.d1) = x
  rw [cmod_eq_self hx0 hx, cmod_eq_self (le_refl 0) h1,
    cmod_eq_self (le_refl 0) h2]
  ring

/-! ## The claims -/

/-- C3: switching a void voxel on with any positive value and immediately
off again round-trips the entire tracked state exactly (content field,
energy field, both tracker sets and the tracking flag), over the exact
rational arithmetic of the model. -/
theorem C3_toggle_round_trip (s : TrackState) (V C : Finset ℤ) (t : T3)
    (v : ℚ) (hInv : EngineInv s V C)
    (hflag : s.cluster_tracking_is_on = true ∨ C = ∅)
    (hmem : s.mat.T3_to_idx t ∈ V) (hv : 0 < v) :
    ∃ s1, set_pixel s t v = .ok s1 ∧ reset_pixel s1 t = s := by
  obtain ⟨hdims, hveq, hceq, hvc, hcc, hvr, hcr, hdisj⟩ := hInv
  have hInv' : EngineInv s V C :=
    ⟨hdims, hveq, hceq, hvc, hcc, hvr, hcr, hdisj⟩
  obtain ⟨hset, hsetInv⟩ := set_pixel_spec hInv' hflag hmem hv
  refine ⟨_, hset, ?_⟩
  have hflag1 : (withWVC { s with mat := s.mat.setT t v }
      (fun j => s.weights.data j + footprint s.mat s.filter j t)
      (V.erase (s.mat.T3_to_idx t))
      (if s.cluster_tracking_is_on = true then insert (s.mat.T3_to_idx t) C
        else C)).cluster_tracking_is_on = true ∨
      (if s.cluster_tracking_is_on = true then insert (s.mat.T3_to_idx t) C
        else C) = ∅ := by
    by_cases hb : s.cluster_tracking_is_on = true
    · exact Or.inl hb
    · right
      rw [if_neg hb]
      rcases hflag with hf | hc
      · exact absurd hf hb
      · exact hc
  obtain ⟨hreset, _⟩ := reset_pixel_spec hsetInv hflag1 t
  rw [hreset]
  have hidxC : s.mat.T3_to_idx t ∉ C := Finset.disjoint_left.mp hdisj hmem
  have hwfun : (fun j => s.weights.data j + footprint s.mat s.filter j t
      - footprint s.mat s.filter j t) = s.weights.data := by
    funext j
    rw [add_sub_cancel_right]
  refine Matrix3D_w_void_and_cluster_tracking.ext ?_ ?_ rfl ?_ ?_ rfl
  · show (s.mat.setT t v).setT t 0 = s.mat
    refine Matrix3D.ext rfl rfl rfl ?_
    funext j
    show (if j = s.mat.T3_to_idx t then 0
      else if j = s.mat.T3_to_idx t then v else s.mat.data j) = s.mat.data j
    by_cases hj : j = s.mat.T3_to_idx t
    · rw [if_pos hj, hj, hvc _ hmem]
    · rw [if_neg hj, if_neg hj]
  · show ({ s.weights with data := (fun j => s.weights.data j
      + footprint s.mat s.filter j t - footprint s.mat s.filter j t) }
        : Matrix3D) = s.weights
    refine Matrix3D.ext rfl rfl rfl ?_
    show (fun j => s.weights.data j + footprint s.mat s.filter j t
      - footprint s.mat s.filter j t) = s.weights.data
    exact hwfun
  · show entriesOf (fun j => s.weights.data j + footprint s.mat s.filter j t
      - footprint s.mat s.filter j t)
      (insert (s.mat.T3_to_idx t) (V.erase (s.mat.T3_to_idx t)))
      = s.track_void
    rw [hwfun, Finset.insert_erase hmem, ← hveq]
  · show entriesOf (fun j => s.weights.data j + footprint s.mat s.filter j t
      - footprint s.mat s.filter j t)
      ((if s.cluster_tracking_is_on = true
        then insert (s.mat.T3_to_idx t) C else C).erase (s.mat.T3_to_idx t))
      = s.track_cluster
    rw [hwfun]
    by_cases hb : s.cluster_tracking_is_on = true
    · rw [if_pos hb, Finset.erase_insert hidxC, ← hceq]
    · rw [if_neg hb, Finset.erase_eq_of_not_mem hidxC, ← hceq]

theorem C3_toggle_round_trip_witness :
    EngineInv sW (Finset.Ico 0 2) ∅ ∧
    (sW.cluster_tracking_is_on = true ∨ (∅ : Finset ℤ) = ∅) ∧
    sW.mat.T3_to_idx (0, 0, 0) ∈ Finset.Ico (0 : ℤ) 2 ∧ (0 : ℚ) < 1 ∧
    ∃ s1, set_pixel sW (0, 0, 0) 1 = .ok s1 ∧ reset_pixel s1 (0, 0, 0) = sW
    := ⟨by decide, Or.inl (by decide), by decide, by norm_num,
      C3_toggle_round_trip sW (Finset.Ico 0 2) ∅ (0, 0, 0) 1 (by decide)
        (Or.inl (by decide)) (by decide) (by norm_num)⟩

/-- C4: with consistent tracker pools, `max_void` returns the coordinate
of the least `(energy, flat index)` pair of the void set and
`max_cluster` the coordinate of the greatest pair of the cluster set —
exact-energy ties are broken by the flat index through the pair order —
and each query has no defined result when its pool is empty. -/
theorem C4_extremal_queries (s : TrackState) (V C : Finset ℤ)
    (hveq : s.track_void = entriesOf s.weights.data V)
    (hceq : s.track_cluster = entriesOf s.weights.data C) :
    (V.Nonempty → ∃ i ∈ V, max_void s = some (s.mat.idx_to_T3 i) ∧
      ∀ j ∈ V, toLex (s.weights.data i, i) ≤ toLex (s.weights.data j, j)) ∧
    (C.Nonempty → ∃ i ∈ C, max_cluster s = some (s.mat.idx_to_T3 i) ∧
      ∀ j ∈ C, toLex (s.weights.data j, j) ≤ toLex (s.weights.data i, i)) ∧
    (V = ∅ → max_void s = none) ∧
    (C = ∅ → max_cluster s = none) := by
  refine ⟨fun h => max_void_spec hveq h, fun h => max_cluster_spec hceq h,
    ?_, ?_⟩
  · intro hV
    unfold max_void
    rw [dif_neg]
    rw [hveq, hV, entriesOf_empty]
    exact Finset.not_nonempty_empty
  · intro hC
    unfold max_cluster
    rw [dif_neg]
    rw [hceq, hC, entriesOf_empty]
    exact Finset.not_nonempty_empty

theorem C4_extremal_queries_witness :
    sW.track_void = entriesOf sW.weights.data (Finset.Ico 0 2) ∧
    sW.track_cluster = entriesOf sW.weights.data ∅ ∧
    (((Finset.Ico (0 : ℤ) 2).Nonempty → ∃ i ∈ Finset.Ico (0 : ℤ) 2,
        max_void sW = some (sW.mat.idx_to_T3 i) ∧
        ∀ j ∈ Finset.Ico (0 : ℤ) 2, toLex (sW.weights.data i, i)
          ≤ toLex (sW.weights.data j, j)) ∧
      ((∅ : Finset ℤ).Nonempty → ∃ i ∈ (∅ : Finset ℤ),
        max_cluster sW = some (sW.mat.idx_to_T3 i) ∧
        ∀ j ∈ (∅ : Finset ℤ), toLex (sW.weights.data j, j)
          ≤ toLex (sW.weights.data i, i)) ∧
      (Finset.Ico (0 : ℤ) 2 = ∅ → max_void sW = none) ∧
      ((∅ : Finset ℤ) = ∅ → max_cluster sW = none)) :=
  ⟨by decide, by decide,
    C4_extremal_queries sW (Finset.Ico 0 2) ∅ (by decide) (by decide)⟩

/-- C5: `set_pixel` has the single precondition `content == 0`: positive
content makes it fail with the `"already set"` error before producing any
state, and a voxel with non-positive content never raises — the write,
reclassification and convolution then run unconditionally. -/
theorem C5_set_on_precondition (s : TrackState) (t : T3) (v : ℚ) :
    (0 < s.mat.get t → set_pixel s t v = .error "already set") ∧
    (¬0 < s.mat.get t → set_pixel s t v
      = .ok (conv_at (add_to_cluster { s with mat := s.mat.setT t v } t) t))
    := by
  constructor
  · intro h
    unfold set_pixel
    rw [if_pos h]
  · intro h
    unfold set_pixel
    rw [if_neg h]

theorem C5_set_on_precondition_witness :
    (0 < sInitW.mat.get (0, 0, 0) ∧
      set_pixel sInitW (0, 0, 0) 1 = .error "already set") ∧
    (¬0 < sW.mat.get (0, 0, 0) ∧
      set_pixel sW (0, 0, 0) 1 = .ok (conv_at (add_to_cluster
        { sW with mat := sW.mat.setT (0, 0, 0) 1 } (0, 0, 0)) (0, 0, 0))) :=
  ⟨⟨by decide, (C5_set_on_precondition sInitW (0, 0, 0) 1).1 (by decide)⟩,
    ⟨by decide, (C5_set_on_precondition sW (0, 0, 0) 1).2 (by decide)⟩⟩

/-- C9: the fixed-seed configuration ignores the OS entropy (`seed`
returns `0` regardless of what the `random_device` would have produced),
so two runs of the full pipeline with identical parameters but different
entropy observations return identical results. -/
theorem C9_fixed_seed_determinism (expf : ℚ → ℚ) (jf : ℕ → ℤ → ℚ)
    (df : ℕ → ℕ → T3) (fuelIB fuelRB : ℕ) (e1 e2 : ℕ) :
    seed e1 = 0 ∧ seed e2 = 0 ∧
    run_program expf jf df fuelIB fuelRB e1
      = run_program expf jf df fuelIB fuelRB e2 :=
  ⟨rfl, rfl, rfl⟩

/-- C10: `reset_pixel` checks nothing: called on a voxel that is already
off it still succeeds, leaves the content field and both index pools
exactly as they were, yet unconditionally subtracts the full kernel
footprint from the energy field — which thereby stops being the sum of
the on-voxel contributions. -/
theorem C10_set_off_unchecked (s : TrackState) (V C : Finset ℤ) (t : T3)
    (hInv : EngineInv s V C)
    (hflag : s.cluster_tracking_is_on = true ∨ C = ∅)
    (hmem : s.mat.T3_to_idx t ∈ V) :
    (reset_pixel s t).mat = s.mat ∧
    (∀ j, (reset_pixel s t).weights.data j
      = s.weights.data j - footprint s.mat s.filter j t) ∧
    voidIndices (reset_pixel s t) = V ∧
    clusterIndices (reset_pixel s t) = C := by
  obtain ⟨hreset, _⟩ := reset_pixel_spec hInv hflag t
  obtain ⟨hdims, hveq, hceq, hvc, hcc, hvr, hcr, hdisj⟩ := hInv
  have hVins : insert (s.mat.T3_to_idx t) V = V :=
    Finset.insert_eq_self.mpr hmem
  have hCer : C.erase (s.mat.T3_to_idx t) = C :=
    Finset.erase_eq_of_not_mem (Finset.disjoint_left.mp hdisj hmem)
  rw [hVins, hCer] at hreset
  rw [hreset]
  refine ⟨?_, fun j => rfl, ?_, ?_⟩
  · show s.mat.setT t 0 = s.mat
    refine Matrix3D.ext rfl rfl rfl ?_
    funext j
    show (if j = s.mat.T3_to_idx t then 0 else s.mat.data j) = s.mat.data j
    by_cases hj : j = s.mat.T3_to_idx t
    · rw [if_pos hj, hj, hvc _ hmem]
    · rw [if_neg hj]
  · show (entriesOf (fun j => s.weights.data j
      - footprint s.mat s.filter j t) V).image (fun p => (ofLex p).2) = V
    exact entriesOf_snd_image _ V
  · show (entriesOf (fun j => s.weights.data j
      - footprint s.mat s.filter j t) C).image (fun p => (ofLex p).2) = C
    exact entriesOf_snd_image _ C

theorem C10_set_off_unchecked_witness :
    EngineInv sW (Finset.Ico 0 2) ∅ ∧
    (sW.cluster_tracking_is_on = true ∨ (∅ : Finset ℤ) = ∅) ∧
    sW.mat.T3_to_idx (0, 0, 0) ∈ Finset.Ico (0 : ℤ) 2 ∧
    ((reset_pixel sW (0, 0, 0)).mat = sW.mat ∧
     (∀ j, (reset_pixel sW (0, 0, 0)).weights.data j
       = sW.weights.data j - footprint sW.mat sW.filter j (0, 0, 0)) ∧
     voidIndices (reset_pixel sW (0, 0, 0)) = Finset.Ico 0 2 ∧
     clusterIndices (reset_pixel sW (0, 0, 0)) = ∅) :=
  ⟨by decide, Or.inl (by decide), by decide,
    C10_set_off_unchecked sW (Finset.Ico 0 2) ∅ (0, 0, 0) (by decide)
      (Or.inl (by decide)) (by decide)⟩

/-- C8 (amended): the kernel constructor enforces only the oddness of
`size` (the source's `assert(size % 2 == 1)`), which in particular
forces `size ≥ 1`; for every odd size it returns the full cube carrying
the Gaussian cell formula — for every `sigma`, including non-positive
ones, since no `sigma > 0` check exists in the code. -/
theorem C8_kernel_gate_amended (size : ℤ) (sigma : ℚ) (expf : ℚ → ℚ) :
    (Int.tmod size 2 ≠ 1 → GaussianMatrix size sigma expf
      = .error "assertion failed: size % 2 == 1") ∧
    (Int.tmod size 2 = 1 → 0 < size ∧ ∃ f, GaussianMatrix size sigma expf
      = .ok f ∧ f.d0 = size ∧ f.d1 = size ∧ f.d2 = size ∧
      ∀ g ∈ cellsList size size size,
        f.get g = gaussVal size sigma expf g) := by
  refine ⟨GaussianMatrix_even size sigma expf, ?_⟩
  intro hodd
  refine ⟨pos_of_tmod_two_eq_one hodd, _, GaussianMatrix_ok size sigma expf
    hodd, ?_⟩
  obtain ⟨_, hd0, hd1, hd2, hget⟩ := GaussianMatrix_spec
    (GaussianMatrix_ok size sigma expf hodd)
  exact ⟨hd0, hd1, hd2, hget⟩

theorem C8_kernel_gate_amended_witness :
    (Int.tmod (2 : ℤ) 2 ≠ 1 ∧ GaussianMatrix 2 1 (fun _ => 1)
      = .error "assertion failed: size % 2 == 1") ∧
    (Int.tmod (3 : ℤ) 2 = 1 ∧ ((0 : ℤ) < 3 ∧
      ∃ f, GaussianMatrix 3 1 (fun _ => 1) = .ok f ∧ f.d0 = 3 ∧ f.d1 = 3 ∧
        f.d2 = 3 ∧ ∀ g ∈ cellsList 3 3 3,
          f.get g = gaussVal 3 1 (fun _ => 1) g)) :=
  ⟨⟨by decide, (C8_kernel_gate_amended 2 1 (fun _ => 1)).1 (by decide)⟩,
    ⟨by decide, (C8_kernel_gate_amended 3 1 (fun _ => 1)).2 (by decide)⟩⟩

/-- C8 counterexample: a non-positive `sigma` passes the constructor —
`GaussianMatrix 1 (-1)` succeeds although the claim requires every
`sigma ≤ 0` to be rejected as a fatal configuration error. -/
theorem C8_kernel_gate_counterexample :
    ((-1 : ℚ) ≤ 0) ∧ isOkE (GaussianMatrix 1 (-1) (fun _ => 1)) = true :=
  ⟨by norm_num, by decide⟩

/-- C1: running `phase_1` with an initial count `0 < k < n` and then
`phase_2_and_3` on a fresh `d0 × d1 × d2` lattice leaves every voxel with
a content rank in `[0, 1)`, and the multiset of content values over the
whole lattice is exactly `{0, 1/n, …, (n-1)/n}` — no duplicates, no
gaps. -/
theorem C1_final_rank_bijection (fuelIB fuelRB : ℕ) (draws : ℕ → T3)
    (d0 d1 d2 : ℤ) (filt : Matrix3D) (jitter : ℤ → ℚ) (k : ℕ)
    (s1 sF : TrackState) (h0 : 0 < d0) (h1 : 0 < d1) (h2 : 0 < d2)
    (hk : 0 < k) (hkn : (k : ℤ) < d0 * d1 * d2)
    (hphase1 : phase_1 fuelIB fuelRB draws k (mkTracked d0 d1 d2 filt jitter)
      = some s1)
    (hphase23 : phase_2_and_3 k s1 = some sF) :
    (∀ i ∈ idxRange sF.mat, 0 ≤ sF.mat.data i ∧ sF.mat.data i < 1) ∧
    contentMS sF (idxRange sF.mat)
      = ranksMS (d0 * d1 * d2) 0 ((d0 * d1 * d2).toNat) := by
  obtain ⟨f0, f1, f2, hMS⟩ := pipeline_ranks h0 h1 h2 (by omega) hphase1
    hphase23
  refine ⟨?_, hMS⟩
  intro i hi
  have hmem : sF.mat.data i ∈ contentMS sF (idxRange sF.mat) :=
    Multiset.mem_map_of_mem _ (Finset.mem_val.mpr hi)
  rw [hMS] at hmem
  exact ranksMS_bounds (mul_pos (mul_pos h0 h1) h2) hmem

set_option maxHeartbeats 2000000 in
theorem C1_final_rank_bijection_witness :
    (0 : ℤ) < 1 ∧ (0 : ℤ) < 2 ∧ 0 < 1 ∧ ((1 : ℕ) : ℤ) < 1 * 1 * 2 ∧
    ∃ s1 sF, phase_1 1 3 drawsW 1 (mkTracked 1 1 2 filtW jitW) = some s1 ∧
      phase_2_and_3 1 s1 = some sF ∧
      ((∀ i ∈ idxRange sF.mat, 0 ≤ sF.mat.data i ∧ sF.mat.data i < 1) ∧
       contentMS sF (idxRange sF.mat)
         = ranksMS (1 * 1 * 2) 0 ((1 * 1 * 2 : ℤ).toNat)) := by
  have hboth : ((phase_1 1 3 drawsW 1 (mkTracked 1 1 2 filtW jitW)).bind
      (phase_2_and_3 1)).isSome = true := by
    with_unfolding_all decide
  obtain ⟨sF, hSF⟩ := Option.isSome_iff_exists.mp hboth
  obtain ⟨s1, hp1, hp2⟩ := Option.bind_eq_some.mp hSF
  exact ⟨by decide, by decide, by decide, by decide, s1, sF, hp1, hp2,
    C1_final_rank_bijection 1 3 drawsW 1 1 2 filtW jitW 1 s1 sF (by decide)
      (by decide) (by decide) (by decide) (by decide) hp1 hp2⟩

/-- C2 (amended): while cluster tracking is on, a consistently tracked
state whose pools cover the lattice satisfies `content == 0 ⇔ void
member` and `content > 0 ⇔ cluster member` for every voxel, and both a
`set_pixel` with a positive rank value and any `reset_pixel` preserve
this; the claim's exception list is incomplete, though — besides
explicit `remove_tracking` evictions, the rank-0 `set_pixel` of the
final `rank_initial_bitmap` iteration breaks the biconditional (see the
counterexample). -/
theorem C2_content_tracking_amended (s : TrackState) (V C : Finset ℤ)
    (t : T3) (v : ℚ) (sp : TrackState)
    (hInv : EngineInv s V C) (hfl : s.cluster_tracking_is_on = true)
    (hcov : V ∪ C = idxRange s.mat) :
    ContentTrackingIff s ∅ ∧
    (0 < v → s.mat.T3_to_idx t ∈ V → set_pixel s t v = .ok sp →
      ContentTrackingIff sp ∅) ∧
    ContentTrackingIff (reset_pixel s t) ∅ := by
  obtain ⟨hdims, hveq, hceq, hvc, hcc, hvr, hcr, hdisj⟩ := hInv
  have hInv' : EngineInv s V C :=
    ⟨hdims, hveq, hceq, hvc, hcc, hvr, hcr, hdisj⟩
  refine ⟨contentTrackingIff_of_inv hInv' hcov, ?_, ?_⟩
  · intro hv hmem hset
    obtain ⟨hset', hsetInv⟩ := set_pixel_spec hInv' (Or.inl hfl) hmem hv
    rw [if_pos hfl] at hset' hsetInv
    rw [hset'] at hset
    obtain rfl := Except.ok.inj hset
    apply contentTrackingIff_of_inv hsetInv
    show V.erase (s.mat.T3_to_idx t) ∪ insert (s.mat.T3_to_idx t) C
      = idxRange s.mat
    rw [Finset.union_insert, ← Finset.insert_union,
      Finset.insert_erase hmem, hcov]
  · obtain ⟨hreset, hresetInv⟩ := reset_pixel_spec hInv' (Or.inl hfl) t
    rw [hreset]
    apply contentTrackingIff_of_inv hresetInv
    show insert (s.mat.T3_to_idx t) V ∪ C.erase (s.mat.T3_to_idx t)
      = idxRange s.mat
    have hiR : s.mat.T3_to_idx t ∈ idxRange s.mat :=
      T3_to_idx_mem s.mat hdims.1 hdims.2.1 hdims.2.2 t
    ext x
    constructor
    · intro hx
      rcases Finset.mem_union.mp hx with hx | hx
      · rcases Finset.mem_insert.mp hx with rfl | hx
        · exact hiR
        · rw [← hcov]
          exact Finset.mem_union_left _ hx
      · rw [← hcov]
        exact Finset.mem_union_right _ (Finset.mem_of_mem_erase hx)
    · intro hx
      by_cases hxi : x = s.mat.T3_to_idx t
      · exact Finset.mem_union_left _ (Finset.mem_insert.mpr (Or.inl hxi))
      · rw [← hcov] at hx
        rcases Finset.mem_union.mp hx with hx | hx
        · exact Finset.mem_union_left _ (Finset.mem_insert_of_mem hx)
        · exact Finset.mem_union_right _ (Finset.mem_erase.mpr ⟨hxi, hx⟩)

theorem C2_content_tracking_amended_witness :
    EngineInv sW (Finset.Ico 0 2) ∅ ∧
    sW.cluster_tracking_is_on = true ∧
    Finset.Ico (0 : ℤ) 2 ∪ ∅ = idxRange sW.mat ∧
    (ContentTrackingIff sW ∅ ∧
     (0 < (1 : ℚ) → sW.mat.T3_to_idx (0, 0, 0) ∈ Finset.Ico (0 : ℤ) 2 →
       set_pixel sW (0, 0, 0) 1 = .ok sInitW → ContentTrackingIff sInitW ∅) ∧
     ContentTrackingIff (reset_pixel sW (0, 0, 0)) ∅) :=
  ⟨by decide, by decide, by decide,
    C2_content_tracking_amended sW (Finset.Ico 0 2) ∅ (0, 0, 0) 1 sInitW
      (by decide) (by decide) (by decide)⟩

/-- C2 counterexample: after the rank-0 `set_pixel` toggle of the final
`rank_initial_bitmap` iteration of the witness run, cluster tracking is
still on, yet the content/tracking biconditional fails even with an
empty exception set: the re-set voxel carries content `0` while sitting
in the cluster pool instead of the void pool. -/
theorem C2_content_tracking_counterexample :
    max_cluster sReordW = some tMaxW ∧
    set_pixel (reset_pixel sReordW tMaxW) tMaxW
      ((0 : ℚ) / ((reset_pixel sReordW tMaxW).mat.size : ℚ)) = .ok sMidW ∧
    sMidW.cluster_tracking_is_on = true ∧
    ¬ ContentTrackingIff sMidW ∅ :=
  ⟨by with_unfolding_all rfl, by with_unfolding_all rfl,
    by with_unfolding_all decide, by with_unfolding_all decide⟩

/-- C6: coordinates are reduced componentwise modulo the corresponding
dimension into `[0, d)` before the row-major flattening
`idx = x + y*d0 + z*d0*d1`, and — for the Gaussian kernel — switching on
the voxel at the origin changes the energy of the wrapped neighbour
`(d0-1, 0, 0)` by exactly the same kernel weight as the energy of
`(1, 0, 0)`. -/
theorem C6_toroidal_wraparound (s : TrackState) (V C : Finset ℤ)
    (size : ℤ) (sigma : ℚ) (expf : ℚ → ℚ) (v : ℚ) (sp : TrackState)
    (hf : GaussianMatrix size sigma expf = .ok s.filter)
    (hInv : EngineInv s V C) (hfl : s.cluster_tracking_is_on = true)
    (hd0 : 1 < s.mat.d0)
    (hmem : s.mat.T3_to_idx (0, 0, 0) ∈ V) (hv : 0 < v)
    (hset : set_pixel s (0, 0, 0) v = .ok sp) :
    (∀ u : T3, (0 ≤ cmod u.1 s.mat.d0 ∧ cmod u.1 s.mat.d0 < s.mat.d0) ∧
      s.mat.get u = s.mat.data (cmod u.1 s.mat.d0
        + cmod u.2.1 s.mat.d1 * s.mat.d0
        + cmod u.2.2 s.mat.d2 * (s.mat.d0 * s.mat.d1))) ∧
    sp.weights.data (s.mat.T3_to_idx (s.mat.d0 - 1, 0, 0))
        - s.weights.data (s.mat.T3_to_idx (s.mat.d0 - 1, 0, 0))
      = sp.weights.data (s.mat.T3_to_idx (1, 0, 0))
        - s.weights.data (s.mat.T3_to_idx (1, 0, 0)) := by
  obtain ⟨hdims, hveq, hceq, hvc, hcc, hvr, hcr, hdisj⟩ := hInv
  have hInv' : EngineInv s V C :=
    ⟨hdims, hveq, hceq, hvc, hcc, hvr, hcr, hdisj⟩
  constructor
  · intro u
    exact ⟨⟨cmod_nonneg u.1 hdims.1, cmod_lt u.1 hdims.1⟩, rfl⟩
  · obtain ⟨hset', _⟩ := set_pixel_spec hInv' (Or.inl hfl) hmem hv
    rw [if_pos hfl] at hset'
    rw [hset'] at hset
    obtain rfl := Except.ok.inj hset
    have hj1 : s.mat.T3_to_idx (s.mat.d0 - 1, 0, 0) = s.mat.d0 - 1 :=
      T3_to_idx_axis0 hdims.2.1 hdims.2.2 (by omega) (by omega)
    have hj2 : s.mat.T3_to_idx ((1 : ℤ), (0 : ℤ), (0 : ℤ)) = 1 :=
      T3_to_idx_axis0 hdims.2.1 hdims.2.2 (by omega) (by omega)
    have hm1 : s.mat.T3_to_idx (s.mat.d0 - 1, 0, 0) ∈ idxRange s.mat :=
      T3_to_idx_mem s.mat hdims.1 hdims.2.1 hdims.2.2 _
    have hm2 : s.mat.T3_to_idx ((1 : ℤ), (0 : ℤ), (0 : ℤ)) ∈ idxRange s.mat
      := T3_to_idx_mem s.mat hdims.1 hdims.2.1 hdims.2.2 _
    have hfd1 := footprint_eq_footprintD s.filter hdims.1 hdims.2.1
      hdims.2.2 hm1 ((0, 0, 0) : T3)
    have hfd2 := footprint_eq_footprintD s.filter hdims.1 hdims.2.1
      hdims.2.2 hm2 ((0, 0, 0) : T3)
    rw [hj1] at hfd1
    rw [hj2] at hfd2
    rw [idx_to_T3_small hdims.1 hdims.2.1 (by omega) (by omega)] at hfd1
    rw [idx_to_T3_small hdims.1 hdims.2.1 (by omega) (by omega)] at hfd2
    have key : footprint s.mat s.filter (s.mat.d0 - 1) ((0, 0, 0) : T3)
        = footprint s.mat s.filter 1 ((0, 0, 0) : T3) := by
      rw [hfd1, hfd2]
      have hstep1 : footprintD s.mat s.filter
          (((s.mat.d0 - 1, 0, 0) : T3) - ((0, 0, 0) : T3))
          = footprintD s.mat s.filter
            (-((((1 : ℤ), (0 : ℤ), (0 : ℤ)) : T3) - ((0, 0, 0) : T3))) := by
        apply footprintD_congr
        · show s.mat.d0 ∣ (s.mat.d0 - 1 - 0) - -(1 - 0)
          have he : (s.mat.d0 - 1 - 0) - -(1 - 0) = s.mat.d0 := by ring
          rw [he]
        · show s.mat.d1 ∣ ((0 : ℤ) - 0) - -(0 - 0)
          have he : ((0 : ℤ) - 0) - -(0 - 0) = 0 := by ring
          rw [he]
          exact dvd_zero _
        · show s.mat.d2 ∣ ((0 : ℤ) - 0) - -(0 - 0)
          have he : ((0 : ℤ) - 0) - -(0 - 0) = 0 := by ring
          rw [he]
          exact dvd_zero _
      rw [hstep1, footprintD_neg (GaussianMatrix_oddDims hf)
        (GaussianMatrix_cellSymm hf)]
    show s.weights.data (s.mat.T3_to_idx (s.mat.d0 - 1, 0, 0))
        + footprint s.mat s.filter (s.mat.T3_to_idx (s.mat.d0 - 1, 0, 0))
          ((0, 0, 0) : T3)
        - s.weights.data (s.mat.T3_to_idx (s.mat.d0 - 1, 0, 0))
      = s.weights.data (s.mat.T3_to_idx ((1 : ℤ), (0 : ℤ), (0 : ℤ)))
        + footprint s.mat s.filter
            (s.mat.T3_to_idx ((1 : ℤ), (0 : ℤ), (0 : ℤ))) ((0, 0, 0) : T3)
        - s.weights.data (s.mat.T3_to_idx ((1 : ℤ), (0 : ℤ), (0 : ℤ)))
    rw [hj1, hj2, key]
    ring

theorem C6_toroidal_wraparound_witness :
    GaussianMatrix 1 1 (fun _ => 1) = .ok sG2W.filter ∧
    EngineInv sG2W (Finset.Ico 0 2) ∅ ∧
    sG2W.cluster_tracking_is_on = true ∧ 1 < sG2W.mat.d0 ∧
    sG2W.mat.T3_to_idx (0, 0, 0) ∈ Finset.Ico (0 : ℤ) 2 ∧ (0 : ℚ) < 1 ∧
    set_pixel sG2W (0, 0, 0) 1 = .ok sC6W ∧
    sC6W.weights.data (sG2W.mat.T3_to_idx (sG2W.mat.d0 - 1, 0, 0))
        - sG2W.weights.data (sG2W.mat.T3_to_idx (sG2W.mat.d0 - 1, 0, 0))
      = sC6W.weights.data (sG2W.mat.T3_to_idx (1, 0, 0))
        - sG2W.weights.data (sG2W.mat.T3_to_idx (1, 0, 0)) :=
  ⟨by with_unfolding_all rfl, by decide, by decide, by decide, by decide,
    by norm_num, by with_unfolding_all rfl,
    (C6_toroidal_wraparound sG2W (Finset.Ico 0 2) ∅ 1 1 (fun _ => 1) 1 sC6W
      (by with_unfolding_all rfl) (by decide) (by decide) (by decide)
      (by decide) (by norm_num) (by with_unfolding_all rfl)).2⟩

/-- C7: from every state the initial sampling can produce (at least one
accepted draw on a fresh lattice with the Gaussian kernel), the
balancing loop terminates — some fuel makes the fuelled `while (true)`
return — and a pass exits precisely when the voxel it picked as largest
cluster coincides with the voxel it subsequently picked as largest
void. -/
theorem C7_balancing_termination (d0 d1 d2 size : ℤ) (sigma : ℚ)
    (expf : ℚ → ℚ) (jit : ℤ → ℚ) (draws : ℕ → T3) (fuelIB count : ℕ)
    (f : Matrix3D) (s1 : TrackState)
    (h0 : 0 < d0) (h1 : 0 < d1) (h2 : 0 < d2) (hcount : 0 < count)
    (hf : GaussianMatrix size sigma expf = .ok f)
    (hib : initial_bitmap fuelIB draws count 0 (mkTracked d0 d1 d2 f jit)
      = some s1) :
    (∃ fuel sp, reorder_bitmap fuel s1 = some sp) ∧
    (∀ sb done, reorder_body s1 = some (sb, done) →
      ∃ tmax tmin, max_cluster s1 = some tmax ∧
        max_void (reset_pixel s1 tmax) = some tmin ∧
        (done = true ↔ tmin = tmax)) ∧
    (∀ fuel sb done, reorder_body s1 = some (sb, done) →
      reorder_bitmap (fuel + 1) s1
        = if done = true then some sb else reorder_bitmap fuel sb) := by
  obtain ⟨S, hInv, hcard⟩ := initial_bitmap_reorderInv fuelIB count 0 draws
    (mkTracked d0 d1 d2 f jit) ∅ s1
    (mkTracked_reorderInv d0 d1 d2 h0 h1 h2 f jit) hib
  have hSne : S.Nonempty := by
    rw [← Finset.card_pos, hcard]
    have hce : (∅ : Finset ℤ).card = 0 := rfl
    omega
  refine ⟨?_, ?_, ?_⟩
  · exact reorder_terminates (GaussianMatrix_oddDims hf)
      (GaussianMatrix_cellSymm hf) _ s1 S (le_refl _) hInv hSne
  · intro sb done hbody
    cases hmc : max_cluster s1 with
    | none =>
      simp only [reorder_body, hmc] at hbody
      exact absurd hbody (by simp)
    | some tmax =>
      cases hmv : max_void (reset_pixel s1 tmax) with
      | none =>
        simp only [reorder_body, hmc, hmv] at hbody
        exact absurd hbody (by simp)
      | some tmin =>
        simp only [reorder_body, hmc, hmv] at hbody
        cases hsp : set_pixel (reset_pixel s1 tmax) tmin 1 with
        | error e =>
          simp only [hsp] at hbody
          exact absurd hbody (by simp)
        | ok s2 =>
          simp only [hsp] at hbody
          have hpair := Option.some.inj hbody
          have hdone : decide (tmin = tmax) = done := congrArg Prod.snd hpair
          refine ⟨tmax, tmin, rfl, hmv, ?_⟩
          rw [← hdone]
          exact ⟨fun h => of_decide_eq_true h, fun h => decide_eq_true h⟩
  · intro fuel sb done hbody
    simp only [reorder_bitmap, hbody]

theorem C7_balancing_termination_witness :
    (0 : ℤ) < 1 ∧ (0 : ℤ) < 2 ∧ 0 < 1 ∧
    GaussianMatrix 1 1 (fun _ => 1) = .ok gaussW ∧
    initial_bitmap 1 drawsW 1 0 (mkTracked 1 1 2 gaussW jitW)
      = some sGInitW ∧
    (∃ fuel sp, reorder_bitmap fuel sGInitW = some sp) :=
  ⟨by decide, by decide, by decide, by with_unfolding_all rfl,
    by with_unfolding_all rfl,
    (C7_balancing_termination 1 1 2 1 1 (fun _ => 1) jitW drawsW 1 1
      gaussW sGInitW (by decide) (by decide) (by decide) (by decide)
      (by with_unfolding_all rfl) (by with_unfolding_all rfl)).1⟩

end VoidCluster
